import Mathlib

/-!
# dist-store: interval algebra, shardmaster and shardkv

A shallow embedding of `src/common/common.cc`, `src/shardmaster/shardmaster.cc`
and `src/shardkv/shardkv.cc`.

Conventions of the embedding.

* `unsigned int` values are natural numbers; where the source can wrap
  (`move_shard.lower - 1`, `move_shard.upper + 1`, `max - min`) the
  arithmetic is written modulo `2 ^ 32`.
* A call that does not return normally (a failed `assert`, an exception
  such as `std::out_of_range` or the one thrown by `std::stoi`, or
  undefined behaviour such as dereferencing `end()`) is the result `none`.
* `std::map<std::string, T>` is a list of pairs kept in ascending key
  order, as the iteration order of the C++ container.
* A handler returns its `grpc::Status` together with the state it leaves
  behind, also on error paths.
-/

namespace DistStore

/-! ## common.cc -/

/-- The modulus of `unsigned int` arithmetic. -/
def UINT_MOD : Nat := 4294967296

/-- The struct `shard_t`: a closed interval with `unsigned int` bounds. -/
structure shard where
  lower : Nat
  upper : Nat
deriving DecidableEq, Repr

/-- Modelled from the spec: `common.h` is not part of the sources; the
spec's concrete scenarios fix `MIN_KEY = 0`. -/
def MIN_KEY : Nat := 0

/-- Modelled from the spec: `common.h` is not part of the sources; the
spec's concrete scenarios fix `MAX_KEY = 999`. -/
def MAX_KEY : Nat := 999

/-- The comparison used by `sortAscendingInterval`, as a non-strict order
for a stable insertion sort. -/
def lowerLE (a b : shard) : Prop := a.lower ≤ b.lower

instance lowerLE_decidable : DecidableRel lowerLE :=
  fun a b => inferInstanceAs (Decidable (a.lower ≤ b.lower))

instance lowerLE_total : IsTotal shard lowerLE :=
  ⟨fun a b => Nat.le_total a.lower b.lower⟩

instance lowerLE_trans : IsTrans shard lowerLE :=
  ⟨fun _ _ _ h1 h2 => Nat.le_trans h1 h2⟩

/-- Function `sortAscendingInterval`: sorts by `lower`. `std::sort` leaves the
relative order of shards with equal `lower` unspecified; the model keeps
their input order. On a vector with pairwise different lower bounds, as in
every partition evaluated below, the result does not depend on that choice
(`sortAscendingInterval_unique`). -/
def sortAscendingInterval (shards : List shard) : List shard :=
  shards.insertionSort lowerLE

/-- Function `split_shard`: `none` when the assertion `s.lower < s.upper` fails. -/
def split_shard (s : shard) : Option (shard × shard) :=
  if s.lower < s.upper then
    let midpoint := s.lower + ((s.upper - s.lower) / 2)
    some (⟨s.lower, midpoint⟩, ⟨midpoint + 1, s.upper⟩)
  else none

/-- The computation of `split_shard` with every `unsigned int` operation
reduced modulo `2 ^ 32`. -/
def split_shard_u32 (s : shard) : Option (shard × shard) :=
  if s.lower < s.upper then
    let midpoint :=
      (s.lower + ((s.upper + UINT_MOD - s.lower) % UINT_MOD) / 2) % UINT_MOD
    some (⟨s.lower, midpoint⟩, ⟨(midpoint + 1) % UINT_MOD, s.upper⟩)
  else none

/-- The inner `while (!shards.empty())` loop of `partition`, on the
vector read from its back: every shard is split and both halves are pushed
on `stack`. -/
def splitFromBack : List shard → Option (List shard)
  | [] => some []
  | s :: rest =>
    match split_shard s with
    | none => none
    | some (a, b) =>
      match splitFromBack rest with
      | none => none
      | some r => some (a :: b :: r)

/-- One iteration of the outer loop of `partition`: `shards = stack`. -/
def splitPass (shards : List shard) : Option (List shard) :=
  splitFromBack shards.reverse

/-- The outer `while (i < ...)` loop of `partition`, run `k` times. -/
def splitPasses : Nat → List shard → Option (List shard)
  | 0, shards => some shards
  | k + 1, shards =>
    match splitPass shards with
    | none => none
    | some stack => splitPasses k stack

/-- Function `partition(n, min, max)`. -/
def partition (n : Int) (min max : Nat) : Option (List shard) :=
  if n < 1 then some []
  else if n = 1 then some [⟨min, max⟩]
  else if n % 2 = 0 then
    (splitPasses (n / 2).toNat [⟨min, max⟩]).map sortAscendingInterval
  else
    let interval := ((max + UINT_MOD - min) % UINT_MOD) / n.toNat
    (splitPasses ((n - 1) / 2).toNat [⟨interval + 1, max⟩]).map
      (fun shards => sortAscendingInterval (shards ++ [⟨min, interval⟩]))

/-- The enum `OverlapStatus`. -/
inductive OverlapStatus where
  | NO_OVERLAP
  | OVERLAP_START
  | OVERLAP_END
  | COMPLETELY_CONTAINS
  | COMPLETELY_CONTAINED
deriving DecidableEq, Repr

/-- Function `get_overlap(a, b)`: `none` is the final `throw`. -/
def get_overlap (a b : shard) : Option OverlapStatus :=
  if a.upper < b.lower ∨ b.upper < a.lower then some .NO_OVERLAP
  else if b.lower ≤ a.lower ∧ a.upper ≤ b.upper then some .COMPLETELY_CONTAINED
  else if a.lower < b.lower ∧ a.upper > b.upper then some .COMPLETELY_CONTAINS
  else if a.lower ≥ b.lower ∧ a.upper > b.upper then some .OVERLAP_START
  else if a.lower < b.lower ∧ a.upper ≤ b.upper then some .OVERLAP_END
  else none

/-! ### Strings and keys -/

/-- The comparison of `std::string` behind `std::map`: lexicographic on
the characters (code-point order is the byte order of UTF-8). -/
def ltChars : List Char → List Char → Bool
  | _, [] => false
  | [], _ :: _ => true
  | a :: as, b :: bs =>
    if a.toNat < b.toNat then true
    else if b.toNat < a.toNat then false
    else ltChars as bs

/-- The view `c_str()` gives of a `std::string`: the characters before
the first NUL. -/
def c_str (s : String) : List Char :=
  s.data.takeWhile (fun c => c != Char.ofNat 0)

/-- The tokens `strtok_r` yields on `cs` for the delimiter set `delim`:
the maximal runs of non-delimiter characters. `acc` holds the current
token, reversed. -/
def strtok (delim : List Char) : List Char → List Char → List (List Char)
  | [], acc => if acc = [] then [] else [acc.reverse]
  | c :: cs, acc =>
    if c ∈ delim then
      (if acc = [] then strtok delim cs [] else acc.reverse :: strtok delim cs [])
    else strtok delim cs (c :: acc)

/-- Function `parse_value(val, delim)`. -/
def parse_value (val delim : String) : List String :=
  (strtok (c_str delim) (c_str val) []).map String.mk

/-- Predicate `isspace` in the "C" locale. -/
def isspace (c : Char) : Bool :=
  c = ' ' || c = '\t' || c = '\n' || c = '\r' || c = Char.ofNat 11 || c = Char.ofNat 12

/-- The value of a run of decimal digits. -/
def digitsValue (ds : List Char) : Nat :=
  ds.foldl (fun acc c => 10 * acc + (c.toNat - 48)) 0

/-- The optional sign read by `strtol`: whether it is a minus, and the
characters after it. -/
def readSign : List Char → Bool × List Char
  | '-' :: r => (true, r)
  | '+' :: r => (false, r)
  | r => (false, r)

/-- Function `std::stoi(s)`: skips leading white space, reads an optional
sign and the longest run of decimal digits; `none` when it throws
(`std::invalid_argument` without a digit, `std::out_of_range` outside
`int`). -/
def stoi (s : String) : Option Int :=
  let signed := readSign ((c_str s).dropWhile isspace)
  let ds := signed.2.takeWhile Char.isDigit
  if ds = [] then none
  else
    let v : Int := if signed.1 then - (digitsValue ds : Int) else (digitsValue ds : Int)
    if v < -2147483648 ∨ 2147483647 < v then none else some v

/-- Function `extractID(key)`: `none` when the assertion `tokens.size() > 1` fails
or `stoi` throws. -/
def extractID (key : String) : Option Int :=
  match parse_value key "_" with
  | _ :: t :: _ => stoi t
  | _ => none

/-- Function `CheckInShard(key, shards)`; the `int` key is compared with the
`unsigned int` bounds after conversion to `unsigned int`. -/
def CheckInShard (key : Int) (shards : List shard) : Bool :=
  shards.any (fun s =>
    decide (s.lower ≤ (key % (UINT_MOD : Int)).toNat) &&
    decide ((key % (UINT_MOD : Int)).toNat ≤ s.upper))

/-! ### `std::map<std::string, T>` -/

namespace StdMap

/-- Lookup `m.find(k)`: `none` is `end()`. -/
def find {β : Type} : List (String × β) → String → Option β
  | [], _ => none
  | (k', v) :: rest, k => if k' = k then some v else find rest k

/-- Insertion `m.insert(k, v)`: keeps the map sorted and does not overwrite. -/
def insert {β : Type} : List (String × β) → String → β → List (String × β)
  | [], k, v => [(k, v)]
  | (k', v') :: rest, k, v =>
    if ltChars k.data k'.data then (k, v) :: (k', v') :: rest
    else if k' = k then (k', v') :: rest
    else (k', v') :: insert rest k v

/-- The assignment `it->second = v` for `it = m.find(k)`. -/
def assign {β : Type} : List (String × β) → String → β → List (String × β)
  | [], _, _ => []
  | (k', v') :: rest, k, v =>
    if k' = k then (k', v) :: assign rest k v else (k', v') :: assign rest k v

/-- Removal `m.erase(k)`. -/
def erase {β : Type} : List (String × β) → String → List (String × β)
  | [], _ => []
  | (k', v') :: rest, k =>
    if k' = k then erase rest k else (k', v') :: erase rest k

end StdMap

/-- Type `grpc::Status`, with the error message. -/
inductive Status where
  | OK
  | INVALID_ARGUMENT (msg : String)
deriving DecidableEq, Repr

/-! ## shardmaster.cc -/

/-- The state of `StaticShardmaster` guarded by `shard_mtx`. -/
structure StaticShardmaster where
  server_order : List String
  server_shard_map : List (String × List shard)
deriving DecidableEq, Repr

/-- The shardmaster at process start. -/
def StaticShardmaster.empty : StaticShardmaster := ⟨[], []⟩

/-- The loop `for (i < server_order.size())` of `Join` and `Leave`, from
index `i` on: the server `server_order.at(i)` is given the single interval
`shards.at(i)`. `none` when `at` throws or the server is not in the map. -/
def reassign (shards : List shard) :
    List String → Nat → List (String × List shard) → Option (List (String × List shard))
  | [], _, m => some m
  | srv :: rest, i, m =>
    match shards[i]?, StdMap.find m srv with
    | some sh, some _ => reassign shards rest (i + 1) (StdMap.assign m srv [sh])
    | _, _ => none

/-- Handler `StaticShardmaster::Join`. -/
def StaticShardmaster.Join (sm : StaticShardmaster) (server : String) :
    Option (Status × StaticShardmaster) :=
  if server = "" then
    some (.INVALID_ARGUMENT "ERR: JOIN request null server", sm)
  else if (StdMap.find sm.server_shard_map server).isSome then
    some (.INVALID_ARGUMENT "ERR: JOIN request server already in cluster", sm)
  else
    let partition_num : Int := (sm.server_shard_map.length : Int) + 1
    if partition_num = 1 then
      some (.OK,
        { server_order := sm.server_order ++ [server]
          server_shard_map :=
            StdMap.insert sm.server_shard_map server [⟨MIN_KEY, MAX_KEY⟩] })
    else
      match partition partition_num MIN_KEY MAX_KEY with
      | none => none
      | some shards =>
        match reassign shards sm.server_order 0 sm.server_shard_map with
        | none => none
        | some m =>
          match shards.getLast? with
          | none => none
          | some last =>
            some (.OK,
              { server_order := sm.server_order ++ [server]
                server_shard_map := StdMap.insert m server [last] })

/-- The body of the first loop of `Leave` for one entry of the request:
`none` when the server is not in the map (the handler then returns an
error); otherwise the server is erased from the map and its first
occurrence from `server_order`. -/
def leaveOne (sm : StaticShardmaster) (server : String) : Option StaticShardmaster :=
  match StdMap.find sm.server_shard_map server with
  | none => none
  | some _ =>
    if server ∈ sm.server_order then
      some { server_order := sm.server_order.erase server
             server_shard_map := StdMap.erase sm.server_shard_map server }
    else some sm

/-- The first loop of `Leave`: the state reached and whether every entry
was found. On a missing server the loop stops with the removals done so
far. -/
def leaveAll : List String → StaticShardmaster → Bool × StaticShardmaster
  | [], sm => (true, sm)
  | server :: rest, sm =>
    match leaveOne sm server with
    | none => (false, sm)
    | some sm' => leaveAll rest sm'

/-- Handler `StaticShardmaster::Leave`. -/
def StaticShardmaster.Leave (sm : StaticShardmaster) (servers : List String) :
    Option (Status × StaticShardmaster) :=
  if servers.length = 0 then
    some (.INVALID_ARGUMENT "ERR: LEAVE request null server list", sm)
  else
    match leaveAll servers sm with
    | (false, sm') =>
      some (.INVALID_ARGUMENT "ERR: LEAVE request server not found in config", sm')
    | (true, sm') =>
      if sm'.server_order = [] then some (.OK, sm')
      else
        match partition (sm'.server_order.length : Int) MIN_KEY MAX_KEY with
        | none => none
        | some new_shards =>
          match reassign new_shards sm'.server_order 0 sm'.server_shard_map with
          | none => none
          | some m => some (.OK, { sm' with server_shard_map := m })

/-- The `switch` of `Move` for one existing interval `sd`: the intervals
pushed on `new_intervals`. The subtraction and the addition are those of
`unsigned int`. -/
def moveOne (move_shard sd : shard) : Option (List shard) :=
  match get_overlap move_shard sd with
  | none => none
  | some .NO_OVERLAP => some [sd]
  | some .OVERLAP_START =>
    some [⟨sd.lower, (move_shard.lower + UINT_MOD - 1) % UINT_MOD⟩]
  | some .OVERLAP_END =>
    some [⟨(move_shard.upper + 1) % UINT_MOD, sd.upper⟩]
  | some .COMPLETELY_CONTAINS => some []
  | some .COMPLETELY_CONTAINED =>
    some ((if sd.lower ≠ move_shard.lower then
            [⟨sd.lower, (move_shard.lower + UINT_MOD - 1) % UINT_MOD⟩] else []) ++
          (if move_shard.upper < sd.upper then
            [⟨(move_shard.upper + 1) % UINT_MOD, sd.upper⟩] else []))

/-- The loop `for (auto &sd : shards)` of `Move`. -/
def moveIntervals (move_shard : shard) : List shard → Option (List shard)
  | [] => some []
  | sd :: rest =>
    match moveOne move_shard sd, moveIntervals move_shard rest with
    | some a, some b => some (a ++ b)
    | _, _ => none

/-- The loop over `server_order` of `Move`. -/
def moveAll (move_shard : shard) :
    List String → List (String × List shard) → Option (List (String × List shard))
  | [], m => some m
  | srv :: rest, m =>
    match StdMap.find m srv with
    | none => none
    | some shards =>
      match moveIntervals move_shard shards with
      | none => none
      | some new_intervals =>
        moveAll move_shard rest (StdMap.assign m srv new_intervals)

/-- Handler `StaticShardmaster::Move`. -/
def StaticShardmaster.Move (sm : StaticShardmaster) (server : String) (move_shard : shard) :
    Option (Status × StaticShardmaster) :=
  if server = "" then
    some (.INVALID_ARGUMENT "ERR: MOVE request null server", sm)
  else if (StdMap.find sm.server_shard_map server).isNone then
    some (.INVALID_ARGUMENT "ERR: MOVE request server not found", sm)
  else
    match moveAll move_shard sm.server_order sm.server_shard_map with
    | none => none
    | some m =>
      match StdMap.find m server with
      | none => none
      | some shards =>
        some (.OK, { sm with server_shard_map := StdMap.assign m server (shards ++ [move_shard]) })

/-- The loop of `Query`: one `ConfigEntry` per entry of `server_order`. -/
def queryEntries (m : List (String × List shard)) :
    List String → Option (List (String × List shard))
  | [] => some []
  | server :: rest =>
    match StdMap.find m server, queryEntries m rest with
    | some shards, some entries => some ((server, shards) :: entries)
    | _, _ => none

/-- Handler `StaticShardmaster::Query`: the status and the `config` entries of
the response. -/
def StaticShardmaster.Query (sm : StaticShardmaster) :
    Option (Status × List (String × List shard)) :=
  if sm.server_order = [] then some (.OK, [])
  else
    match queryEntries sm.server_shard_map sm.server_order with
    | none => none
    | some entries => some (.OK, entries)

/-! ## shardkv.cc -/

/-- A request a handler sends to a peer server (`stub->Append`,
`stub->Delete`, `stub->Put`). The handler repeats it until the peer answers
OK; the model records the request once and lets the handler go on, so a
result `some` of a handler that sends requests is its result when the peers
answer. -/
inductive PeerCall where
  | Append (server key data : String)
  | Delete (server key : String)
  | Put (server key data user : String)
deriving DecidableEq, Repr

/-- The state of `ShardkvServer` guarded by `kv_mutex`. -/
structure ShardkvServer where
  address : String
  kv_store : List (String × String)
  local_shard : List shard
  server_shard_map : List (String × List shard)
  deleted : List String
deriving DecidableEq, Repr

/-- The idiom `it = kv_store.find(key); if (it == end()) insert(key, data)
else it->second = data`. -/
def upsert (kv : List (String × String)) (key data : String) : List (String × String) :=
  match StdMap.find kv key with
  | none => StdMap.insert kv key data
  | some _ => StdMap.assign kv key data

/-- The statements `it = kv_store.find("all_users"); it->second =
it->second + key + ","`; `none` when `all_users` is not stored. -/
def appendAllUsers (kv : List (String × String)) (key : String) :
    Option (List (String × String)) :=
  match StdMap.find kv "all_users" with
  | none => none
  | some v => some (StdMap.assign kv "all_users" (v ++ key ++ ","))

/-- Handler `ShardkvServer::Get`: the status and the `data` set in the response. -/
def ShardkvServer.Get (s : ShardkvServer) (key : String) : Option (Status × Option String) :=
  if key = "" then some (.INVALID_ARGUMENT "ERR: GET request key null", none)
  else if key = "all_users" then
    match StdMap.find s.kv_store "all_users" with
    | none => none
    | some all_users => some (.OK, some all_users)
  else
    match extractID key with
    | none => none
    | some id =>
      if CheckInShard id s.local_shard = false then
        some (.INVALID_ARGUMENT "ERR: server not responsible for key", none)
      else
        match StdMap.find s.kv_store key with
        | none => some (.INVALID_ARGUMENT "GET request key not found", none)
        | some value => some (.OK, some value)

/-- Handler `ShardkvServer::Put`: the status, the state left behind and the
requests sent to peers. -/
def ShardkvServer.Put (s : ShardkvServer) (key data user : String) :
    Option (Status × ShardkvServer × List PeerCall) :=
  if key = "" then some (.INVALID_ARGUMENT "ERR: PUT request key null", s, [])
  else if key = "all_users" then
    some (.INVALID_ARGUMENT "ERR: PUT request all users invalid", s, [])
  else
    let parsed := parse_value key "_"
    match extractID key with
    | none => none
    | some uid =>
      if CheckInShard uid s.local_shard = false then
        some (.INVALID_ARGUMENT "ERR: PUT request server not responsible for key", s, [])
      else if parsed[0]? = some "post" ∧ parsed.length = 2 ∧ user = "" then
        some (.OK, { s with kv_store := upsert s.kv_store key data }, [])
      else if parsed.length = 3 ∧ (parsed[0]? = some "user" ∧ parsed[2]? = some "posts") ∧
          user = "" then
        some (.OK, { s with kv_store := upsert s.kv_store key data }, [])
      else if parsed[0]? = some "user" ∧ parsed.length = 2 then
        match StdMap.find s.kv_store key with
        | none =>
          match appendAllUsers (StdMap.insert s.kv_store key data) key with
          | none => none
          | some kv => some (.OK, { s with kv_store := kv }, [])
        | some _ => some (.OK, { s with kv_store := StdMap.assign s.kv_store key data }, [])
      else if parsed[0]? = some "post" ∧ parsed.length = 2 ∧ user ≠ "" then
        match StdMap.find s.kv_store key with
        | some _ => some (.OK, { s with kv_store := StdMap.assign s.kv_store key data }, [])
        | none =>
          let kv1 := StdMap.insert s.kv_store key data
          match extractID user with
          | none => none
          | some uuid =>
            if CheckInShard uuid s.local_shard = false then
              some (.OK, { s with kv_store := kv1 },
                (s.server_shard_map.filter (fun server => CheckInShard uuid server.2)).map
                  (fun server => PeerCall.Append server.1 (user ++ "_posts") (key ++ ",")))
            else
              let kv2 :=
                match StdMap.find kv1 user with
                | none => appendAllUsers (StdMap.insert kv1 user "") user
                | some _ => some kv1
              match kv2 with
              | none => none
              | some kv2 =>
                match StdMap.find kv2 (user ++ "_posts") with
                | none =>
                  some (.OK,
                    { s with kv_store := StdMap.insert kv2 (user ++ "_posts") (key ++ ",") }, [])
                | some v =>
                  some (.OK,
                    { s with kv_store :=
                        StdMap.assign kv2 (user ++ "_posts") (v ++ key ++ ",") }, [])
      else some (.OK, s, [])

/-- Handler `ShardkvServer::Append`: the status, the state left behind and
the requests sent to peers. -/
def ShardkvServer.Append (s : ShardkvServer) (key data : String) :
    Option (Status × ShardkvServer × List PeerCall) :=
  if key = "" then some (.INVALID_ARGUMENT "ERR: APPEND request key null", s, [])
  else if key = "all_users" then
    some (.INVALID_ARGUMENT "ERR: APPEND request all users illegal behavior", s, [])
  else
    let parsed := parse_value key "_"
    match extractID key with
    | none => none
    | some id =>
      if CheckInShard id s.local_shard = false then
        some (.INVALID_ARGUMENT "ERR: APPEND request server not responsible for id", s, [])
      else if parsed.length = 3 ∧ (parsed[0]? = some "user" ∧ parsed[2]? = some "posts") then
        match StdMap.find s.kv_store key with
        | none => some (.OK, { s with kv_store := StdMap.insert s.kv_store key data }, [])
        | some v => some (.OK, { s with kv_store := StdMap.assign s.kv_store key (v ++ data) }, [])
      else
        match StdMap.find s.kv_store key with
        | none =>
          if parsed.length = 2 ∧ parsed[0]? = some "post" then
            some (.INVALID_ARGUMENT
              "ERR: APPEND request cannot handle post_id without user_id specified", s, [])
          else if parsed.length = 2 ∧ parsed[0]? = some "user" then
            match appendAllUsers (StdMap.insert s.kv_store key data) key with
            | none => none
            | some kv => some (.OK, { s with kv_store := kv }, [])
          else some (.OK, s, [])
        | some v => some (.OK, { s with kv_store := StdMap.assign s.kv_store key (v ++ data) }, [])

/-- The loop `for (auto &post : this_user_posts)` of `Delete`, on the
store, the tombstone list and the requests sent so far. `key` is the key of
the request. -/
def deletePosts (address : String) (server_shard_map : List (String × List shard))
    (key : String) :
    List String → List (String × String) × List String × List PeerCall →
      Option (List (String × String) × List String × List PeerCall)
  | [], st => some st
  | post :: rest, (kv, deleted, calls) =>
    match StdMap.find kv post with
    | none =>
      match extractID post with
      | none => none
      | some post_id =>
        deletePosts address server_shard_map key rest
          (kv, deleted,
            calls ++ (server_shard_map.filter (fun server_shard =>
                CheckInShard post_id server_shard.2 && decide (address ≠ server_shard.1))).map
              (fun server_shard => PeerCall.Delete server_shard.1 post))
    | some _ =>
      deletePosts address server_shard_map key rest
        (StdMap.erase kv post, deleted ++ [key], calls)

/-- The tail of the user branch of `Delete` and of the reconciler: joins
the tokens back, each followed by a comma. -/
def joinCommas (tokens : List String) : String :=
  tokens.foldl (fun new_all_users c => new_all_users ++ c ++ ",") ""

/-- Handler `ShardkvServer::Delete`: the status, the state left behind and the
requests sent to peers. -/
def ShardkvServer.Delete (s : ShardkvServer) (key : String) :
    Option (Status × ShardkvServer × List PeerCall) :=
  if key = "" then some (.INVALID_ARGUMENT "ERR: DELETE request key null", s, [])
  else if key = "all_users" then
    some (.INVALID_ARGUMENT "ERR: DELETE request all users illegal behavior", s, [])
  else
    let parsed := parse_value key "_"
    match extractID key with
    | none => none
    | some id =>
      if CheckInShard id s.local_shard = false then
        some (.INVALID_ARGUMENT "ERR: DELETE request server not responsible for id", s, [])
      else if parsed[0]? = some "post" ∧ parsed.length = 2 then
        match StdMap.find s.kv_store key with
        | none =>
          if key ∈ s.deleted then some (.OK, s, [])
          else some (.INVALID_ARGUMENT "ERR: DELETE request post_id not found on server", s, [])
        | some _ =>
          some (.OK,
            { s with kv_store := StdMap.erase s.kv_store key, deleted := s.deleted ++ [key] }, [])
      else if parsed[0]? = some "user" ∧ parsed.length = 2 then
        match StdMap.find s.kv_store key with
        | none =>
          some (.INVALID_ARGUMENT "ERR: DELETE request user_id not found on server", s, [])
        | some _ =>
          let kv1 := StdMap.erase s.kv_store key
          match StdMap.find kv1 (key ++ "_posts") with
          | none => none
          | some posts =>
            match deletePosts s.address s.server_shard_map key (parse_value posts ",")
                (kv1, s.deleted, []) with
            | none => none
            | some (kv2, deleted2, calls) =>
              match StdMap.find kv2 "all_users" with
              | none => none
              | some v =>
                let all_users := parse_value v ","
                let m := all_users.indexOf key
                if m = all_users.length then none
                else
                  let kv3 := StdMap.assign kv2 "all_users" (joinCommas (all_users.eraseIdx m))
                  some (.OK,
                    { s with kv_store := StdMap.erase kv3 (key ++ "_posts"),
                             deleted := deleted2 }, calls)
      else some (.OK, s, [])

/-- The loop `for (i < server_num)` of the reconciler: the entries of the
response are inserted one by one into the map `m`. -/
def configMap : List (String × List shard) → List (String × List shard) →
    List (String × List shard)
  | [], m => m
  | config :: rest, m => configMap rest (StdMap.insert m config.1 config.2)

/-- The loop `for (auto &kv : kv_store)` of the reconciler on the entries
still to visit. The state is the store (the loop rewrites its `all_users`
record), `updated_kv_store` and the requests sent so far. `none` when
`extractID` fails, `all_users` is not stored, or the user is not among the
tokens of `all_users`. -/
def reconcileLoop (local_shard : List shard) (server_shard_map : List (String × List shard)) :
    List (String × String) → List (String × String) × List (String × String) × List PeerCall →
      Option (List (String × String) × List (String × String) × List PeerCall)
  | [], st => some st
  | kv :: rest, (kv_store, updated_kv_store, calls) =>
    if kv.1 = "all_users" then
      reconcileLoop local_shard server_shard_map rest (kv_store, updated_kv_store, calls)
    else
      match extractID kv.1 with
      | none => none
      | some id =>
        if CheckInShard id local_shard = false then
          let sent := calls ++
            (server_shard_map.filter (fun server => CheckInShard id server.2)).map
              (fun server => PeerCall.Put server.1 kv.1 kv.2 "")
          let parsed := parse_value kv.1 "_"
          if parsed.length = 2 ∧ parsed[0]? = some "user" then
            match StdMap.find kv_store "all_users" with
            | none => none
            | some v =>
              let all_users := parse_value v ","
              let m := all_users.indexOf kv.1
              if m = all_users.length then none
              else
                reconcileLoop local_shard server_shard_map rest
                  (StdMap.assign kv_store "all_users" (joinCommas (all_users.eraseIdx m)),
                    updated_kv_store, sent)
          else reconcileLoop local_shard server_shard_map rest (kv_store, updated_kv_store, sent)
        else
          reconcileLoop local_shard server_shard_map rest
            (kv_store, StdMap.insert updated_kv_store kv.1 kv.2, calls)

/-- Method `ShardkvServer::QueryShardmaster` (the reconciler pass) on the
answer of the shardmaster: `none` for a status that is not OK, the `config`
entries otherwise. The result is the state left behind and the requests sent
to peers; `none` when the lookup of `address` in the new map, a lookup of
`all_users` or the loop fails. -/
def ShardkvServer.QueryShardmaster (s : ShardkvServer)
    (response : Option (List (String × List shard))) : Option (ShardkvServer × List PeerCall) :=
  match response with
  | none => some (s, [])
  | some config =>
    let server_shard_map := configMap config []
    match StdMap.find server_shard_map s.address with
    | none => none
    | some local_shard =>
      match reconcileLoop local_shard server_shard_map s.kv_store (s.kv_store, [], []) with
      | none => none
      | some (kv_store, updated_kv_store, calls) =>
        match StdMap.find kv_store "all_users" with
        | none => none
        | some all_users =>
          some (⟨s.address, StdMap.insert updated_kv_store "all_users" all_users, local_shard,
            server_shard_map, s.deleted⟩, calls)

/-! ## simpleshardkv.cc -/

/-- The state of `SimpleShardkvServer`. -/
structure SimpleShardkvServer where
  kv_store : List (String × String)
deriving DecidableEq, Repr

/-- Handler `SimpleShardkvServer::Get`: the status and the `data` set in the
response. -/
def SimpleShardkvServer.Get (s : SimpleShardkvServer) (key : String) : Status × Option String :=
  if key = "" then (.INVALID_ARGUMENT "request key null", none)
  else
    match StdMap.find s.kv_store key with
    | none => (.INVALID_ARGUMENT "GET request key not found", none)
    | some value => (.OK, some value)

/-- Handler `SimpleShardkvServer::Put`: the status and the state left behind.
The `user` field of the request is not read. -/
def SimpleShardkvServer.Put (s : SimpleShardkvServer) (key value : String) :
    Status × SimpleShardkvServer :=
  if key = "" ∨ value = "" then (.INVALID_ARGUMENT "PUT request key or value null", s)
  else
    match StdMap.find s.kv_store key with
    | none => (.OK, { kv_store := StdMap.insert s.kv_store key value })
    | some _ => (.OK, { kv_store := StdMap.assign s.kv_store key value })

/-- Handler `SimpleShardkvServer::Append`: the status and the state left
behind. -/
def SimpleShardkvServer.Append (s : SimpleShardkvServer) (key value : String) :
    Status × SimpleShardkvServer :=
  if key = "" ∨ value = "" then (.INVALID_ARGUMENT "APPEND request key or value null", s)
  else
    match StdMap.find s.kv_store key with
    | none => (.OK, { kv_store := StdMap.insert s.kv_store key value })
    | some w => (.OK, { kv_store := StdMap.assign s.kv_store key (w ++ value) })

/-- Handler `SimpleShardkvServer::Delete`: the status and the state left
behind. -/
def SimpleShardkvServer.Delete (s : SimpleShardkvServer) (key : String) :
    Status × SimpleShardkvServer :=
  if key = "" then (.INVALID_ARGUMENT "DELETE request key null", s)
  else
    match StdMap.find s.kv_store key with
    | none => (.INVALID_ARGUMENT "GET request key not found", s)
    | some _ => (.OK, { kv_store := StdMap.erase s.kv_store key })

/-! ## Vocabulary of the properties -/

/-- Key `k` lies in the closed interval `s`. -/
def shard.contains (s : shard) (k : Nat) : Prop := s.lower ≤ k ∧ k ≤ s.upper

instance shard.contains_decidable (s : shard) (k : Nat) : Decidable (s.contains k) :=
  inferInstanceAs (Decidable (s.lower ≤ k ∧ k ≤ s.upper))

/-- Two intervals are disjoint when the upper bound of one is strictly
below the lower bound of the other. -/
def shard.disjoint (a b : shard) : Prop := a.upper < b.lower ∨ b.upper < a.lower

instance shard.disjoint_decidable : DecidableRel shard.disjoint :=
  fun a b => inferInstanceAs (Decidable (a.upper < b.lower ∨ b.upper < a.lower))

/-- The intervals of a list are pairwise disjoint. -/
def PairwiseDisjoint (shards : List shard) : Prop := shards.Pairwise shard.disjoint

instance PairwiseDisjoint_decidable (shards : List shard) :
    Decidable (PairwiseDisjoint shards) :=
  inferInstanceAs (Decidable (shards.Pairwise shard.disjoint))

/-- The union of the intervals of a list is exactly `[lo, hi]`. -/
def Covers (shards : List shard) (lo hi : Nat) : Prop :=
  ∀ k, (∃ s ∈ shards, s.contains k) ↔ (lo ≤ k ∧ k ≤ hi)

/-- The intervals held by all servers of the assignment map. -/
def StaticShardmaster.intervals (sm : StaticShardmaster) : List shard :=
  sm.server_shard_map.flatMap (fun entry => entry.2)

/-- A call to the shardmaster. -/
inductive Request where
  | Join (server : String)
  | Leave (servers : List String)
  | Move (server : String) (s : shard)
deriving DecidableEq, Repr

/-- The handler of a call. -/
def StaticShardmaster.handle (sm : StaticShardmaster) :
    Request → Option (Status × StaticShardmaster)
  | .Join server => sm.Join server
  | .Leave servers => sm.Leave servers
  | .Move server s => sm.Move server s

/-- Runs a sequence of calls that all return OK; `none` when one of them
fails or does not return. -/
def StaticShardmaster.runOK : List Request → StaticShardmaster → Option StaticShardmaster
  | [], sm => some sm
  | r :: rest, sm =>
    match sm.handle r with
    | some (.OK, sm') => StaticShardmaster.runOK rest sm'
    | _ => none

/-- The configurations reached from the empty one by Join, Leave and Move
calls that return OK. -/
inductive Reachable : StaticShardmaster → Prop where
  | empty : Reachable StaticShardmaster.empty
  | step {sm sm' : StaticShardmaster} (r : Request) :
      Reachable sm → sm.handle r = some (.OK, sm') → Reachable sm'

/-- The configurations in which no Move has taken place since the last
Join or Leave: the empty configuration, and the result of a Join or a Leave
that returns OK on a reachable configuration. -/
inductive AfterJoinLeave : StaticShardmaster → Prop where
  | empty : AfterJoinLeave StaticShardmaster.empty
  | join {sm sm' : StaticShardmaster} (server : String) :
      Reachable sm → sm.Join server = some (.OK, sm') → AfterJoinLeave sm'
  | leave {sm sm' : StaticShardmaster} (servers : List String) :
      Reachable sm → sm.Leave servers = some (.OK, sm') → AfterJoinLeave sm'

/-- A non-empty run of decimal digits: the `<id>` of a schema key. -/
def Decimal (ds : List Char) : Prop := ds ≠ [] ∧ ∀ c ∈ ds, c.isDigit = true

instance Decimal_decidable (ds : List Char) : Decidable (Decimal ds) :=
  inferInstanceAs (Decidable (ds ≠ [] ∧ ∀ c ∈ ds, c.isDigit = true))

/-- The key `user_<id>`. -/
def userKey (ds : List Char) : String := "user_" ++ String.mk ds

/-- The key `post_<id>`. -/
def postKey (ds : List Char) : String := "post_" ++ String.mk ds

/-- The key `user_<id>_posts`. -/
def userPostsKey (ds : List Char) : String := "user_" ++ String.mk ds ++ "_posts"

/-- The keys of the assignment map are exactly the members, without
repetition on either side. -/
def StaticShardmaster.Consistent (sm : StaticShardmaster) : Prop :=
  sm.server_order.Nodup ∧ (sm.server_shard_map.map Prod.fst).Nodup ∧
    ∀ k, k ∈ sm.server_shard_map.map Prod.fst ↔ k ∈ sm.server_order

/-- Every member holds exactly the interval that `partition` returns at the
member's position in `server_order`. -/
def StaticShardmaster.Canonical (sm : StaticShardmaster) : Prop :=
  ∃ P : List shard, partition (sm.server_order.length : Int) MIN_KEY MAX_KEY = some P ∧
    ∀ (i : Nat) (srv : String), sm.server_order[i]? = some srv →
      ∃ sh : shard, P[i]? = some sh ∧ StdMap.find sm.server_shard_map srv = some [sh]

/-- The configurations reached from the empty one by Join, Leave and Move
calls that return, with any status. -/
inductive ReachableAny : StaticShardmaster → Prop where
  | empty : ReachableAny StaticShardmaster.empty
  | step {sm sm' : StaticShardmaster} (r : Request) (st : Status) :
      ReachableAny sm → sm.handle r = some (st, sm') → ReachableAny sm'

/-- The members in the order of the configuration as the spec describes it:
a Join appends the server, a Leave removes the leaving servers and keeps
the relative order of the others, a Move changes nothing. -/
def membersAfter : List String → List Request → List String
  | order, [] => order
  | order, .Join server :: rest => membersAfter (order ++ [server]) rest
  | order, .Leave servers :: rest =>
    membersAfter (order.filter (fun k => decide (k ∉ servers))) rest
  | order, .Move _ _ :: rest => membersAfter order rest

/-- Every interval of a list has its lower bound at most its upper
bound. -/
def WellFormed (shards : List shard) : Prop := ∀ s ∈ shards, s.lower ≤ s.upper

instance WellFormed_decidable (shards : List shard) : Decidable (WellFormed shards) :=
  inferInstanceAs (Decidable (∀ s ∈ shards, s.lower ≤ s.upper))

/-- The key a request to a peer carries. -/
def PeerCall.key : PeerCall → String
  | .Append _ key _ => key
  | .Delete _ key => key
  | .Put _ key _ _ => key

/-- The id of a key is read and lies in the intervals. -/
def idInShards (key : String) (shards : List shard) : Bool :=
  match extractID key with
  | none => false
  | some id => CheckInShard id shards

/-- The requests the loop of the reconciler sends for one record of the
store: none for `all_users` and for a record whose id is in the local
intervals, otherwise one `Put` to every server of the map whose intervals
contain the id. -/
def migrationCalls (local_shard : List shard) (server_shard_map : List (String × List shard))
    (kv : String × String) : List PeerCall :=
  if kv.1 = "all_users" then []
  else
    match extractID kv.1 with
    | none => []
    | some id =>
      if CheckInShard id local_shard = false then
        (server_shard_map.filter (fun server => CheckInShard id server.2)).map
          (fun server => PeerCall.Put server.1 kv.1 kv.2 "")
      else []

/-- The key has the form `user_<id>`, with `<id>` a non-empty run of
decimal digits. -/
def isUserKey (k : String) : Bool :=
  match k.data with
  | 'u' :: 's' :: 'e' :: 'r' :: '_' :: ds => !ds.isEmpty && ds.all Char.isDigit
  | _ => false

/-- The `all_users` record of the store is the comma-terminated list of the
keys of `l`, and `l` lists exactly the stored keys of the form `user_<id>`,
each once. -/
def ListsUsers (kv : List (String × String)) (l : List String) : Prop :=
  StdMap.find kv "all_users" = some (joinCommas l) ∧ l.Nodup ∧
    (∀ k ∈ l, isUserKey k = true ∧ StdMap.find kv k ≠ none) ∧
    ∀ e ∈ kv, isUserKey e.1 = true → e.1 ∈ l

instance ListsUsers_decidable (kv : List (String × String)) (l : List String) :
    Decidable (ListsUsers kv l) :=
  inferInstanceAs (Decidable (StdMap.find kv "all_users" = some (joinCommas l) ∧ l.Nodup ∧
    (∀ k ∈ l, isUserKey k = true ∧ StdMap.find kv k ≠ none) ∧
    ∀ e ∈ kv, isUserKey e.1 = true → e.1 ∈ l))

/-- The store `kv'` has the `all_users` record and the stored keys of the
form `user_<id>` of the store `kv`. -/
def SameUsers (kv kv' : List (String × String)) : Prop :=
  StdMap.find kv' "all_users" = StdMap.find kv "all_users" ∧
    ∀ k, isUserKey k = true → (StdMap.find kv' k ≠ none ↔ StdMap.find kv k ≠ none)

/-- The loop of the reconciler takes the key out of `all_users`: the key is
not `all_users`, its id is not in the local intervals, and it has two
tokens, the first of which is `user`. -/
def dropsUser (local_shard : List shard) (k : String) : Bool :=
  decide (k ≠ "all_users") && !idInShards k local_shard &&
    decide ((parse_value k "_").length = 2 ∧ (parse_value k "_")[0]? = some "user")

/-- The reconciler can read the key: the key has an id, and if the
reconciler treats it as a user (two tokens, the first of which is `user`) it
has the form `user_<id>`. -/
def readableKey (k : String) : Prop :=
  extractID k ≠ none ∧
    ((parse_value k "_").length = 2 ∧ (parse_value k "_")[0]? = some "user" →
      isUserKey k = true)

instance readableKey_decidable (k : String) : Decidable (readableKey k) :=
  inferInstanceAs (Decidable (extractID k ≠ none ∧
    ((parse_value k "_").length = 2 ∧ (parse_value k "_")[0]? = some "user" →
      isUserKey k = true)))

/-- The two halves that `split_shard` returns for `s`, in the order in which
the loop of `partition` pushes them on `stack`. -/
def halves (s : shard) : List shard :=
  match split_shard s with
  | some (a, b) => [a, b]
  | none => []

/-- The list tiles `[lo, hi]` from left to right: the first interval starts
at `lo`, every interval has `lower ≤ upper`, each next interval starts one
above the upper bound of the previous one, and the last one ends at `hi`. -/
def TilesFrom (hi : Nat) : Nat → List shard → Prop
  | lo, [] => lo = hi + 1
  | lo, s :: rest => s.lower = lo ∧ s.lower ≤ s.upper ∧ TilesFrom hi (s.upper + 1) rest

instance TilesFrom_decidable (hi : Nat) :
    ∀ (lo : Nat) (l : List shard), Decidable (TilesFrom hi lo l)
  | lo, [] => inferInstanceAs (Decidable (lo = hi + 1))
  | lo, s :: rest =>
    have : Decidable (TilesFrom hi (s.upper + 1) rest) :=
      TilesFrom_decidable hi (s.upper + 1) rest
    inferInstanceAs
      (Decidable (s.lower = lo ∧ s.lower ≤ s.upper ∧ TilesFrom hi (s.upper + 1) rest))

/-! ## Lemmas on `std::map` -/

namespace StdMap

theorem find_insert_self {β : Type} (m : List (String × β)) (k : String) (v : β)
    (h : find m k = none) : find (insert m k v) k = some v := by
  induction m with
  | nil => simp [insert, find]
  | cons p rest ih =>
    obtain ⟨k', v'⟩ := p
    simp only [find] at h
    split at h
    · exact absurd h (by simp)
    · rename_i hne
      simp only [insert]
      split
      · simp [find]
      · simp [hne, find, ih h]

theorem find_insert_ne {β : Type} (m : List (String × β)) (k k' : String) (v : β)
    (h : k ≠ k') : find (insert m k v) k' = find m k' := by
  induction m with
  | nil => simp [insert, find, h]
  | cons p rest ih =>
    obtain ⟨k₀, v₀⟩ := p
    simp only [insert]
    split
    · simp [find, h]
    · split
      · rfl
      · simp [find, ih]

theorem find_assign_self {β : Type} (m : List (String × β)) (k : String) (v w : β)
    (h : find m k = some w) : find (assign m k v) k = some v := by
  induction m with
  | nil => simp [find] at h
  | cons p rest ih =>
    obtain ⟨k₀, v₀⟩ := p
    simp only [find] at h
    by_cases hk : k₀ = k
    · simp [assign, find, hk]
    · simp only [hk, if_false] at h
      simp [assign, find, hk, ih h]

theorem find_assign_ne {β : Type} (m : List (String × β)) (k k' : String) (v : β)
    (h : k ≠ k') : find (assign m k v) k' = find m k' := by
  induction m with
  | nil => simp [assign, find]
  | cons p rest ih =>
    obtain ⟨k₀, v₀⟩ := p
    by_cases hk : k₀ = k
    · subst hk
      simp [assign, find, h, ih]
    · simp [assign, find, hk, ih]

theorem find_erase_self {β : Type} (m : List (String × β)) (k : String) :
    find (erase m k) k = none := by
  induction m with
  | nil => simp [erase, find]
  | cons p rest ih =>
    obtain ⟨k₀, v₀⟩ := p
    by_cases hk : k₀ = k
    · simp [erase, hk, ih]
    · simp [erase, hk, find, ih]

theorem find_erase_ne {β : Type} (m : List (String × β)) (k k' : String)
    (h : k ≠ k') : find (erase m k) k' = find m k' := by
  induction m with
  | nil => simp [erase, find]
  | cons p rest ih =>
    obtain ⟨k₀, v₀⟩ := p
    by_cases hk : k₀ = k
    · subst hk
      simp [erase, find, h, ih]
    · simp [erase, hk, find, ih]

end StdMap

/-! ## Lemmas on keys and tokens -/

theorem strtok_no_delim (delim : List Char) (ds acc : List Char)
    (h : ∀ c ∈ ds, c ∉ delim) :
    strtok delim ds acc = if acc.reverse ++ ds = [] then [] else [acc.reverse ++ ds] := by
  induction ds generalizing acc with
  | nil => simp [strtok]
  | cons c cs ih =>
    have hc : c ∉ delim := h c (List.mem_cons_self _ _)
    have hcs : ∀ d ∈ cs, d ∉ delim := fun d hd => h d (List.mem_cons_of_mem _ hd)
    simp [strtok, hc, ih (c :: acc) hcs]

theorem strtok_append_delim (delim : List Char) (tok rest acc : List Char) (d : Char)
    (h : ∀ c ∈ tok, c ∉ delim) (hd : d ∈ delim) :
    strtok delim (tok ++ d :: rest) acc =
      (if acc.reverse ++ tok = [] then [] else [acc.reverse ++ tok]) ++ strtok delim rest [] := by
  induction tok generalizing acc with
  | nil =>
    by_cases hacc : acc = [] <;> simp [strtok, hd, hacc]
  | cons c cs ih =>
    have hc : c ∉ delim := h c (List.mem_cons_self _ _)
    have hcs : ∀ d ∈ cs, d ∉ delim := fun d hd => h d (List.mem_cons_of_mem _ hd)
    simp [strtok, hc, ih (c :: acc) hcs]

theorem isDigit_ne_underscore (c : Char) (h : c.isDigit = true) : c ≠ '_' := by
  rintro rfl
  exact absurd h (by decide)

theorem isDigit_ne_nul (c : Char) (h : c.isDigit = true) : c ≠ Char.ofNat 0 := by
  rintro rfl
  exact absurd h (by decide)

theorem takeWhile_not_nul_digits (ds rest : List Char) (h : ∀ c ∈ ds, c.isDigit = true) :
    (ds ++ rest).takeWhile (fun c => c != Char.ofNat 0)
      = ds ++ rest.takeWhile (fun c => c != Char.ofNat 0) := by
  induction ds with
  | nil => simp
  | cons c cs ih =>
    have hc : c ≠ Char.ofNat 0 := isDigit_ne_nul c (h c (List.mem_cons_self _ _))
    have hcs : ∀ d ∈ cs, d.isDigit = true := fun d hd => h d (List.mem_cons_of_mem _ hd)
    simp [List.takeWhile_cons, hc, ih hcs]

theorem c_str_underscore : c_str "_" = ['_'] := by decide

theorem parse_value_userKey (ds : List Char) (h : Decimal ds) :
    parse_value (userKey ds) "_" = ["user", String.mk ds] := by
  have hnd : ∀ c ∈ ds, c ∉ ['_'] := fun c hc => by
    simpa using isDigit_ne_underscore c (h.2 c hc)
  have h1 : c_str (userKey ds) = ['u', 's', 'e', 'r', '_'] ++ ds := by
    have := takeWhile_not_nul_digits ds [] h.2
    simp at this
    simpa [c_str, userKey, List.takeWhile_cons] using this
  simp only [parse_value, h1, c_str_underscore]
  have h2 := strtok_append_delim ['_'] ['u', 's', 'e', 'r'] ds [] '_' (by decide) (by decide)
  simp only [List.append_assoc, List.cons_append, List.nil_append] at h2 ⊢
  rw [h2, strtok_no_delim _ _ _ hnd]
  simp [h.1]

theorem parse_value_postKey (ds : List Char) (h : Decimal ds) :
    parse_value (postKey ds) "_" = ["post", String.mk ds] := by
  have hnd : ∀ c ∈ ds, c ∉ ['_'] := fun c hc => by
    simpa using isDigit_ne_underscore c (h.2 c hc)
  have h1 : c_str (postKey ds) = ['p', 'o', 's', 't', '_'] ++ ds := by
    have := takeWhile_not_nul_digits ds [] h.2
    simp at this
    simpa [c_str, postKey, List.takeWhile_cons] using this
  simp only [parse_value, h1, c_str_underscore]
  have h2 := strtok_append_delim ['_'] ['p', 'o', 's', 't'] ds [] '_' (by decide) (by decide)
  simp only [List.append_assoc, List.cons_append, List.nil_append] at h2 ⊢
  rw [h2, strtok_no_delim _ _ _ hnd]
  simp [h.1]

theorem parse_value_userPostsKey (ds : List Char) (h : Decimal ds) :
    parse_value (userPostsKey ds) "_" = ["user", String.mk ds, "posts"] := by
  have hnd : ∀ c ∈ ds, c ∉ ['_'] := fun c hc => by
    simpa using isDigit_ne_underscore c (h.2 c hc)
  have h1 : c_str (userPostsKey ds)
      = ['u', 's', 'e', 'r', '_'] ++ (ds ++ '_' :: ['p', 'o', 's', 't', 's']) := by
    have := takeWhile_not_nul_digits ds ['_', 'p', 'o', 's', 't', 's'] h.2
    simpa [c_str, userPostsKey, List.takeWhile_cons] using this
  simp only [parse_value, h1, c_str_underscore]
  have h2 := strtok_append_delim ['_'] ['u', 's', 'e', 'r']
    (ds ++ '_' :: ['p', 'o', 's', 't', 's']) [] '_' (by decide) (by decide)
  have h3 := strtok_append_delim ['_'] ds ['p', 'o', 's', 't', 's'] [] '_' hnd (by decide)
  simp only [List.append_assoc, List.cons_append, List.nil_append] at h2 h3 ⊢
  rw [h2, h3]
  simp [h.1, strtok]

theorem userKey_ne_empty (ds : List Char) : userKey ds ≠ "" := by
  intro h
  have := congrArg String.data h
  simp [userKey] at this

/-- On a run of decimal digits within the range of `int`, `stoi` returns its
value. -/
theorem stoi_decimal (ds : List Char) (h : Decimal ds) (hr : digitsValue ds ≤ 2147483647) :
    stoi (String.mk ds) = some (digitsValue ds : Int) := by
  have h1 : c_str (String.mk ds) = ds := by
    have := takeWhile_not_nul_digits ds [] h.2
    simpa [c_str] using this
  obtain ⟨d, rest, rfl⟩ : ∃ d rest, ds = d :: rest := by
    cases ds with
    | nil => exact absurd rfl h.1
    | cons d rest => exact ⟨d, rest, rfl⟩
  have hd : d.isDigit = true := h.2 d (List.mem_cons_self _ _)
  have hsp : isspace d = false := by
    have e1 : d ≠ ' ' := by rintro rfl; exact absurd hd (by decide)
    have e2 : d ≠ '\t' := by rintro rfl; exact absurd hd (by decide)
    have e3 : d ≠ '\n' := by rintro rfl; exact absurd hd (by decide)
    have e4 : d ≠ '\r' := by rintro rfl; exact absurd hd (by decide)
    have e5 : d ≠ Char.ofNat 11 := by rintro rfl; exact absurd hd (by decide)
    have e6 : d ≠ Char.ofNat 12 := by rintro rfl; exact absurd hd (by decide)
    simp [isspace, e1, e2, e3, e4, e5, e6]
  have hminus : d ≠ '-' := by
    rintro rfl
    exact absurd hd (by decide)
  have hplus : d ≠ '+' := by
    rintro rfl
    exact absurd hd (by decide)
  have htw : (d :: rest).takeWhile Char.isDigit = d :: rest :=
    List.takeWhile_eq_self_iff.mpr h.2
  have hdw : (d :: rest).dropWhile isspace = d :: rest := by
    simp [List.dropWhile_cons, hsp]
  have hsign : readSign (d :: rest) = (false, d :: rest) := by
    unfold readSign
    split
    · rename_i heq
      simp at heq
      exact absurd heq.1 hminus
    · rename_i heq
      simp at heq
      exact absurd heq.1 hplus
    · rfl
  unfold stoi
  simp only [h1, hdw, hsign, htw]
  simp
  omega

theorem extractID_postKey (ds : List Char) (h : Decimal ds) (hr : digitsValue ds ≤ 2147483647) :
    extractID (postKey ds) = some (digitsValue ds : Int) := by
  simp only [extractID, parse_value_postKey ds h]
  exact stoi_decimal ds h hr

theorem extractID_userKey (ds : List Char) (h : Decimal ds) (hr : digitsValue ds ≤ 2147483647) :
    extractID (userKey ds) = some (digitsValue ds : Int) := by
  simp only [extractID, parse_value_userKey ds h]
  exact stoi_decimal ds h hr

theorem extractID_userPostsKey (ds : List Char) (h : Decimal ds)
    (hr : digitsValue ds ≤ 2147483647) :
    extractID (userPostsKey ds) = some (digitsValue ds : Int) := by
  simp only [extractID, parse_value_userPostsKey ds h]
  exact stoi_decimal ds h hr

/-! ## Lemmas on `Get`, `Put` and `Delete` -/

theorem postKey_ne_empty (ds : List Char) : postKey ds ≠ "" := by
  intro h
  have := congrArg String.data h
  simp [postKey] at this

theorem postKey_ne_all_users (ds : List Char) : postKey ds ≠ "all_users" := by
  intro h
  have := congrArg String.data h
  simp [postKey] at this

theorem userKey_ne_all_users (ds : List Char) : userKey ds ≠ "all_users" := by
  intro h
  have := congrArg String.data h
  simp [userKey] at this

theorem userPostsKey_ne_empty (ds : List Char) : userPostsKey ds ≠ "" := by
  intro h
  have := congrArg String.data h
  simp [userPostsKey] at this

theorem userPostsKey_ne_all_users (ds : List Char) : userPostsKey ds ≠ "all_users" := by
  intro h
  have := congrArg String.data h
  simp [userPostsKey] at this

theorem postKey_ne_append_posts (ds : List Char) (h : Decimal ds) (user : String) :
    user ++ "_posts" ≠ postKey ds := by
  intro heq
  have h1 := congrArg (fun t => t.data.getLast?) heq
  obtain ⟨c, hc⟩ : ∃ c, ds.getLast? = some c := by
    cases hl : ds.getLast? with
    | none => exact absurd (List.getLast?_eq_none_iff.mp hl) h.1
    | some c => exact ⟨c, rfl⟩
  have hmem : c ∈ ds := List.mem_of_getLast?_eq_some hc
  have hdig := h.2 c hmem
  have h2 : ("post_".data ++ ds).getLast? = ds.getLast? :=
    List.getLast?_append_of_ne_nil _ h.1
  simp only [postKey, String.data_append, h2, hc] at h1
  simp [List.getLast?_append] at h1
  subst h1
  exact absurd hdig (by decide)

/-- Result of `Get` on a stored key whose id is local. -/
theorem Get_of_find (address : String) (kv : List (String × String)) (loc : List shard)
    (m : List (String × List shard)) (deleted : List String) (key data : String) (id : Int)
    (hne : key ≠ "") (hau : key ≠ "all_users") (hid : extractID key = some id)
    (hloc : CheckInShard id loc = true)
    (hf : StdMap.find kv key = some data) :
    ShardkvServer.Get ⟨address, kv, loc, m, deleted⟩ key = some (.OK, some data) := by
  simp [ShardkvServer.Get, hne, hau, hid, hloc, hf]

theorem find_upsert (kv : List (String × String)) (key data : String) :
    StdMap.find (upsert kv key data) key = some data := by
  unfold upsert
  cases h : StdMap.find kv key with
  | none => exact StdMap.find_insert_self _ _ _ h
  | some w => exact StdMap.find_assign_self _ _ _ _ h

theorem find_appendAllUsers (kv kv' : List (String × String)) (u key : String)
    (hau : key ≠ "all_users") (h : appendAllUsers kv u = some kv') :
    StdMap.find kv' key = StdMap.find kv key := by
  unfold appendAllUsers at h
  cases hf : StdMap.find kv "all_users" with
  | none => simp [hf] at h
  | some v =>
    simp [hf] at h
    subst h
    exact StdMap.find_assign_ne _ _ _ _ (Ne.symm hau)

theorem put_get_user (s s' : ShardkvServer) (ds : List Char) (data user : String)
    (calls : List PeerCall) (hds : Decimal ds)
    (hput : s.Put (userKey ds) data user = some (.OK, s', calls)) :
    s'.Get (userKey ds) = some (.OK, some data) := by
  simp only [ShardkvServer.Put, userKey_ne_empty, userKey_ne_all_users, if_false,
    parse_value_userKey ds hds] at hput
  cases hid : extractID (userKey ds) with
  | none => simp [hid] at hput
  | some id =>
    simp only [hid] at hput
    by_cases hloc : CheckInShard id s.local_shard = true
    · simp [hloc] at hput
      cases hf : StdMap.find s.kv_store (userKey ds) with
      | none =>
        simp only [hf] at hput
        cases ha : appendAllUsers (StdMap.insert s.kv_store (userKey ds) data) (userKey ds) with
        | none => simp [ha] at hput
        | some kv =>
          simp [ha] at hput
          obtain ⟨rfl, -⟩ := hput
          apply Get_of_find _ _ _ _ _ _ _ id (userKey_ne_empty ds) (userKey_ne_all_users ds) hid hloc
          rw [find_appendAllUsers _ _ _ _ (userKey_ne_all_users ds) ha]
          exact StdMap.find_insert_self _ _ _ hf
      | some w =>
        simp [hf] at hput
        obtain ⟨rfl, -⟩ := hput
        apply Get_of_find _ _ _ _ _ _ _ id (userKey_ne_empty ds) (userKey_ne_all_users ds) hid hloc
        exact StdMap.find_assign_self _ _ _ _ hf
    · simp [hloc] at hput

theorem put_get_userPosts (s s' : ShardkvServer) (ds : List Char) (data : String)
    (calls : List PeerCall) (hds : Decimal ds)
    (hput : s.Put (userPostsKey ds) data "" = some (.OK, s', calls)) :
    s'.Get (userPostsKey ds) = some (.OK, some data) := by
  simp only [ShardkvServer.Put, userPostsKey_ne_empty, userPostsKey_ne_all_users, if_false,
    parse_value_userPostsKey ds hds] at hput
  cases hid : extractID (userPostsKey ds) with
  | none => simp [hid] at hput
  | some id =>
    simp only [hid] at hput
    by_cases hloc : CheckInShard id s.local_shard = true
    · simp [hloc] at hput
      obtain ⟨rfl, -⟩ := hput
      apply Get_of_find _ _ _ _ _ _ _ id (userPostsKey_ne_empty ds) (userPostsKey_ne_all_users ds)
        hid hloc
      exact find_upsert _ _ _
    · simp [hloc] at hput

/-- The last step of the post branch of `Put`: the post is appended to
`user_<id>_posts`. -/
theorem put_post_tail (s s' : ShardkvServer) (ds : List Char) (data user : String)
    (calls : List PeerCall) (kv2 : List (String × String)) (id : Int) (hds : Decimal ds)
    (hid : extractID (postKey ds) = some id) (hloc : CheckInShard id s.local_shard = true)
    (hk2 : StdMap.find kv2 (postKey ds) = some data)
    (hput :
      (match StdMap.find kv2 (user ++ "_posts") with
        | none =>
          some (Status.OK,
            ({ s with kv_store := StdMap.insert kv2 (user ++ "_posts") (postKey ds ++ ",") } :
              ShardkvServer), ([] : List PeerCall))
        | some v =>
          some (Status.OK,
            ({ s with kv_store :=
                StdMap.assign kv2 (user ++ "_posts") (v ++ postKey ds ++ ",") } :
              ShardkvServer), ([] : List PeerCall))) = some (.OK, s', calls)) :
    s'.Get (postKey ds) = some (.OK, some data) := by
  cases hfp : StdMap.find kv2 (user ++ "_posts") with
  | none =>
    simp [hfp] at hput
    obtain ⟨rfl, -⟩ := hput
    apply Get_of_find _ _ _ _ _ _ _ id (postKey_ne_empty ds)
      (postKey_ne_all_users ds) hid hloc
    rw [StdMap.find_insert_ne _ _ _ _ (postKey_ne_append_posts ds hds user)]
    exact hk2
  | some v =>
    simp [hfp] at hput
    obtain ⟨rfl, -⟩ := hput
    apply Get_of_find _ _ _ _ _ _ _ id (postKey_ne_empty ds)
      (postKey_ne_all_users ds) hid hloc
    rw [StdMap.find_assign_ne _ _ _ _ (postKey_ne_append_posts ds hds user)]
    exact hk2

theorem put_get_post (s s' : ShardkvServer) (ds : List Char) (data user : String)
    (calls : List PeerCall) (hds : Decimal ds)
    (hput : s.Put (postKey ds) data user = some (.OK, s', calls)) :
    s'.Get (postKey ds) = some (.OK, some data) := by
  simp only [ShardkvServer.Put, postKey_ne_empty, postKey_ne_all_users, if_false,
    parse_value_postKey ds hds] at hput
  cases hid : extractID (postKey ds) with
  | none => simp [hid] at hput
  | some id =>
    simp only [hid] at hput
    by_cases hloc : CheckInShard id s.local_shard = true
    · by_cases hu : user = ""
      · simp [hloc, hu] at hput
        obtain ⟨rfl, -⟩ := hput
        apply Get_of_find _ _ _ _ _ _ _ id (postKey_ne_empty ds) (postKey_ne_all_users ds)
          hid hloc
        exact find_upsert _ _ _
      · simp [hloc, hu] at hput
        cases hf : StdMap.find s.kv_store (postKey ds) with
        | some w =>
          simp [hf] at hput
          obtain ⟨rfl, -⟩ := hput
          apply Get_of_find _ _ _ _ _ _ _ id (postKey_ne_empty ds) (postKey_ne_all_users ds)
            hid hloc
          exact StdMap.find_assign_self _ _ _ _ hf
        | none =>
          simp only [hf] at hput
          have hk1 : StdMap.find (StdMap.insert s.kv_store (postKey ds) data) (postKey ds)
              = some data := StdMap.find_insert_self _ _ _ hf
          cases hx : extractID user with
          | none => simp [hx] at hput
          | some uuid =>
            simp only [hx] at hput
            by_cases hul : CheckInShard uuid s.local_shard = true
            · simp only [hul] at hput
              cases hfu : StdMap.find (StdMap.insert s.kv_store (postKey ds) data) user with
              | none =>
                simp only [hfu] at hput
                have hne : user ≠ postKey ds := by
                  rintro rfl
                  rw [hk1] at hfu
                  exact absurd hfu (by simp)
                cases ha : appendAllUsers
                    (StdMap.insert (StdMap.insert s.kv_store (postKey ds) data) user "")
                    user with
                | none => simp [ha] at hput
                | some kv2 =>
                  simp only [ha] at hput
                  refine put_post_tail s s' ds data user calls kv2 id hds hid hloc ?_ hput
                  rw [find_appendAllUsers _ _ _ _ (postKey_ne_all_users ds) ha,
                    StdMap.find_insert_ne _ _ _ _ hne]
                  exact hk1
              | some w =>
                simp only [hfu] at hput
                exact put_post_tail s s' ds data user calls _ id hds hid hloc hk1 hput
            · simp [hul] at hput
              obtain ⟨rfl, -⟩ := hput
              apply Get_of_find _ _ _ _ _ _ _ id (postKey_ne_empty ds)
                (postKey_ne_all_users ds) hid hloc
              exact hk1
    · simp [hloc] at hput

/-- The post branch of `Delete`, once the guards are passed. -/
theorem Delete_postKey (s : ShardkvServer) (ds : List Char) (id : Int)
    (hds : Decimal ds) (hid : extractID (postKey ds) = some id)
    (hloc : CheckInShard id s.local_shard = true) :
    s.Delete (postKey ds) =
      match StdMap.find s.kv_store (postKey ds) with
      | none =>
        if postKey ds ∈ s.deleted then some (.OK, s, [])
        else some (.INVALID_ARGUMENT "ERR: DELETE request post_id not found on server", s, [])
      | some _ =>
        some (.OK,
          { s with kv_store := StdMap.erase s.kv_store (postKey ds),
                   deleted := s.deleted ++ [postKey ds] }, []) := by
  simp only [ShardkvServer.Delete, postKey_ne_empty, postKey_ne_all_users, if_false, hid,
    hloc, parse_value_postKey ds hds]
  cases hfind : StdMap.find s.kv_store (postKey ds) <;> simp


/-! ## Lemmas on `Join`, `Leave` and `Query` -/

namespace StdMap

theorem mem_keys_iff {β : Type} (m : List (String × β)) (k : String) :
    k ∈ m.map Prod.fst ↔ find m k ≠ none := by
  induction m with
  | nil => simp [find]
  | cons p rest ih =>
    obtain ⟨k₀, v₀⟩ := p
    by_cases hk : k₀ = k
    · simp [find, hk]
    · have hk' : ¬ k = k₀ := fun h => hk h.symm
      simp [find, hk, hk', ih]

theorem keys_assign {β : Type} (m : List (String × β)) (k : String) (v : β) :
    (assign m k v).map Prod.fst = m.map Prod.fst := by
  induction m with
  | nil => simp [assign]
  | cons p rest ih =>
    obtain ⟨k₀, v₀⟩ := p
    by_cases hk : k₀ = k <;> simp [assign, hk, ih]

theorem keys_insert_perm {β : Type} (m : List (String × β)) (k : String) (v : β)
    (h : find m k = none) : ((insert m k v).map Prod.fst).Perm (k :: m.map Prod.fst) := by
  induction m with
  | nil => simp [insert]
  | cons p rest ih =>
    obtain ⟨k₀, v₀⟩ := p
    simp only [find] at h
    split at h
    · exact absurd h (by simp)
    · rename_i hne
      simp only [insert]
      split
      · simp
      · simp only [hne, if_false, List.map_cons]
        exact ((ih h).cons k₀).trans (List.Perm.swap _ _ _)

theorem keys_erase {β : Type} (m : List (String × β)) (k : String) :
    (erase m k).map Prod.fst = (m.map Prod.fst).filter (fun x => decide (x ≠ k)) := by
  induction m with
  | nil => simp [erase]
  | cons p rest ih =>
    obtain ⟨k₀, v₀⟩ := p
    by_cases hk : k₀ = k <;> simp [erase, hk, List.filter_cons, ih]

end StdMap

theorem consistent_length (sm : StaticShardmaster) (h : sm.Consistent) :
    sm.server_shard_map.length = sm.server_order.length := by
  obtain ⟨h1, h2, h3⟩ := h
  have hp : (sm.server_shard_map.map Prod.fst).Perm sm.server_order :=
    (List.perm_ext_iff_of_nodup h2 h1).mpr h3
  simpa using hp.length_eq

/-- The loop of `Join` and `Leave` succeeds when `partition` returned enough
intervals; it keeps the keys of the map and gives the member at position `j`
the interval `P[i + j]`. -/
theorem reassign_spec (P : List shard) :
    ∀ (order : List String) (i : Nat) (m : List (String × List shard)),
      order.Nodup → (∀ k ∈ order, StdMap.find m k ≠ none) → i + order.length ≤ P.length →
      ∃ m', reassign P order i m = some m' ∧
        m'.map Prod.fst = m.map Prod.fst ∧
        (∀ k, k ∉ order → StdMap.find m' k = StdMap.find m k) ∧
        (∀ (j : Nat) (srv : String), order[j]? = some srv →
          ∃ sh : shard, P[i + j]? = some sh ∧ StdMap.find m' srv = some [sh]) := by
  intro order
  induction order with
  | nil =>
    intro i m _ _ _
    exact ⟨m, rfl, rfl, fun _ _ => rfl, fun j srv h => by simp at h⟩
  | cons srv rest ih =>
    intro i m hnd hmem hlen
    have hi : i < P.length := by simp at hlen; omega
    obtain ⟨w, hw⟩ : ∃ w, StdMap.find m srv = some w :=
      Option.ne_none_iff_exists'.mp (hmem srv (List.mem_cons_self _ _))
    have hsrv : srv ∉ rest := (List.nodup_cons.mp hnd).1
    have hmem' : ∀ k ∈ rest, StdMap.find (StdMap.assign m srv [P[i]]) k ≠ none := by
      intro k hk
      have hne : srv ≠ k := fun h => hsrv (h ▸ hk)
      rw [StdMap.find_assign_ne _ _ _ _ hne]
      exact hmem k (List.mem_cons_of_mem _ hk)
    obtain ⟨m', h1, h2, h3, h4⟩ :=
      ih (i + 1) (StdMap.assign m srv [P[i]]) (List.nodup_cons.mp hnd).2 hmem'
        (by simp at hlen; omega)
    refine ⟨m', ?_, ?_, ?_, ?_⟩
    · simp only [reassign, List.getElem?_eq_getElem hi, hw]
      exact h1
    · rw [h2, StdMap.keys_assign]
    · intro k hk
      have hk1 : k ∉ rest := fun h => hk (List.mem_cons_of_mem _ h)
      have hk2 : srv ≠ k := fun h => hk (h ▸ List.mem_cons_self _ _)
      rw [h3 k hk1, StdMap.find_assign_ne _ _ _ _ hk2]
    · intro j s hj
      cases j with
      | zero =>
        simp at hj
        subst hj
        refine ⟨P[i], by simp [List.getElem?_eq_getElem hi], ?_⟩
        rw [h3 srv hsrv]
        exact StdMap.find_assign_self _ _ _ _ hw
      | succ j =>
        simp at hj
        obtain ⟨sh, hs1, hs2⟩ := h4 j s hj
        exact ⟨sh, by rw [← hs1]; congr 1; omega, hs2⟩

theorem queryEntries_congr (m1 m2 : List (String × List shard)) (order : List String)
    (h : ∀ k ∈ order, StdMap.find m1 k = StdMap.find m2 k) :
    queryEntries m1 order = queryEntries m2 order := by
  induction order with
  | nil => rfl
  | cons srv rest ih =>
    simp only [queryEntries]
    rw [h srv (List.mem_cons_self _ _), ih (fun k hk => h k (List.mem_cons_of_mem _ hk))]

theorem queryEntries_isSome (m : List (String × List shard)) (order : List String)
    (h : ∀ k ∈ order, StdMap.find m k ≠ none) :
    ∃ entries, queryEntries m order = some entries := by
  induction order with
  | nil => exact ⟨[], rfl⟩
  | cons srv rest ih =>
    obtain ⟨w, hw⟩ : ∃ w, StdMap.find m srv = some w :=
      Option.ne_none_iff_exists'.mp (h srv (List.mem_cons_self _ _))
    obtain ⟨es, hes⟩ := ih (fun k hk => h k (List.mem_cons_of_mem _ hk))
    exact ⟨(srv, w) :: es, by simp [queryEntries, hw, hes]⟩

theorem partition_small (n : Nat) (h1 : 1 ≤ n) (h6 : n ≤ 6) :
    ∃ P, partition (n : Int) MIN_KEY MAX_KEY = some P ∧ n ≤ P.length ∧
      (n ≤ 5 → P.length = n) := by
  interval_cases n
  · exact ⟨[⟨0, 999⟩], by decide, by decide, by decide⟩
  · exact ⟨[⟨0, 499⟩, ⟨500, 999⟩], by decide, by decide, by decide⟩
  · exact ⟨[⟨0, 333⟩, ⟨334, 666⟩, ⟨667, 999⟩], by decide, by decide, by decide⟩
  · exact ⟨[⟨0, 249⟩, ⟨250, 499⟩, ⟨500, 749⟩, ⟨750, 999⟩], by decide, by decide, by decide⟩
  · exact ⟨[⟨0, 199⟩, ⟨200, 399⟩, ⟨400, 599⟩, ⟨600, 799⟩, ⟨800, 999⟩],
      by decide, by decide, by decide⟩
  · exact ⟨[⟨0, 124⟩, ⟨125, 249⟩, ⟨250, 374⟩, ⟨375, 499⟩, ⟨500, 624⟩, ⟨625, 749⟩,
      ⟨750, 874⟩, ⟨875, 999⟩], by decide, by decide, by decide⟩

/-- The shape of a `Join` that returns OK. -/
theorem join_ok_cases (sm sm1 : StaticShardmaster) (s : String)
    (h : sm.Join s = some (.OK, sm1)) :
    s ≠ "" ∧ StdMap.find sm.server_shard_map s = none ∧
    ((sm.server_shard_map.length = 0 ∧
        sm1 = ⟨sm.server_order ++ [s],
          StdMap.insert sm.server_shard_map s [⟨MIN_KEY, MAX_KEY⟩]⟩) ∨
     (sm.server_shard_map.length ≠ 0 ∧ ∃ P m last,
        partition ((sm.server_shard_map.length : Int) + 1) MIN_KEY MAX_KEY = some P ∧
        reassign P sm.server_order 0 sm.server_shard_map = some m ∧
        P.getLast? = some last ∧
        sm1 = ⟨sm.server_order ++ [s], StdMap.insert m s [last]⟩)) := by
  unfold StaticShardmaster.Join at h
  by_cases hs : s = ""
  · simp [hs] at h
  · simp only [hs, if_false] at h
    cases hf : StdMap.find sm.server_shard_map s with
    | some w => simp [hf] at h
    | none =>
      simp only [hf, Option.isSome_none, Bool.false_eq_true, if_false] at h
      refine ⟨hs, rfl, ?_⟩
      by_cases hl : sm.server_shard_map.length = 0
      · left
        simp [hl] at h
        exact ⟨hl, h.symm⟩
      · right
        have hl' : ¬ ((sm.server_shard_map.length : Int) + 1 = 1) := by omega
        simp only [hl', if_false] at h
        cases hp : partition ((sm.server_shard_map.length : Int) + 1) MIN_KEY MAX_KEY with
        | none => simp [hp] at h
        | some P =>
          simp only [hp] at h
          cases hr : reassign P sm.server_order 0 sm.server_shard_map with
          | none => simp [hr] at h
          | some m =>
            simp only [hr] at h
            cases hg : P.getLast? with
            | none => simp [hg] at h
            | some last =>
              simp [hg] at h
              exact ⟨hl, P, m, last, rfl, hr, hg, h.symm⟩

theorem consistent_insert (order : List String) (m : List (String × List shard)) (s : String)
    (v : List shard) (h : StaticShardmaster.Consistent ⟨order, m⟩)
    (hs : StdMap.find m s = none) :
    StaticShardmaster.Consistent ⟨order ++ [s], StdMap.insert m s v⟩ := by
  obtain ⟨h1, h2, h3⟩ := h
  simp only at h1 h2 h3
  have hp := StdMap.keys_insert_perm m s v hs
  have hsk : s ∉ m.map Prod.fst := fun hmem => (StdMap.mem_keys_iff m s).mp hmem hs
  have hso : s ∉ order := fun hmem => hsk ((h3 s).mpr hmem)
  refine ⟨?_, ?_, ?_⟩
  · show (order ++ [s]).Nodup
    rw [List.nodup_append]
    refine ⟨h1, List.nodup_singleton s, ?_⟩
    intro a ha hb
    simp at hb
    exact hso (hb ▸ ha)
  · show ((StdMap.insert m s v).map Prod.fst).Nodup
    exact hp.nodup_iff.mpr (List.nodup_cons.mpr ⟨hsk, h2⟩)
  · intro k
    show k ∈ (StdMap.insert m s v).map Prod.fst ↔ k ∈ order ++ [s]
    rw [hp.mem_iff]
    simp [h3 k, or_comm]

theorem reassign_some (P : List shard) :
    ∀ (order : List String) (i : Nat) (m m' : List (String × List shard)),
      reassign P order i m = some m' →
      m'.map Prod.fst = m.map Prod.fst ∧ (order = [] ∨ i + order.length ≤ P.length) := by
  intro order
  induction order with
  | nil =>
    intro i m m' h
    simp [reassign] at h
    subst h
    exact ⟨rfl, Or.inl rfl⟩
  | cons srv rest ih =>
    intro i m m' h
    simp only [reassign] at h
    cases hp : P[i]? with
    | none => simp [hp] at h
    | some sh =>
      cases hf : StdMap.find m srv with
      | none => simp [hp, hf] at h
      | some w =>
        simp only [hp, hf] at h
        obtain ⟨h1, h2⟩ := ih (i + 1) _ m' h
        refine ⟨by rw [h1, StdMap.keys_assign], Or.inr ?_⟩
        have hi : i < P.length := by
          by_contra hcon
          rw [List.getElem?_eq_none (by omega)] at hp
          exact absurd hp (by simp)
        rcases h2 with rfl | h2
        · simp
          omega
        · simp
          omega

theorem join_consistent (sm sm1 : StaticShardmaster) (s : String) (hc : sm.Consistent)
    (h : sm.Join s = some (.OK, sm1)) :
    sm1.Consistent ∧ sm1.server_order = sm.server_order ++ [s] := by
  obtain ⟨-, hf, hcase⟩ := join_ok_cases sm sm1 s h
  rcases hcase with ⟨-, rfl⟩ | ⟨-, P, m, last, -, hr, -, rfl⟩
  · exact ⟨consistent_insert _ _ _ _ hc hf, rfl⟩
  · have hmem : ∀ k ∈ sm.server_order, StdMap.find sm.server_shard_map k ≠ none :=
      fun k hk => (StdMap.mem_keys_iff _ k).mp ((hc.2.2 k).mpr hk)
    have hkeys : m.map Prod.fst = sm.server_shard_map.map Prod.fst :=
      (reassign_some P _ 0 _ m hr).1
    have hc' : StaticShardmaster.Consistent ⟨sm.server_order, m⟩ :=
      ⟨hc.1, by rw [hkeys]; exact hc.2.1, by rw [hkeys]; exact hc.2.2⟩
    have hf' : StdMap.find m s = none := by
      by_contra hcon
      have := (StdMap.mem_keys_iff m s).mpr hcon
      rw [hkeys] at this
      exact (StdMap.mem_keys_iff _ s).mp this hf
    exact ⟨consistent_insert _ _ _ _ hc' hf', rfl⟩

theorem find_none_of_consistent (sm : StaticShardmaster) (hc : sm.Consistent) (s : String)
    (hs : s ∉ sm.server_order) : StdMap.find sm.server_shard_map s = none := by
  by_contra hcon
  exact hs ((hc.2.2 s).mp ((StdMap.mem_keys_iff _ s).mpr hcon))

theorem find_ne_none_of_consistent (sm : StaticShardmaster) (hc : sm.Consistent) (k : String)
    (hk : k ∈ sm.server_order) : StdMap.find sm.server_shard_map k ≠ none :=
  (StdMap.mem_keys_iff _ k).mp ((hc.2.2 k).mpr hk)

theorem not_mem_order_of_find_none (sm : StaticShardmaster) (hc : sm.Consistent) (s : String)
    (hs : StdMap.find sm.server_shard_map s = none) : s ∉ sm.server_order :=
  fun hmem => find_ne_none_of_consistent sm hc s hmem hs

theorem join_canonical (sm sm1 : StaticShardmaster) (s : String) (hc : sm.Consistent)
    (h : sm.Join s = some (.OK, sm1)) (h5 : sm.server_order.length + 1 ≤ 5) :
    sm1.Canonical := by
  obtain ⟨-, hf, hcase⟩ := join_ok_cases sm sm1 s h
  have hlen := consistent_length sm hc
  have hso : s ∉ sm.server_order := not_mem_order_of_find_none sm hc s hf
  rcases hcase with ⟨hl, rfl⟩ | ⟨hl, P, m, last, hp, hr, hg, rfl⟩
  · have ho : sm.server_order = [] := List.length_eq_zero.mp (by omega)
    refine ⟨[⟨MIN_KEY, MAX_KEY⟩], by simp [ho, partition], ?_⟩
    intro i srv hi
    simp only [ho, List.nil_append] at hi
    cases i with
    | zero =>
      simp at hi
      subst hi
      exact ⟨⟨MIN_KEY, MAX_KEY⟩, rfl, StdMap.find_insert_self _ _ _ hf⟩
    | succ i => simp at hi
  · obtain ⟨P', hP', -, hP'len⟩ :=
      partition_small (sm.server_order.length + 1) (by omega) (by omega)
    have hPP : P' = P := by
      have : ((sm.server_order.length + 1 : Nat) : Int)
          = (sm.server_shard_map.length : Int) + 1 := by
        push_cast
        omega
      rw [this, hp] at hP'
      exact (Option.some.inj hP').symm
    subst hPP
    have hPlen : P'.length = sm.server_order.length + 1 := hP'len h5
    obtain ⟨m', hm', -, -, hm4⟩ :=
      reassign_spec P' sm.server_order 0 sm.server_shard_map hc.1
        (fun k hk => find_ne_none_of_consistent sm hc k hk) (by omega)
    rw [hr] at hm'
    obtain rfl := Option.some.inj hm'
    have hfm : StdMap.find m s = none := by
      by_contra hcon
      have := (StdMap.mem_keys_iff m s).mpr hcon
      rw [(reassign_some P' _ 0 _ m hr).1] at this
      exact (StdMap.mem_keys_iff _ s).mp this hf
    refine ⟨P', ?_, ?_⟩
    · show partition ((sm.server_order ++ [s]).length : Int) MIN_KEY MAX_KEY = some P'
      rw [← hp]
      congr 1
      simp
      omega
    · intro i srv hi
      show ∃ sh : shard, P'[i]? = some sh ∧ StdMap.find (StdMap.insert m s [last]) srv = some [sh]
      have hi' : (sm.server_order ++ [s])[i]? = some srv := hi
      by_cases hlt : i < sm.server_order.length
      · rw [List.getElem?_append_left hlt] at hi'
        obtain ⟨sh, h1, h2⟩ := hm4 i srv hi'
        have hne : s ≠ srv := by
          rintro rfl
          exact hso (List.getElem?_mem hi')
        refine ⟨sh, by simpa using h1, ?_⟩
        rw [StdMap.find_insert_ne _ _ _ _ hne]
        exact h2
      · rw [List.getElem?_append_right (by omega)] at hi'
        have hi0 : i - sm.server_order.length = 0 := by
          by_contra hne
          rw [List.getElem?_eq_none (by simp; omega)] at hi'
          exact absurd hi' (by simp)
        rw [hi0] at hi'
        simp at hi'
        subst hi'
        have hi_eq : i = P'.length - 1 := by omega
        refine ⟨last, ?_, StdMap.find_insert_self _ _ _ hfm⟩
        rw [hi_eq, ← List.getLast?_eq_getElem?]
        exact hg

theorem consistent_erase (order : List String) (m : List (String × List shard)) (s : String)
    (h : StaticShardmaster.Consistent ⟨order, m⟩) :
    StaticShardmaster.Consistent ⟨order.erase s, StdMap.erase m s⟩ := by
  obtain ⟨h1, h2, h3⟩ := h
  simp only at h1 h2 h3
  refine ⟨h1.erase s, ?_, ?_⟩
  · show ((StdMap.erase m s).map Prod.fst).Nodup
    rw [StdMap.keys_erase]
    exact h2.filter _
  · intro k
    show k ∈ (StdMap.erase m s).map Prod.fst ↔ k ∈ order.erase s
    rw [StdMap.keys_erase, h1.mem_erase_iff, List.mem_filter, h3 k]
    simp [and_comm]

theorem leaveOne_spec (sm sm1 : StaticShardmaster) (s : String) (hc : sm.Consistent)
    (h : leaveOne sm s = some sm1) :
    sm1 = ⟨sm.server_order.erase s, StdMap.erase sm.server_shard_map s⟩ ∧ sm1.Consistent := by
  unfold leaveOne at h
  cases hf : StdMap.find sm.server_shard_map s with
  | none => simp [hf] at h
  | some w =>
    have hmem : s ∈ sm.server_order :=
      (hc.2.2 s).mp ((StdMap.mem_keys_iff _ s).mpr (by simp [hf]))
    simp [hf, hmem] at h
    subst h
    exact ⟨rfl, consistent_erase _ _ _ hc⟩

theorem leaveAll_consistent (l : List String) :
    ∀ (sm sm1 : StaticShardmaster), sm.Consistent → leaveAll l sm = (true, sm1) →
      sm1.Consistent := by
  induction l with
  | nil =>
    intro sm sm1 hc h
    simp [leaveAll] at h
    exact h ▸ hc
  | cons s rest ih =>
    intro sm sm1 hc h
    simp only [leaveAll] at h
    cases ho : leaveOne sm s with
    | none => simp [ho] at h
    | some sm' =>
      simp only [ho] at h
      exact ih sm' sm1 (leaveOne_spec sm sm' s hc ho).2 h

/-- The shape of a `Leave` that returns OK. -/
theorem leave_ok_cases (sm sm' : StaticShardmaster) (l : List String)
    (h : sm.Leave l = some (.OK, sm')) :
    ∃ sm1, leaveAll l sm = (true, sm1) ∧
      ((sm1.server_order = [] ∧ sm' = sm1) ∨
       (sm1.server_order ≠ [] ∧ ∃ P m,
          partition (sm1.server_order.length : Int) MIN_KEY MAX_KEY = some P ∧
          reassign P sm1.server_order 0 sm1.server_shard_map = some m ∧
          sm' = ⟨sm1.server_order, m⟩)) := by
  unfold StaticShardmaster.Leave at h
  by_cases hl : l.length = 0
  · simp [hl] at h
  · simp only [hl, if_false] at h
    rcases hla : leaveAll l sm with ⟨b, sm1⟩
    rw [hla] at h
    cases b with
    | false => simp at h
    | true =>
      refine ⟨sm1, rfl, ?_⟩
      simp only at h
      by_cases ho : sm1.server_order = []
      · left
        simp [ho] at h
        exact ⟨ho, h.symm⟩
      · right
        simp only [ho, if_false] at h
        cases hp : partition (sm1.server_order.length : Int) MIN_KEY MAX_KEY with
        | none => simp [hp] at h
        | some P =>
          simp only [hp] at h
          cases hr : reassign P sm1.server_order 0 sm1.server_shard_map with
          | none => simp [hr] at h
          | some m =>
            simp [hr] at h
            exact ⟨ho, P, m, rfl, hr, h.symm⟩

theorem leave_consistent_canonical (sm sm' : StaticShardmaster) (l : List String)
    (hc : sm.Consistent) (h : sm.Leave l = some (.OK, sm')) :
    sm'.Consistent ∧ sm'.Canonical := by
  obtain ⟨sm1, hla, hcase⟩ := leave_ok_cases sm sm' l h
  have hc1 := leaveAll_consistent l sm sm1 hc hla
  rcases hcase with ⟨ho, rfl⟩ | ⟨ho, P, m, hp, hr, rfl⟩
  · refine ⟨hc1, [], by simp [ho, partition], ?_⟩
    intro i srv hi
    simp [ho] at hi
  · obtain ⟨hkeys, hlen⟩ := reassign_some P _ 0 _ m hr
    have hlen' : 0 + sm1.server_order.length ≤ P.length := by
      rcases hlen with h0 | h0
      · exact absurd h0 ho
      · exact h0
    obtain ⟨m', hm', -, -, hm4⟩ :=
      reassign_spec P sm1.server_order 0 sm1.server_shard_map hc1.1
        (fun k hk => find_ne_none_of_consistent sm1 hc1 k hk) hlen'
    rw [hr] at hm'
    obtain rfl := Option.some.inj hm'
    refine ⟨⟨hc1.1, by rw [hkeys]; exact hc1.2.1, by rw [hkeys]; exact hc1.2.2⟩, P, hp, ?_⟩
    intro i srv hi
    obtain ⟨sh, h1, h2⟩ := hm4 i srv hi
    exact ⟨sh, by simpa using h1, h2⟩

theorem moveAll_keys (M : shard) :
    ∀ (order : List String) (m m' : List (String × List shard)),
      moveAll M order m = some m' → m'.map Prod.fst = m.map Prod.fst := by
  intro order
  induction order with
  | nil =>
    intro m m' h
    simp [moveAll] at h
    rw [h]
  | cons srv rest ih =>
    intro m m' h
    simp only [moveAll] at h
    cases hf : StdMap.find m srv with
    | none => simp [hf] at h
    | some shards =>
      simp only [hf] at h
      cases hm : moveIntervals M shards with
      | none => simp [hm] at h
      | some new_intervals =>
        simp only [hm] at h
        rw [ih _ m' h, StdMap.keys_assign]

theorem move_consistent (sm sm' : StaticShardmaster) (server : String) (M : shard)
    (hc : sm.Consistent) (h : sm.Move server M = some (.OK, sm')) : sm'.Consistent := by
  unfold StaticShardmaster.Move at h
  by_cases hs : server = ""
  · simp [hs] at h
  · simp only [hs, if_false] at h
    cases hf : StdMap.find sm.server_shard_map server with
    | none => simp [hf] at h
    | some w =>
      simp only [hf, Option.isNone_some, Bool.false_eq_true, if_false] at h
      cases hm : moveAll M sm.server_order sm.server_shard_map with
      | none => simp [hm] at h
      | some m =>
        simp only [hm] at h
        cases hf2 : StdMap.find m server with
        | none => simp [hf2] at h
        | some shards =>
          simp [hf2] at h
          subst h
          have hk := moveAll_keys M _ _ _ hm
          refine ⟨hc.1, ?_, ?_⟩
          · show ((StdMap.assign m server (shards ++ [M])).map Prod.fst).Nodup
            rw [StdMap.keys_assign, hk]
            exact hc.2.1
          · intro k
            show k ∈ (StdMap.assign m server (shards ++ [M])).map Prod.fst ↔ k ∈ sm.server_order
            rw [StdMap.keys_assign, hk]
            exact hc.2.2 k

theorem reachable_consistent (sm : StaticShardmaster) (h : Reachable sm) : sm.Consistent := by
  induction h with
  | empty =>
    exact ⟨by simp [StaticShardmaster.empty], by simp [StaticShardmaster.empty],
      by simp [StaticShardmaster.empty]⟩
  | step r _ hstep ih =>
    cases r with
    | Join server => exact (join_consistent _ _ server ih hstep).1
    | Leave servers => exact (leave_consistent_canonical _ _ servers ih hstep).1
    | Move server M => exact move_consistent _ _ server M ih hstep

theorem afterJoinLeave_invariant (sm : StaticShardmaster) (h : AfterJoinLeave sm) :
    sm.Consistent ∧ (sm.server_order.length ≤ 5 → sm.Canonical) := by
  cases h with
  | empty =>
    refine ⟨reachable_consistent _ Reachable.empty,
      fun _ => ⟨[], by simp [StaticShardmaster.empty, partition], ?_⟩⟩
    intro i srv hi
    simp [StaticShardmaster.empty] at hi
  | join server hr hj =>
    have hc := reachable_consistent _ hr
    obtain ⟨hc1, ho⟩ := join_consistent _ _ server hc hj
    refine ⟨hc1, fun h5 => join_canonical _ _ server hc hj ?_⟩
    rw [ho] at h5
    simpa using h5
  | leave servers hr hl =>
    have hc := reachable_consistent _ hr
    obtain ⟨hc1, hcan⟩ := leave_consistent_canonical _ _ servers hc hl
    exact ⟨hc1, fun _ => hcan⟩

theorem join_succeeds (sm : StaticShardmaster) (s : String) (hc : sm.Consistent)
    (hs : s ≠ "") (hns : s ∉ sm.server_order) (h5 : sm.server_order.length ≤ 5) :
    ∃ sm1, sm.Join s = some (.OK, sm1) := by
  have hf := find_none_of_consistent sm hc s hns
  have hlen := consistent_length sm hc
  unfold StaticShardmaster.Join
  simp only [hs, if_false, hf, Option.isSome_none, Bool.false_eq_true]
  by_cases hl : sm.server_shard_map.length = 0
  · simp [hl]
  · have hl' : ¬ ((sm.server_shard_map.length : Int) + 1 = 1) := by omega
    simp only [hl', if_false]
    obtain ⟨P, hP, hPlen, -⟩ :=
      partition_small (sm.server_order.length + 1) (by omega) (by omega)
    have hcast : ((sm.server_order.length + 1 : Nat) : Int)
        = (sm.server_shard_map.length : Int) + 1 := by
      push_cast
      omega
    rw [hcast] at hP
    obtain ⟨m', hm', -⟩ :=
      reassign_spec P sm.server_order 0 sm.server_shard_map hc.1
        (fun k hk => find_ne_none_of_consistent sm hc k hk) (by omega)
    obtain ⟨last, hlast⟩ : ∃ last, P.getLast? = some last := by
      cases hP0 : P with
      | nil => simp [hP0] at hPlen
      | cons a t => exact ⟨_, List.getLast?_eq_getLast _ (by simp)⟩
    simp [hP, hm', hlast]

theorem leave_single_succeeds (sm1 : StaticShardmaster) (order : List String) (s : String)
    (hc : sm1.Consistent) (ho : sm1.server_order = order ++ [s]) (hns : s ∉ order)
    (h5 : order.length ≤ 5) :
    ∃ sm2, sm1.Leave [s] = some (.OK, sm2) ∧ sm2.server_order = order := by
  have hmem : s ∈ sm1.server_order := by simp [ho]
  obtain ⟨w, hw⟩ : ∃ w, StdMap.find sm1.server_shard_map s = some w :=
    Option.ne_none_iff_exists'.mp (find_ne_none_of_consistent sm1 hc s hmem)
  have herase : sm1.server_order.erase s = order := by
    rw [ho, List.erase_append_right _ hns]
    simp
  have hone : leaveOne sm1 s = some ⟨order, StdMap.erase sm1.server_shard_map s⟩ := by
    simp [leaveOne, hw, hmem, herase]
  have hc2 : StaticShardmaster.Consistent ⟨order, StdMap.erase sm1.server_shard_map s⟩ := by
    have := (leaveOne_spec sm1 _ s hc hone).2
    exact this
  unfold StaticShardmaster.Leave
  simp only [List.length_singleton, one_ne_zero, if_false, leaveAll, hone]
  by_cases hoe : order = []
  · simp [hoe]
  · simp only [hoe, if_false]
    have hpos : 1 ≤ order.length := by
      cases order with
      | nil => exact absurd rfl hoe
      | cons a t => simp
    obtain ⟨P, hP, hPlen, -⟩ := partition_small order.length hpos (by omega)
    obtain ⟨m', hm', -⟩ :=
      reassign_spec P order 0 (StdMap.erase sm1.server_shard_map s) hc2.1
        (fun k hk => find_ne_none_of_consistent _ hc2 k hk) (by omega)
    simp [hP, hm']

theorem query_eq_of_canonical (sm sm2 : StaticShardmaster)
    (ho : sm2.server_order = sm.server_order) (h1 : sm.Canonical) (h2 : sm2.Canonical) :
    ∃ snapshot, sm.Query = some (.OK, snapshot) ∧ sm2.Query = some (.OK, snapshot) := by
  obtain ⟨P, hP, hcan⟩ := h1
  obtain ⟨P2, hP2, hcan2⟩ := h2
  rw [ho, hP] at hP2
  obtain rfl := Option.some.inj hP2
  rw [ho] at hcan2
  unfold StaticShardmaster.Query
  rw [ho]
  by_cases hoe : sm.server_order = []
  · exact ⟨[], by simp [hoe]⟩
  · simp only [hoe, if_false]
    have hfind : ∀ k ∈ sm.server_order,
        StdMap.find sm2.server_shard_map k = StdMap.find sm.server_shard_map k := by
      intro k hk
      obtain ⟨i, hi⟩ := List.mem_iff_getElem?.mp hk
      obtain ⟨sh, hs1, hs2⟩ := hcan i k hi
      obtain ⟨sh2, hs3, hs4⟩ := hcan2 i k hi
      rw [hs1] at hs3
      obtain rfl := Option.some.inj hs3
      rw [hs2, hs4]
    have hsome : ∀ k ∈ sm.server_order, StdMap.find sm.server_shard_map k ≠ none := by
      intro k hk
      obtain ⟨i, hi⟩ := List.mem_iff_getElem?.mp hk
      obtain ⟨sh, -, hs2⟩ := hcan i k hi
      simp [hs2]
    obtain ⟨entries, he⟩ := queryEntries_isSome _ _ hsome
    refine ⟨entries, by simp [he], ?_⟩
    rw [queryEntries_congr _ _ _ hfind, he]


/-! ## Lemmas on reachable configurations -/

theorem join_error_unchanged (sm sm' : StaticShardmaster) (s msg : String)
    (h : sm.Join s = some (.INVALID_ARGUMENT msg, sm')) : sm' = sm := by
  unfold StaticShardmaster.Join at h
  by_cases hs : s = ""
  · simp [hs] at h
    exact h.2.symm
  · simp only [hs, if_false] at h
    cases hf : StdMap.find sm.server_shard_map s with
    | some w =>
      simp [hf] at h
      exact h.2.symm
    | none =>
      simp only [hf, Option.isSome_none, Bool.false_eq_true, if_false] at h
      by_cases hl : (sm.server_shard_map.length : Int) + 1 = 1
      · simp [hl] at h
      · simp only [hl, if_false] at h
        cases hp : partition ((sm.server_shard_map.length : Int) + 1) MIN_KEY MAX_KEY with
        | none => simp [hp] at h
        | some P =>
          simp only [hp] at h
          cases hr : reassign P sm.server_order 0 sm.server_shard_map with
          | none => simp [hr] at h
          | some m =>
            simp only [hr] at h
            cases hg : P.getLast? with
            | none => simp [hg] at h
            | some last => simp [hg] at h

theorem move_error_unchanged (sm sm' : StaticShardmaster) (s msg : String) (M : shard)
    (h : sm.Move s M = some (.INVALID_ARGUMENT msg, sm')) : sm' = sm := by
  unfold StaticShardmaster.Move at h
  by_cases hs : s = ""
  · simp [hs] at h
    exact h.2.symm
  · simp only [hs, if_false] at h
    cases hf : StdMap.find sm.server_shard_map s with
    | none =>
      simp [hf] at h
      exact h.2.symm
    | some w =>
      simp only [hf, Option.isNone_some, Bool.false_eq_true, if_false] at h
      cases hm : moveAll M sm.server_order sm.server_shard_map with
      | none => simp [hm] at h
      | some m =>
        simp only [hm] at h
        cases hf2 : StdMap.find m s with
        | none => simp [hf2] at h
        | some shards => simp [hf2] at h

theorem leaveAll_consistent_any (l : List String) :
    ∀ (sm sm1 : StaticShardmaster) (b : Bool), sm.Consistent → leaveAll l sm = (b, sm1) →
      sm1.Consistent := by
  induction l with
  | nil =>
    intro sm sm1 b hc h
    simp [leaveAll] at h
    exact h.2 ▸ hc
  | cons s rest ih =>
    intro sm sm1 b hc h
    simp only [leaveAll] at h
    cases ho : leaveOne sm s with
    | none =>
      simp [ho] at h
      exact h.2 ▸ hc
    | some sm' =>
      simp only [ho] at h
      exact ih sm' sm1 b (leaveOne_spec sm sm' s hc ho).2 h

theorem leave_error_consistent (sm sm' : StaticShardmaster) (l : List String) (msg : String)
    (hc : sm.Consistent) (h : sm.Leave l = some (.INVALID_ARGUMENT msg, sm')) :
    sm'.Consistent := by
  unfold StaticShardmaster.Leave at h
  by_cases hl : l.length = 0
  · simp [hl] at h
    exact h.2 ▸ hc
  · simp only [hl, if_false] at h
    rcases hla : leaveAll l sm with ⟨b, sm1⟩
    rw [hla] at h
    have hc1 := leaveAll_consistent_any l sm sm1 b hc hla
    cases b with
    | false =>
      simp at h
      exact h.2 ▸ hc1
    | true =>
      simp only at h
      by_cases ho : sm1.server_order = []
      · simp [ho] at h
      · simp only [ho, if_false] at h
        cases hp : partition (sm1.server_order.length : Int) MIN_KEY MAX_KEY with
        | none => simp [hp] at h
        | some P =>
          simp only [hp] at h
          cases hr : reassign P sm1.server_order 0 sm1.server_shard_map with
          | none => simp [hr] at h
          | some m => simp [hr] at h

theorem handle_consistent (sm sm' : StaticShardmaster) (r : Request) (st : Status)
    (hc : sm.Consistent) (h : sm.handle r = some (st, sm')) : sm'.Consistent := by
  cases st with
  | OK =>
    cases r with
    | Join server => exact (join_consistent _ _ server hc h).1
    | Leave servers => exact (leave_consistent_canonical _ _ servers hc h).1
    | Move server M => exact move_consistent _ _ server M hc h
  | INVALID_ARGUMENT msg =>
    cases r with
    | Join server => exact (join_error_unchanged _ _ server msg h) ▸ hc
    | Leave servers => exact leave_error_consistent _ _ servers msg hc h
    | Move server M => exact (move_error_unchanged _ _ server msg M h) ▸ hc

theorem reachableAny_consistent (sm : StaticShardmaster) (h : ReachableAny sm) :
    sm.Consistent := by
  induction h with
  | empty =>
    exact ⟨by simp [StaticShardmaster.empty], by simp [StaticShardmaster.empty],
      by simp [StaticShardmaster.empty]⟩
  | step r st _ hstep ih => exact handle_consistent _ _ r st ih hstep

/-- After a `Join` that returns OK on a consistent configuration every
member holds exactly one interval. -/
theorem join_single_interval (sm sm1 : StaticShardmaster) (s : String) (hc : sm.Consistent)
    (h : sm.Join s = some (.OK, sm1)) :
    ∀ k ∈ sm1.server_order, ∃ sh : shard, StdMap.find sm1.server_shard_map k = some [sh] := by
  obtain ⟨-, hf, hcase⟩ := join_ok_cases sm sm1 s h
  have hlen := consistent_length sm hc
  have hso : s ∉ sm.server_order := not_mem_order_of_find_none sm hc s hf
  rcases hcase with ⟨hl, rfl⟩ | ⟨hl, P, m, last, hp, hr, hg, rfl⟩
  · have ho : sm.server_order = [] := List.length_eq_zero.mp (by omega)
    intro k hk
    simp only [ho, List.nil_append, List.mem_singleton] at hk
    subst hk
    exact ⟨⟨MIN_KEY, MAX_KEY⟩, StdMap.find_insert_self _ _ _ hf⟩
  · obtain ⟨hkeys, hsome⟩ := reassign_some P _ 0 _ m hr
    have hne : sm.server_order ≠ [] := by
      intro h0
      rw [h0] at hlen
      exact hl (by simpa using hlen)
    have hlen' : 0 + sm.server_order.length ≤ P.length := by
      rcases hsome with h0 | h0
      · exact absurd h0 hne
      · exact h0
    obtain ⟨m', hm', -, -, hm4⟩ :=
      reassign_spec P sm.server_order 0 sm.server_shard_map hc.1
        (fun k hk => find_ne_none_of_consistent sm hc k hk) hlen'
    rw [hr] at hm'
    obtain rfl := Option.some.inj hm'
    have hfm : StdMap.find m s = none := by
      by_contra hcon
      have := (StdMap.mem_keys_iff m s).mpr hcon
      rw [hkeys] at this
      exact (StdMap.mem_keys_iff _ s).mp this hf
    intro k hk
    have hk' : k ∈ sm.server_order ++ [s] := hk
    rcases List.mem_append.mp hk' with hko | hks
    · obtain ⟨i, hi⟩ := List.mem_iff_getElem?.mp hko
      obtain ⟨sh, -, h2⟩ := hm4 i k hi
      have hne' : s ≠ k := fun e => hso (e ▸ hko)
      exact ⟨sh, by
        show StdMap.find (StdMap.insert m s [last]) k = some [sh]
        rw [StdMap.find_insert_ne _ _ _ _ hne']
        exact h2⟩
    · simp only [List.mem_singleton] at hks
      subst hks
      exact ⟨last, StdMap.find_insert_self _ _ _ hfm⟩

theorem queryEntries_spec (m : List (String × List shard)) :
    ∀ (order : List String) (entries : List (String × List shard)),
      queryEntries m order = some entries →
      entries.map Prod.fst = order ∧ ∀ e ∈ entries, StdMap.find m e.1 = some e.2 := by
  intro order
  induction order with
  | nil =>
    intro entries h
    simp [queryEntries] at h
    subst h
    simp
  | cons srv rest ih =>
    intro entries h
    simp only [queryEntries] at h
    cases hf : StdMap.find m srv with
    | none => simp [hf] at h
    | some shards =>
      cases hq : queryEntries m rest with
      | none => simp [hf, hq] at h
      | some es =>
        simp [hf, hq] at h
        subst h
        obtain ⟨h1, h2⟩ := ih es hq
        refine ⟨by simp [h1], ?_⟩
        intro e he
        rcases List.mem_cons.mp he with rfl | he'
        · exact hf
        · exact h2 e he'

theorem leaveAll_order (l : List String) :
    ∀ (sm sm1 : StaticShardmaster), sm.Consistent → leaveAll l sm = (true, sm1) →
      sm1.server_order = sm.server_order.filter (fun k => decide (k ∉ l)) := by
  induction l with
  | nil =>
    intro sm sm1 _ h
    simp [leaveAll] at h
    subst h
    simp
  | cons s rest ih =>
    intro sm sm1 hc h
    simp only [leaveAll] at h
    cases ho : leaveOne sm s with
    | none => simp [ho] at h
    | some sm' =>
      simp only [ho] at h
      obtain ⟨he, hc'⟩ := leaveOne_spec sm sm' s hc ho
      rw [ih sm' sm1 hc' h, he]
      show List.filter _ (sm.server_order.erase s) = _
      rw [hc.1.erase_eq_filter, List.filter_filter]
      congr 1
      funext k
      by_cases h1 : k = s <;> by_cases h2 : k ∈ rest <;> simp [h1, h2]

theorem move_ok_order (sm sm' : StaticShardmaster) (s : String) (M : shard)
    (h : sm.Move s M = some (.OK, sm')) : sm'.server_order = sm.server_order := by
  unfold StaticShardmaster.Move at h
  by_cases hs : s = ""
  · simp [hs] at h
  · simp only [hs, if_false] at h
    cases hf : StdMap.find sm.server_shard_map s with
    | none => simp [hf] at h
    | some w =>
      simp only [hf, Option.isNone_some, Bool.false_eq_true, if_false] at h
      cases hm : moveAll M sm.server_order sm.server_shard_map with
      | none => simp [hm] at h
      | some m =>
        simp only [hm] at h
        cases hf2 : StdMap.find m s with
        | none => simp [hf2] at h
        | some shards =>
          simp [hf2] at h
          subst h
          rfl

theorem runOK_order (reqs : List Request) :
    ∀ (sm0 sm : StaticShardmaster), sm0.Consistent →
      StaticShardmaster.runOK reqs sm0 = some sm →
      sm.Consistent ∧ sm.server_order = membersAfter sm0.server_order reqs := by
  induction reqs with
  | nil =>
    intro sm0 sm hc h
    simp [StaticShardmaster.runOK] at h
    subst h
    exact ⟨hc, rfl⟩
  | cons r rest ih =>
    intro sm0 sm hc h
    simp only [StaticShardmaster.runOK] at h
    cases hh : sm0.handle r with
    | none => simp [hh] at h
    | some p =>
      obtain ⟨st, sm1⟩ := p
      cases st with
      | INVALID_ARGUMENT msg => simp [hh] at h
      | OK =>
        simp only [hh] at h
        have hc1 := handle_consistent sm0 sm1 r .OK hc hh
        obtain ⟨hc2, ho⟩ := ih sm1 sm hc1 h
        refine ⟨hc2, ?_⟩
        rw [ho]
        cases r with
        | Join server =>
          rw [(join_consistent sm0 sm1 server hc hh).2]
          rfl
        | Leave servers =>
          obtain ⟨sm2, hla, hcase⟩ := leave_ok_cases sm0 sm1 servers hh
          have ho2 := leaveAll_order servers sm0 sm2 hc hla
          have : sm1.server_order = sm2.server_order := by
            rcases hcase with ⟨-, rfl⟩ | ⟨-, P, m, -, -, rfl⟩
            · rfl
            · rfl
          rw [this, ho2]
          rfl
        | Move server M =>
          rw [move_ok_order sm0 sm1 server M hh]
          rfl

/-! ## Lemmas on decimal numerals, key forms and `Append` -/

theorem digitChar_isDigit (k : Nat) (h : k < 10) :
    (Nat.digitChar k).isDigit = true ∧ (Nat.digitChar k).toNat - 48 = k := by
  interval_cases k <;> decide

theorem digitsValue_append_singleton (ds : List Char) (d : Char) :
    digitsValue (ds ++ [d]) = 10 * digitsValue ds + (d.toNat - 48) := by
  simp [digitsValue, List.foldl_append]

theorem toDigitsCore_decimal (fuel n : Nat) (acc : List Char) (hfuel : n < fuel) :
    ∃ ds, Decimal ds ∧ digitsValue ds = n ∧ Nat.toDigitsCore 10 fuel n acc = ds ++ acc := by
  induction fuel generalizing n acc with
  | zero => omega
  | succ fuel ih =>
    obtain ⟨hd1, hd2⟩ := digitChar_isDigit (n % 10) (Nat.mod_lt _ (by decide))
    simp only [Nat.toDigitsCore]
    generalize Nat.digitChar (n % 10) = d at hd1 hd2 ⊢
    have hmem : ∀ c ∈ [d], c.isDigit = true := by
      intro c hc
      simp at hc
      exact hc ▸ hd1
    by_cases h0 : n / 10 = 0
    · simp only [h0, if_true]
      refine ⟨[d], ⟨by simp, hmem⟩, ?_, rfl⟩
      simp only [digitsValue, List.foldl_cons, List.foldl_nil]
      omega
    · simp only [h0, if_false]
      obtain ⟨hi, hdec, hval, hcore⟩ := ih (n / 10) (d :: acc) (by omega)
      refine ⟨hi ++ [d], ⟨by simp, ?_⟩, ?_, by simp [hcore]⟩
      · intro c hc
        rcases List.mem_append.mp hc with hc1 | hc1
        · exact hdec.2 c hc1
        · exact hmem c hc1
      · rw [digitsValue_append_singleton, hval]
        omega

theorem toDigits_decimal (n : Nat) :
    Decimal (Nat.toDigits 10 n) ∧ digitsValue (Nat.toDigits 10 n) = n := by
  obtain ⟨ds, h2, h3, h1⟩ := toDigitsCore_decimal (n + 1) n [] (by omega)
  simp only [List.append_nil] at h1
  unfold Nat.toDigits
  rw [h1]
  exact ⟨h2, h3⟩

theorem unclassified_key_passes (s : ShardkvServer) (key : String) (id : Int)
    (hne : key ≠ "") (hau : key ≠ "all_users") (hid : extractID key = some id)
    (hloc : CheckInShard id s.local_shard = true)
    (hU : ¬ ((parse_value key "_")[0]? = some "user" ∧ (parse_value key "_").length = 2))
    (hP : ¬ ((parse_value key "_")[0]? = some "post" ∧ (parse_value key "_").length = 2))
    (hUP : ¬ ((parse_value key "_").length = 3 ∧
      ((parse_value key "_")[0]? = some "user" ∧ (parse_value key "_")[2]? = some "posts"))) :
    (∀ data user, s.Put key data user = some (.OK, s, [])) ∧
    (StdMap.find s.kv_store key = none → ∀ data, s.Append key data = some (.OK, s, [])) ∧
    s.Delete key = some (.OK, s, []) := by
  have hP1 : ∀ user : String, ¬ ((parse_value key "_")[0]? = some "post" ∧
      (parse_value key "_").length = 2 ∧ user = "") := fun user h => hP ⟨h.1, h.2.1⟩
  have hP2 : ∀ user : String, ¬ ((parse_value key "_")[0]? = some "post" ∧
      (parse_value key "_").length = 2 ∧ user ≠ "") := fun user h => hP ⟨h.1, h.2.1⟩
  have hUP1 : ∀ user : String, ¬ ((parse_value key "_").length = 3 ∧
      ((parse_value key "_")[0]? = some "user" ∧ (parse_value key "_")[2]? = some "posts") ∧
      user = "") := fun user h => hUP ⟨h.1, h.2.1⟩
  have hP' : ¬ ((parse_value key "_").length = 2 ∧ (parse_value key "_")[0]? = some "post") :=
    fun h => hP ⟨h.2, h.1⟩
  have hU' : ¬ ((parse_value key "_").length = 2 ∧ (parse_value key "_")[0]? = some "user") :=
    fun h => hU ⟨h.2, h.1⟩
  refine ⟨fun data user => ?_, fun hf data => ?_, ?_⟩
  · simp only [ShardkvServer.Put, hne, hau, if_false, hid, hloc, Bool.true_eq_false,
      if_neg (hP1 user), if_neg (hUP1 user), if_neg hU, if_neg (hP2 user)]
  · simp only [ShardkvServer.Append, hne, hau, if_false, hid, hloc, Bool.true_eq_false,
      if_neg hUP, hf, if_neg hP', if_neg hU']
  · simp only [ShardkvServer.Delete, hne, hau, if_false, hid, hloc, Bool.true_eq_false,
      if_neg hP, if_neg hU]

theorem extractID_none_of_short (key : String) (h : (parse_value key "_").length < 2) :
    extractID key = none := by
  unfold extractID
  cases hp : parse_value key "_" with
  | nil => rfl
  | cons a t =>
    cases t with
    | nil => rfl
    | cons b u =>
      rw [hp] at h
      simp at h
      omega

theorem put_userPosts_with_user (s : ShardkvServer) (ds : List Char) (id : Int)
    (data user : String) (hds : Decimal ds) (hid : extractID (userPostsKey ds) = some id)
    (hloc : CheckInShard id s.local_shard = true) (hu : user ≠ "") :
    s.Put (userPostsKey ds) data user = some (.OK, s, []) := by
  simp only [ShardkvServer.Put, userPostsKey_ne_empty, userPostsKey_ne_all_users, if_false,
    parse_value_userPostsKey ds hds, hid, hloc]
  simp [hu]

/-- Result of `Append` on a stored key of one of the three kinds. -/
theorem Append_stored (s : ShardkvServer) (ds : List Char) (key d w : String) (id : Int)
    (hds : Decimal ds)
    (hkey : key = userKey ds ∨ key = userPostsKey ds ∨ key = postKey ds)
    (hid : extractID key = some id) (hloc : CheckInShard id s.local_shard = true)
    (hf : StdMap.find s.kv_store key = some w) :
    s.Append key d
      = some (.OK, { s with kv_store := StdMap.assign s.kv_store key (w ++ d) }, []) := by
  rcases hkey with rfl | rfl | rfl
  · simp only [ShardkvServer.Append, userKey_ne_empty, userKey_ne_all_users, if_false,
      parse_value_userKey ds hds, hid, hloc, hf]
    simp
  · simp only [ShardkvServer.Append, userPostsKey_ne_empty, userPostsKey_ne_all_users,
      if_false, parse_value_userPostsKey ds hds, hid, hloc, hf]
    simp
  · simp only [ShardkvServer.Append, postKey_ne_empty, postKey_ne_all_users, if_false,
      parse_value_postKey ds hds, hid, hloc, hf]
    simp

theorem Append_userPosts_absent (s : ShardkvServer) (ds : List Char) (d : String) (id : Int)
    (hds : Decimal ds)
    (hid : extractID (userPostsKey ds) = some id)
    (hloc : CheckInShard id s.local_shard = true)
    (hf : StdMap.find s.kv_store (userPostsKey ds) = none) :
    s.Append (userPostsKey ds) d
      = some (.OK, { s with kv_store := StdMap.insert s.kv_store (userPostsKey ds) d }, []) := by
  simp only [ShardkvServer.Append, userPostsKey_ne_empty, userPostsKey_ne_all_users,
    if_false, parse_value_userPostsKey ds hds, hid, hloc, hf]
  simp

theorem Append_user_absent (s : ShardkvServer) (ds : List Char) (d au : String) (id : Int)
    (hds : Decimal ds)
    (hid : extractID (userKey ds) = some id)
    (hloc : CheckInShard id s.local_shard = true)
    (hf : StdMap.find s.kv_store (userKey ds) = none)
    (hall : StdMap.find s.kv_store "all_users" = some au) :
    s.Append (userKey ds) d
      = some (.OK,
          ⟨s.address,
            StdMap.assign (StdMap.insert s.kv_store (userKey ds) d) "all_users"
              (au ++ userKey ds ++ ","),
            s.local_shard, s.server_shard_map, s.deleted⟩, []) := by
  have hall' : StdMap.find (StdMap.insert s.kv_store (userKey ds) d) "all_users" = some au := by
    rw [StdMap.find_insert_ne _ _ _ _ (userKey_ne_all_users ds)]
    exact hall
  simp only [ShardkvServer.Append, userKey_ne_empty, userKey_ne_all_users, if_false,
    parse_value_userKey ds hds, hid, hloc, hf, appendAllUsers, hall']
  simp

/-! ## Lemmas on the error branches of `Leave` -/

theorem leaveAll_missing (l : List String) :
    ∀ (sm : StaticShardmaster) (x : String), x ∈ l →
      StdMap.find sm.server_shard_map x = none → ∃ sm1, leaveAll l sm = (false, sm1) := by
  induction l with
  | nil => intro sm x hx; simp at hx
  | cons a rest ih =>
    intro sm x hx hf
    simp only [leaveAll]
    cases h1 : leaveOne sm a with
    | none => exact ⟨sm, rfl⟩
    | some sm1 =>
      have ha : a ≠ x := by
        rintro rfl
        simp [leaveOne, hf] at h1
      have hx' : x ∈ rest := by
        rcases List.mem_cons.1 hx with h | h
        · exact absurd h.symm ha
        · exact h
      have hf1 : StdMap.find sm1.server_shard_map x = none := by
        unfold leaveOne at h1
        cases hfa : StdMap.find sm.server_shard_map a with
        | none => simp [hfa] at h1
        | some v =>
          simp only [hfa] at h1
          by_cases hm : a ∈ sm.server_order
          · rw [if_pos hm] at h1
            cases h1
            show StdMap.find (StdMap.erase sm.server_shard_map a) x = none
            rw [StdMap.find_erase_ne _ _ _ ha]
            exact hf
          · rw [if_neg hm] at h1
            cases h1
            exact hf
      exact ih sm1 x hx' hf1

/-! ## Lemmas on the post branch of `Put` -/

theorem userKey_ne_postKey (du dp : List Char) : userKey du ≠ postKey dp := by
  intro h
  have h1 := congrArg String.data h
  simp [userKey, postKey] at h1

theorem userKey_ne_append_posts (ds : List Char) (h : Decimal ds) (user : String) :
    user ++ "_posts" ≠ userKey ds := by
  intro heq
  have h1 := congrArg (fun t => t.data.getLast?) heq
  obtain ⟨c, hc⟩ : ∃ c, ds.getLast? = some c := by
    cases hl : ds.getLast? with
    | none => exact absurd (List.getLast?_eq_none_iff.mp hl) h.1
    | some c => exact ⟨c, rfl⟩
  have hmem : c ∈ ds := List.mem_of_getLast?_eq_some hc
  have hdig := h.2 c hmem
  have h2 : ("user_".data ++ ds).getLast? = ds.getLast? :=
    List.getLast?_append_of_ne_nil _ h.1
  simp only [userKey, String.data_append, h2, hc] at h1
  simp [List.getLast?_append] at h1
  subst h1
  exact absurd hdig (by decide)

/-- The post branch of `Put` with a user argument, once the guards are
passed. -/
theorem Put_post_user (s : ShardkvServer) (key data user : String) (uid : Int)
    (hne : key ≠ "") (hau : key ≠ "all_users") (hid : extractID key = some uid)
    (hloc : CheckInShard uid s.local_shard = true)
    (hp : (parse_value key "_")[0]? = some "post" ∧ (parse_value key "_").length = 2)
    (hu : user ≠ "") :
    s.Put key data user =
      match StdMap.find s.kv_store key with
      | some _ => some (.OK, { s with kv_store := StdMap.assign s.kv_store key data }, [])
      | none =>
        match extractID user with
        | none => none
        | some uuid =>
          if CheckInShard uuid s.local_shard = false then
            some (.OK, { s with kv_store := StdMap.insert s.kv_store key data },
              (s.server_shard_map.filter (fun server => CheckInShard uuid server.2)).map
                (fun server => PeerCall.Append server.1 (user ++ "_posts") (key ++ ",")))
          else
            match (match StdMap.find (StdMap.insert s.kv_store key data) user with
                | none =>
                  appendAllUsers (StdMap.insert (StdMap.insert s.kv_store key data) user "") user
                | some _ => some (StdMap.insert s.kv_store key data)) with
            | none => none
            | some kv2 =>
              match StdMap.find kv2 (user ++ "_posts") with
              | none =>
                some (.OK,
                  { s with kv_store := StdMap.insert kv2 (user ++ "_posts") (key ++ ",") }, [])
              | some v =>
                some (.OK,
                  { s with kv_store :=
                      StdMap.assign kv2 (user ++ "_posts") (v ++ key ++ ",") }, []) := by
  have h1 : ¬ ((parse_value key "_")[0]? = some "post" ∧ (parse_value key "_").length = 2 ∧
      user = "") := fun h => hu h.2.2
  have h2 : ¬ ((parse_value key "_").length = 3 ∧
      ((parse_value key "_")[0]? = some "user" ∧ (parse_value key "_")[2]? = some "posts") ∧
      user = "") := fun h => hu h.2.2
  have h3 : ¬ ((parse_value key "_")[0]? = some "user" ∧ (parse_value key "_").length = 2) := by
    intro h
    rw [hp.1] at h
    exact absurd h.1 (by decide)
  have h4 : (parse_value key "_")[0]? = some "post" ∧ (parse_value key "_").length = 2 ∧
      user ≠ "" := ⟨hp.1, hp.2, hu⟩
  simp only [ShardkvServer.Put, hne, hau, if_false, hid, hloc, Bool.true_eq_false,
    if_neg h1, if_neg h2, if_neg h3, if_pos h4]
  try rfl

/-! ## Lemmas on a repeated `Put` -/

namespace StdMap

theorem mem_insert {β : Type} (m : List (String × β)) (k : String) (v : β) (p : String × β)
    (h : p ∈ insert m k v) : p ∈ m ∨ p = (k, v) := by
  induction m with
  | nil =>
    simp only [insert, List.mem_singleton] at h
    exact Or.inr h
  | cons q rest ih =>
    obtain ⟨k', v'⟩ := q
    simp only [insert] at h
    by_cases h1 : ltChars k.data k'.data = true
    · rw [if_pos h1] at h
      rcases List.mem_cons.1 h with h | h
      · exact Or.inr h
      · exact Or.inl h
    · rw [if_neg h1] at h
      by_cases h2 : k' = k
      · rw [if_pos h2] at h
        exact Or.inl h
      · rw [if_neg h2] at h
        rcases List.mem_cons.1 h with h | h
        · exact Or.inl (h ▸ List.mem_cons_self _ _)
        · rcases ih h with h | h
          · exact Or.inl (List.mem_cons_of_mem _ h)
          · exact Or.inr h

theorem mem_assign {β : Type} (m : List (String × β)) (k : String) (v : β) (p : String × β)
    (h : p ∈ assign m k v) : (p ∈ m ∧ p.1 ≠ k) ∨ (p.1 = k ∧ p.2 = v) := by
  induction m with
  | nil => simp [assign] at h
  | cons q rest ih =>
    obtain ⟨k', v'⟩ := q
    simp only [assign] at h
    by_cases h2 : k' = k
    · rw [if_pos h2] at h
      rcases List.mem_cons.1 h with h | h
      · exact Or.inr (by rw [h]; exact ⟨h2, rfl⟩)
      · rcases ih h with h | h
        · exact Or.inl ⟨List.mem_cons_of_mem _ h.1, h.2⟩
        · exact Or.inr h
    · rw [if_neg h2] at h
      rcases List.mem_cons.1 h with h | h
      · exact Or.inl (by rw [h]; exact ⟨List.mem_cons_self _ _, h2⟩)
      · rcases ih h with h | h
        · exact Or.inl ⟨List.mem_cons_of_mem _ h.1, h.2⟩
        · exact Or.inr h

theorem not_mem_of_find_none {β : Type} (m : List (String × β)) (k : String)
    (h : find m k = none) : ∀ p ∈ m, p.1 ≠ k := by
  induction m with
  | nil => intro p hp; simp at hp
  | cons q rest ih =>
    obtain ⟨k', v'⟩ := q
    simp only [find] at h
    by_cases h2 : k' = k
    · rw [if_pos h2] at h
      exact absurd h (by simp)
    · rw [if_neg h2] at h
      intro p hp
      rcases List.mem_cons.1 hp with hp | hp
      · rw [hp]
        exact h2
      · exact ih h p hp

/-- Assigning to a key the value all its entries already hold changes
nothing. -/
theorem assign_eq_self {β : Type} (m : List (String × β)) (k : String) (v : β)
    (h : ∀ p ∈ m, p.1 = k → p.2 = v) : assign m k v = m := by
  induction m with
  | nil => rfl
  | cons q rest ih =>
    obtain ⟨k', v'⟩ := q
    simp only [assign]
    have ih' := ih (fun p hp => h p (List.mem_cons_of_mem _ hp))
    by_cases h2 : k' = k
    · rw [if_pos h2, ih']
      have := h (k', v') (List.mem_cons_self _ _) h2
      simp only at this
      rw [this]
    · rw [if_neg h2, ih']

theorem held_insert_self {β : Type} (m : List (String × β)) (k : String) (v : β)
    (h : find m k = none) : ∀ p ∈ insert m k v, p.1 = k → p.2 = v := by
  intro p hp hk
  rcases mem_insert m k v p hp with h1 | h1
  · exact absurd hk (not_mem_of_find_none m k h p h1)
  · rw [h1]

theorem held_assign_self {β : Type} (m : List (String × β)) (k : String) (v : β) :
    ∀ p ∈ assign m k v, p.1 = k → p.2 = v := by
  intro p hp hk
  rcases mem_assign m k v p hp with h1 | h1
  · exact absurd hk h1.2
  · exact h1.2

theorem held_insert_ne {β : Type} (m : List (String × β)) (k k' : String) (v v' : β)
    (hne : k' ≠ k) (h : ∀ p ∈ m, p.1 = k → p.2 = v) :
    ∀ p ∈ insert m k' v', p.1 = k → p.2 = v := by
  intro p hp hk
  rcases mem_insert m k' v' p hp with h1 | h1
  · exact h p h1 hk
  · rw [h1] at hk
    exact absurd hk hne

theorem held_assign_ne {β : Type} (m : List (String × β)) (k k' : String) (v v' : β)
    (hne : k' ≠ k) (h : ∀ p ∈ m, p.1 = k → p.2 = v) :
    ∀ p ∈ assign m k' v', p.1 = k → p.2 = v := by
  intro p hp hk
  rcases mem_assign m k' v' p hp with h1 | h1
  · exact h p h1.1 hk
  · rw [h1.1] at hk
    exact absurd hk hne

theorem find_ne_none_insert {β : Type} (m : List (String × β)) (k k' : String) (v : β)
    (h : find m k' ≠ none) : find (insert m k v) k' ≠ none := by
  by_cases hk : k = k'
  · subst hk
    induction m with
    | nil => simp [find] at h
    | cons q rest ih =>
      obtain ⟨k', v'⟩ := q
      simp only [insert]
      by_cases h1 : ltChars k.data k'.data = true
      · rw [if_pos h1]
        simp [find]
      · rw [if_neg h1]
        by_cases h2 : k' = k
        · rw [if_pos h2]
          exact h
        · rw [if_neg h2]
          simp only [find, if_neg h2] at h ⊢
          exact ih h
  · rw [find_insert_ne _ _ _ _ hk]
    exact h

theorem find_ne_none_assign {β : Type} (m : List (String × β)) (k k' : String) (v : β)
    (h : find m k' ≠ none) : find (assign m k v) k' ≠ none := by
  by_cases hk : k = k'
  · subst hk
    cases hf : find m k with
    | none => exact absurd hf h
    | some w =>
      rw [find_assign_self _ _ _ _ hf]
      simp
  · rw [find_assign_ne _ _ _ _ hk]
    exact h

end StdMap

/-- The second of two equal `Put` calls, when the first left the key stored
with the data in every entry: the key is found and assigned the value it
holds. -/
theorem Put_again (s : ShardkvServer) (kv : List (String × String)) (key data user : String)
    (uid : Int) (hne : key ≠ "") (hau : key ≠ "all_users") (hid : extractID key = some uid)
    (hloc : CheckInShard uid s.local_shard = true)
    (hf : StdMap.find kv key ≠ none) (hh : ∀ p ∈ kv, p.1 = key → p.2 = data) :
    ShardkvServer.Put ⟨s.address, kv, s.local_shard, s.server_shard_map, s.deleted⟩ key data user
      = some (.OK, ⟨s.address, kv, s.local_shard, s.server_shard_map, s.deleted⟩, []) := by
  obtain ⟨w, hw⟩ : ∃ w, StdMap.find kv key = some w := by
    cases h : StdMap.find kv key with
    | none => exact absurd h hf
    | some w => exact ⟨w, rfl⟩
  have ha := StdMap.assign_eq_self kv key data hh
  have hup : upsert kv key data = kv := by
    simp only [upsert, hw]
    exact ha
  simp only [ShardkvServer.Put, hne, hau, if_false, hid, hloc, Bool.true_eq_false, hw, hup, ha]
  split_ifs <;> rfl

theorem held_upsert (kv : List (String × String)) (key data : String) :
    ∀ p ∈ upsert kv key data, p.1 = key → p.2 = data := by
  unfold upsert
  cases h : StdMap.find kv key with
  | none => exact StdMap.held_insert_self _ _ _ h
  | some w => exact StdMap.held_assign_self _ _ _

/-- The last step of the post branch of `Put` keeps the key stored with
the data, when the key is not the record of the posts of the user. -/
theorem Put_tail_result (s s' : ShardkvServer) (kv2 : List (String × String))
    (key data user : String) (calls : List PeerCall) (hk : user ++ "_posts" ≠ key)
    (hf2 : StdMap.find kv2 key ≠ none) (hh2 : ∀ p ∈ kv2, p.1 = key → p.2 = data)
    (h :
      (match StdMap.find kv2 (user ++ "_posts") with
        | none =>
          some (Status.OK,
            ({ s with kv_store := StdMap.insert kv2 (user ++ "_posts") (key ++ ",") } :
              ShardkvServer), ([] : List PeerCall))
        | some v =>
          some (Status.OK,
            ({ s with kv_store :=
                StdMap.assign kv2 (user ++ "_posts") (v ++ key ++ ",") } :
              ShardkvServer), ([] : List PeerCall))) = some (.OK, s', calls)) :
    ∃ kv, s' = ⟨s.address, kv, s.local_shard, s.server_shard_map, s.deleted⟩ ∧
      StdMap.find kv key ≠ none ∧ ∀ p ∈ kv, p.1 = key → p.2 = data := by
  cases hfp : StdMap.find kv2 (user ++ "_posts") with
  | none =>
    simp only [hfp, Option.some.injEq, Prod.mk.injEq, true_and] at h
    exact ⟨_, h.1.symm, StdMap.find_ne_none_insert _ _ _ _ hf2,
      StdMap.held_insert_ne _ _ _ _ _ hk hh2⟩
  | some v =>
    simp only [hfp, Option.some.injEq, Prod.mk.injEq, true_and] at h
    exact ⟨_, h.1.symm, StdMap.find_ne_none_assign _ _ _ _ hf2,
      StdMap.held_assign_ne _ _ _ _ _ hk hh2⟩

/-- The store left by a `Put` that returns OK: either nothing changed, or
the key is stored and every entry of the key holds the data (provided the
key is not the record of the posts of the user argument). -/
theorem Put_result (s s' : ShardkvServer) (key data user : String) (calls : List PeerCall)
    (uid : Int) (hne : key ≠ "") (hau : key ≠ "all_users") (hid : extractID key = some uid)
    (hloc : CheckInShard uid s.local_shard = true) (hk : user ++ "_posts" ≠ key)
    (h : s.Put key data user = some (.OK, s', calls)) :
    (s' = s ∧ calls = []) ∨
    ∃ kv, s' = ⟨s.address, kv, s.local_shard, s.server_shard_map, s.deleted⟩ ∧
      StdMap.find kv key ≠ none ∧ ∀ p ∈ kv, p.1 = key → p.2 = data := by
  have hups : StdMap.find (upsert s.kv_store key data) key ≠ none := by
    rw [find_upsert]
    simp
  by_cases h1 : (parse_value key "_")[0]? = some "post" ∧ (parse_value key "_").length = 2 ∧
      user = ""
  · simp only [ShardkvServer.Put, hne, hau, if_false, hid, hloc, Bool.true_eq_false,
      if_pos h1] at h
    simp only [Option.some.injEq, Prod.mk.injEq, true_and] at h
    exact Or.inr ⟨_, h.1.symm, hups, held_upsert _ _ _⟩
  by_cases h2 : (parse_value key "_").length = 3 ∧
      ((parse_value key "_")[0]? = some "user" ∧ (parse_value key "_")[2]? = some "posts") ∧
      user = ""
  · simp only [ShardkvServer.Put, hne, hau, if_false, hid, hloc, Bool.true_eq_false,
      if_neg h1, if_pos h2] at h
    simp only [Option.some.injEq, Prod.mk.injEq, true_and] at h
    exact Or.inr ⟨_, h.1.symm, hups, held_upsert _ _ _⟩
  by_cases h3 : (parse_value key "_")[0]? = some "user" ∧ (parse_value key "_").length = 2
  · simp only [ShardkvServer.Put, hne, hau, if_false, hid, hloc, Bool.true_eq_false,
      if_neg h1, if_neg h2, if_pos h3] at h
    cases hf : StdMap.find s.kv_store key with
    | some w =>
      simp only [hf, Option.some.injEq, Prod.mk.injEq, true_and] at h
      refine Or.inr ⟨_, h.1.symm, ?_, StdMap.held_assign_self _ _ _⟩
      rw [StdMap.find_assign_self _ _ _ _ hf]
      simp
    | none =>
      simp only [hf] at h
      unfold appendAllUsers at h
      cases ha : StdMap.find (StdMap.insert s.kv_store key data) "all_users" with
      | none => simp [ha] at h
      | some au =>
        simp only [ha, Option.some.injEq, Prod.mk.injEq, true_and] at h
        refine Or.inr ⟨_, h.1.symm, ?_, ?_⟩
        · apply StdMap.find_ne_none_assign
          rw [StdMap.find_insert_self _ _ _ hf]
          simp
        · exact StdMap.held_assign_ne _ _ _ _ _ (Ne.symm hau) (StdMap.held_insert_self _ _ _ hf)
  by_cases h4 : (parse_value key "_")[0]? = some "post" ∧ (parse_value key "_").length = 2 ∧
      user ≠ ""
  · rw [Put_post_user s key data user uid hne hau hid hloc ⟨h4.1, h4.2.1⟩ h4.2.2] at h
    cases hf : StdMap.find s.kv_store key with
    | some w =>
      simp only [hf, Option.some.injEq, Prod.mk.injEq, true_and] at h
      refine Or.inr ⟨_, h.1.symm, ?_, StdMap.held_assign_self _ _ _⟩
      rw [StdMap.find_assign_self _ _ _ _ hf]
      simp
    | none =>
      simp only [hf] at h
      have hk1 : StdMap.find (StdMap.insert s.kv_store key data) key ≠ none := by
        rw [StdMap.find_insert_self _ _ _ hf]
        simp
      have hh1 := StdMap.held_insert_self s.kv_store key data hf
      cases hx : extractID user with
      | none => simp [hx] at h
      | some uuid =>
        simp only [hx] at h
        by_cases hul : CheckInShard uuid s.local_shard = true
        · simp only [hul, Bool.true_eq_false, if_false] at h
          cases hfu : StdMap.find (StdMap.insert s.kv_store key data) user with
          | some uv =>
            simp only [hfu] at h
            exact Or.inr (Put_tail_result s s' _ key data user calls hk hk1 hh1 h)
          | none =>
            have hne2 : user ≠ key := by
              rintro rfl
              exact hk1 hfu
            simp only [hfu] at h
            unfold appendAllUsers at h
            cases ha : StdMap.find
                (StdMap.insert (StdMap.insert s.kv_store key data) user "") "all_users" with
            | none => simp [ha] at h
            | some au =>
              simp only [ha] at h
              exact Or.inr (Put_tail_result s s' _ key data user calls hk
                (StdMap.find_ne_none_assign _ _ _ _ (StdMap.find_ne_none_insert _ _ _ _ hk1))
                (StdMap.held_assign_ne _ _ _ _ _ (Ne.symm hau)
                  (StdMap.held_insert_ne _ _ _ _ _ hne2 hh1)) h)
        · simp only [hul, if_true, Option.some.injEq, Prod.mk.injEq, true_and] at h
          exact Or.inr ⟨_, h.1.symm, hk1, hh1⟩
  · simp only [ShardkvServer.Put, hne, hau, if_false, hid, hloc, Bool.true_eq_false,
      if_neg h1, if_neg h2, if_neg h3, if_neg h4] at h
    simp only [Option.some.injEq, Prod.mk.injEq, true_and] at h
    exact Or.inl ⟨h.1.symm, h.2.symm⟩

/-- The tokens of a string with a delimiter in it: the tokens before the
delimiter, then the tokens after it. -/
theorem strtok_append (delim : List Char) (d : Char) (hd : d ∈ delim) (rest : List Char) :
    ∀ (u acc : List Char),
      strtok delim (u ++ d :: rest) acc = strtok delim u acc ++ strtok delim rest [] := by
  intro u
  induction u with
  | nil =>
    intro acc
    by_cases hacc : acc = [] <;> simp [strtok, hd, hacc]
  | cons c cs ih =>
    intro acc
    by_cases hc : c ∈ delim
    · by_cases hacc : acc = [] <;> simp [strtok, hc, hacc, ih []]
    · simp [strtok, hc, ih (c :: acc)]

/-- The view `c_str()` of a string without a NUL character is the whole
string. -/
theorem c_str_of_no_nul (s : String) (h : ∀ c ∈ s.data, c ≠ Char.ofNat 0) :
    c_str s = s.data := by
  unfold c_str
  rw [List.takeWhile_eq_self_iff]
  intro c hc
  simpa using h c hc

/-- The tokens of `user ++ "_posts"`, when it holds no NUL character, are
the tokens of `user` followed by `posts`. -/
theorem parse_value_append_posts (user : String)
    (h : ∀ c ∈ (user ++ "_posts").data, c ≠ Char.ofNat 0) :
    parse_value (user ++ "_posts") "_" = parse_value user "_" ++ ["posts"] := by
  have hu : ∀ c ∈ user.data, c ≠ Char.ofNat 0 := fun c hc =>
    h c (by rw [String.data_append]; exact List.mem_append_left _ hc)
  have hd : (user ++ "_posts").data = user.data ++ '_' :: ['p', 'o', 's', 't', 's'] := by
    rw [String.data_append]
  have ht : strtok ['_'] ['p', 'o', 's', 't', 's'] [] = [['p', 'o', 's', 't', 's']] := by
    decide
  simp only [parse_value, c_str_of_no_nul _ h, c_str_of_no_nul _ hu, c_str_underscore, hd,
    strtok_append ['_'] '_' (by decide) _ user.data [], ht, List.map_append, List.map_cons,
    List.map_nil]

/-- A key `user ++ "_posts"` without a NUL character that has two tokens has
no id: its second token is `posts`. -/
theorem extractID_append_posts (user : String)
    (h : ∀ c ∈ (user ++ "_posts").data, c ≠ Char.ofNat 0)
    (hlen : (parse_value (user ++ "_posts") "_").length = 2) :
    extractID (user ++ "_posts") = none := by
  unfold extractID
  rw [parse_value_append_posts user h] at hlen ⊢
  cases hp : parse_value user "_" with
  | nil => rfl
  | cons a t =>
    cases t with
    | nil =>
      show stoi "posts" = none
      decide
    | cons b u =>
      rw [hp] at hlen
      simp at hlen

/-- The handler `Put` on a key with an id in the local intervals that has not
two tokens, with a non-empty user argument: OK, nothing changes. -/
theorem Put_passes (s : ShardkvServer) (key data user : String) (uid : Int)
    (hne : key ≠ "") (hau : key ≠ "all_users") (hid : extractID key = some uid)
    (hloc : CheckInShard uid s.local_shard = true)
    (hlen : (parse_value key "_").length ≠ 2) (hu : user ≠ "") :
    s.Put key data user = some (.OK, s, []) := by
  have c1 : ¬ ((parse_value key "_")[0]? = some "post" ∧
      (parse_value key "_").length = 2 ∧ user = "") := fun h => hlen h.2.1
  have c2 : ¬ ((parse_value key "_").length = 3 ∧
      ((parse_value key "_")[0]? = some "user" ∧ (parse_value key "_")[2]? = some "posts") ∧
      user = "") := fun h => hu h.2.2
  have c3 : ¬ ((parse_value key "_")[0]? = some "user" ∧ (parse_value key "_").length = 2) :=
    fun h => hlen h.2
  have c4 : ¬ ((parse_value key "_")[0]? = some "post" ∧
      (parse_value key "_").length = 2 ∧ user ≠ "") := fun h => hlen h.2.1
  simp only [ShardkvServer.Put, hne, hau, if_false, hid, hloc, Bool.true_eq_false,
    if_neg c1, if_neg c2, if_neg c3, if_neg c4]

/-- Two equal `Put` calls in a row: if the first returns OK, the second
returns OK, sends no request and leaves the state the first left, unless the
key is the user argument followed by `_posts` and holds a NUL character. -/
theorem Put_twice (s s' : ShardkvServer) (key data user : String) (calls : List PeerCall)
    (hk : key = user ++ "_posts" → ∀ c ∈ key.data, c ≠ Char.ofNat 0)
    (h : s.Put key data user = some (.OK, s', calls)) :
    s'.Put key data user = some (.OK, s', []) := by
  have hne : key ≠ "" := by
    rintro rfl
    simp [ShardkvServer.Put] at h
  have hau : key ≠ "all_users" := by
    rintro rfl
    simp [ShardkvServer.Put] at h
  cases hid : extractID key with
  | none => simp [ShardkvServer.Put, hne, hau, hid] at h
  | some uid =>
    by_cases hloc : CheckInShard uid s.local_shard = true
    · by_cases he : key = user ++ "_posts"
      · have hnul := hk he
        subst he
        have hlen : (parse_value (user ++ "_posts") "_").length ≠ 2 := by
          intro hl
          rw [extractID_append_posts user hnul hl] at hid
          exact absurd hid (by simp)
        have hu : user ≠ "" := by
          rintro rfl
          have h0 : extractID ("" ++ "_posts") = none := by decide
          rw [h0] at hid
          exact absurd hid (by simp)
        have hp := Put_passes s (user ++ "_posts") data user uid hne hau hid hloc hlen hu
        rw [hp] at h
        simp only [Option.some.injEq, Prod.mk.injEq, true_and] at h
        rw [← h.1]
        exact hp
      · rcases Put_result s s' key data user calls uid hne hau hid hloc (Ne.symm he) h with
          ⟨rfl, rfl⟩ | ⟨kv, rfl, hf, hh⟩
        · exact h
        · exact Put_again s kv key data user uid hne hau hid hloc hf hh
    · simp [ShardkvServer.Put, hne, hau, hid, hloc] at h

/-! ## Lemmas on `Move` -/

theorem get_overlap_total (a b : shard) : ∃ st, get_overlap a b = some st := by
  unfold get_overlap
  split_ifs with h1 h2 h3 h4 h5
  · exact ⟨_, rfl⟩
  · exact ⟨_, rfl⟩
  · exact ⟨_, rfl⟩
  · exact ⟨_, rfl⟩
  · exact ⟨_, rfl⟩
  · exfalso
    omega

theorem moveOne_total (M sd : shard) : ∃ l, moveOne M sd = some l := by
  obtain ⟨st, h⟩ := get_overlap_total M sd
  unfold moveOne
  rw [h]
  cases st <;> exact ⟨_, rfl⟩

theorem moveIntervals_eq (M : shard) (l : List shard) :
    moveIntervals M l = some (l.flatMap (fun sd => (moveOne M sd).getD [])) := by
  induction l with
  | nil => rfl
  | cons sd rest ih =>
    obtain ⟨a, ha⟩ := moveOne_total M sd
    simp only [moveIntervals, ha, ih, List.flatMap_cons, Option.getD_some]

/-- The loop over `server_order` of `Move` replaces the list of every member
by its image under the `switch`. -/
theorem moveAll_spec (M : shard) :
    ∀ (order : List String) (m : List (String × List shard)),
      order.Nodup → (∀ k ∈ order, StdMap.find m k ≠ none) →
      ∃ m', moveAll M order m = some m' ∧
        ∀ k, StdMap.find m' k =
          if k ∈ order then
            (StdMap.find m k).map (fun l => l.flatMap (fun sd => (moveOne M sd).getD []))
          else StdMap.find m k := by
  intro order
  induction order with
  | nil =>
    intro m _ _
    exact ⟨m, rfl, fun k => by simp⟩
  | cons srv rest ih =>
    intro m hnd hall
    have hnd' := List.nodup_cons.1 hnd
    obtain ⟨l, hl⟩ : ∃ l, StdMap.find m srv = some l := by
      cases h : StdMap.find m srv with
      | none => exact absurd h (hall srv (List.mem_cons_self _ _))
      | some l => exact ⟨l, rfl⟩
    have hall' : ∀ k ∈ rest, StdMap.find
        (StdMap.assign m srv (l.flatMap (fun sd => (moveOne M sd).getD []))) k ≠ none :=
      fun k hk => StdMap.find_ne_none_assign _ _ _ _ (hall k (List.mem_cons_of_mem _ hk))
    obtain ⟨m', hm', hfind⟩ := ih _ hnd'.2 hall'
    refine ⟨m', ?_, fun k => ?_⟩
    · simp only [moveAll, hl, moveIntervals_eq]
      exact hm'
    · rw [hfind k]
      by_cases hk : k = srv
      · subst hk
        rw [if_neg hnd'.1, if_pos (List.mem_cons_self _ _),
          StdMap.find_assign_self _ _ _ _ hl, hl]
        rfl
      · rw [StdMap.find_assign_ne _ _ _ _ (Ne.symm hk)]
        by_cases hr : k ∈ rest
        · rw [if_pos hr, if_pos (List.mem_cons_of_mem _ hr)]
        · rw [if_neg hr, if_neg (by simp [hk, hr])]

/-- Two maps with the same keys, none repeated, and the same lookups are
equal. -/
theorem StdMap.ext_of_find {β : Type} :
    ∀ (m1 m2 : List (String × β)), m1.map Prod.fst = m2.map Prod.fst →
      (m1.map Prod.fst).Nodup → (∀ k, StdMap.find m1 k = StdMap.find m2 k) → m1 = m2 := by
  intro m1
  induction m1 with
  | nil =>
    intro m2 hk _ _
    cases m2 with
    | nil => rfl
    | cons q r => simp at hk
  | cons p rest ih =>
    intro m2 hk hnd hf
    cases m2 with
    | nil => simp at hk
    | cons q r =>
      obtain ⟨k1, v1⟩ := p
      obtain ⟨k2, v2⟩ := q
      simp only [List.map_cons, List.cons.injEq] at hk
      obtain ⟨hk1, hk2⟩ := hk
      subst hk1
      have hnd' := List.nodup_cons.1 hnd
      have hv : v1 = v2 := by
        have := hf k1
        simp only [StdMap.find, if_true, Option.some.injEq] at this
        exact this
      subst hv
      have hrest : rest = r := by
        apply ih r hk2 hnd'.2
        intro k
        have := hf k
        simp only [StdMap.find] at this
        by_cases hkk : k1 = k
        · subst hkk
          have h1 : StdMap.find rest k1 = none := by
            by_contra hne
            exact hnd'.1 ((StdMap.mem_keys_iff rest k1).2 hne)
          have h2 : StdMap.find r k1 = none := by
            by_contra hne
            have := (StdMap.mem_keys_iff r k1).2 hne
            rw [← hk2] at this
            exact hnd'.1 this
          rw [h1, h2]
        · rw [if_neg hkk, if_neg hkk] at this
          exact this
      rw [hrest]

theorem StdMap.find_map_snd {β : Type} (g : String → β → β) (m : List (String × β))
    (k : String) :
    StdMap.find (m.map (fun e => (e.1, g e.1 e.2))) k = (StdMap.find m k).map (g k) := by
  induction m with
  | nil => rfl
  | cons p rest ih =>
    obtain ⟨k1, v1⟩ := p
    simp only [List.map_cons, StdMap.find]
    by_cases hk : k1 = k
    · subst hk
      simp
    · rw [if_neg hk, if_neg hk]
      exact ih

/-- The result of `Move` on a state whose map keys are the members: every
member's list is cut by the `switch`, in place, and the moved interval is
appended to the list of the target. -/
theorem move_spec (sm : StaticShardmaster) (s : String) (M : shard)
    (hc : sm.Consistent) (hs0 : s ≠ "") (hs : s ∈ sm.server_order) :
    sm.Move s M = some (.OK,
      ⟨sm.server_order,
        sm.server_shard_map.map (fun e =>
          (e.1, e.2.flatMap (fun sd => (moveOne M sd).getD []) ++
            (if e.1 = s then [M] else [])))⟩) := by
  obtain ⟨hnd, hknd, hkeys⟩ := hc
  have hall : ∀ k ∈ sm.server_order, StdMap.find sm.server_shard_map k ≠ none :=
    fun k hk => (StdMap.mem_keys_iff _ _).1 ((hkeys k).2 hk)
  obtain ⟨m', hm', hfind⟩ := moveAll_spec M sm.server_order sm.server_shard_map hnd hall
  obtain ⟨l, hl⟩ : ∃ l, StdMap.find sm.server_shard_map s = some l := by
    cases h : StdMap.find sm.server_shard_map s with
    | none => exact absurd h (hall s hs)
    | some l => exact ⟨l, rfl⟩
  have hs' : StdMap.find m' s = some (l.flatMap (fun sd => (moveOne M sd).getD [])) := by
    rw [hfind s, if_pos hs, hl]
    rfl
  have hkeys' := moveAll_keys M _ _ _ hm'
  have hmap : StdMap.assign m' s (l.flatMap (fun sd => (moveOne M sd).getD []) ++ [M]) =
      sm.server_shard_map.map (fun e =>
        (e.1, e.2.flatMap (fun sd => (moveOne M sd).getD []) ++
          (if e.1 = s then [M] else []))) := by
    apply StdMap.ext_of_find
    · rw [StdMap.keys_assign, hkeys', List.map_map]
      rfl
    · rw [StdMap.keys_assign, hkeys']
      exact hknd
    · intro k
      rw [StdMap.find_map_snd (fun k l => l.flatMap (fun sd => (moveOne M sd).getD []) ++
          (if k = s then [M] else [])) sm.server_shard_map k]
      by_cases hk : k = s
      · subst hk
        rw [StdMap.find_assign_self _ _ _ _ hs', hl]
        simp
      · rw [StdMap.find_assign_ne _ _ _ _ (Ne.symm hk), hfind k]
        by_cases hko : k ∈ sm.server_order
        · rw [if_pos hko]
          cases StdMap.find sm.server_shard_map k with
          | none => rfl
          | some v => simp [hk]
        · rw [if_neg hko]
          have : StdMap.find sm.server_shard_map k = none := by
            by_contra hne
            exact hko ((hkeys k).1 ((StdMap.mem_keys_iff _ _).2 hne))
          rw [this]
          rfl
  simp only [StaticShardmaster.Move, hs0, if_false, hl, Option.isNone_some, hm', hs',
    Bool.false_eq_true, hmap]

theorem moveOne_contained (M S : shard) (hM : M.lower ≤ M.upper)
    (hl : S.lower ≤ M.lower) (hu : M.upper ≤ S.upper) (hb : S.upper < UINT_MOD) :
    moveOne M S = some ((if S.lower < M.lower then [⟨S.lower, M.lower - 1⟩] else []) ++
      (if M.upper < S.upper then [⟨M.upper + 1, S.upper⟩] else [])) := by
  have hg : get_overlap M S = some .COMPLETELY_CONTAINED := by
    unfold get_overlap
    rw [if_neg (by omega), if_pos ⟨hl, hu⟩]
  unfold moveOne
  rw [hg]
  simp only [UINT_MOD] at hb ⊢
  by_cases h1 : S.lower < M.lower
  · have e1 : (M.lower + 4294967296 - 1) % 4294967296 = M.lower - 1 := by omega
    have n1 : S.lower ≠ M.lower := by omega
    by_cases h2 : M.upper < S.upper
    · have e2 : (M.upper + 1) % 4294967296 = M.upper + 1 := by omega
      simp only [if_pos h1, if_pos n1, if_pos h2, e1, e2]
    · simp only [if_pos h1, if_pos n1, if_neg h2, e1]
  · have n1 : ¬ S.lower ≠ M.lower := by omega
    by_cases h2 : M.upper < S.upper
    · have e2 : (M.upper + 1) % 4294967296 = M.upper + 1 := by omega
      simp only [if_neg h1, if_neg n1, if_pos h2, e2]
    · simp only [if_neg h1, if_neg n1, if_neg h2]

theorem moveOne_disjoint (M T : shard) (h : T.disjoint M) : moveOne M T = some [T] := by
  have hg : get_overlap M T = some .NO_OVERLAP := by
    unfold get_overlap
    rw [if_pos (Or.symm h)]
  unfold moveOne
  rw [hg]

/-- What the `switch` of `Move` leaves of an interval that contains the
moved interval or is disjoint from it: well-formed intervals inside the
interval and disjoint from the moved one, pairwise disjoint, that hold the
keys of the interval outside the moved one. -/
theorem cut_facts (M T : shard) (hM : M.lower ≤ M.upper) (hT : T.lower ≤ T.upper)
    (h : (T.lower ≤ M.lower ∧ M.upper ≤ T.upper ∧ T.upper < UINT_MOD) ∨ T.disjoint M) :
    (∀ x ∈ (moveOne M T).getD [],
      x.lower ≤ x.upper ∧ T.lower ≤ x.lower ∧ x.upper ≤ T.upper ∧ x.disjoint M) ∧
    ((moveOne M T).getD []).Pairwise shard.disjoint ∧
    ∀ k, (∃ x ∈ (moveOne M T).getD [], x.contains k) ↔ (T.contains k ∧ ¬ M.contains k) := by
  rcases h with ⟨hl, hu, hb⟩ | hd
  · rw [moveOne_contained M T hM hl hu hb]
    simp only [Option.getD_some, shard.disjoint, shard.contains]
    by_cases h1 : T.lower < M.lower <;> by_cases h2 : M.upper < T.upper
    · simp only [if_pos h1, if_pos h2, List.singleton_append, List.mem_cons,
        List.mem_singleton, List.not_mem_nil, or_false]
      refine ⟨?_, ?_, fun k => ⟨?_, fun hk => ?_⟩⟩
      · rintro x (rfl | rfl) <;> dsimp only <;> omega
      · simp only [List.pairwise_cons, List.mem_singleton, forall_eq, List.Pairwise.nil,
          List.not_mem_nil, and_true]
        refine ⟨?_, fun a ha => ha.elim⟩
        simp only [shard.disjoint]
        omega
      · rintro ⟨x, (rfl | rfl), hx⟩ <;> dsimp only at hx <;> omega
      · by_cases hk1 : k < M.lower
        · exact ⟨_, Or.inl rfl, by dsimp only; omega⟩
        · exact ⟨_, Or.inr rfl, by dsimp only; omega⟩
    · simp only [if_pos h1, if_neg h2, List.append_nil, List.mem_singleton]
      refine ⟨?_, List.pairwise_singleton _ _, fun k => ⟨?_, fun hk => ?_⟩⟩
      · rintro x rfl
        dsimp only
        omega
      · rintro ⟨x, rfl, hx⟩
        dsimp only at hx
        omega
      · exact ⟨_, rfl, by dsimp only; omega⟩
    · simp only [if_neg h1, if_pos h2, List.nil_append, List.mem_singleton]
      refine ⟨?_, List.pairwise_singleton _ _, fun k => ⟨?_, fun hk => ?_⟩⟩
      · rintro x rfl
        dsimp only
        omega
      · rintro ⟨x, rfl, hx⟩
        dsimp only at hx
        omega
      · exact ⟨_, rfl, by dsimp only; omega⟩
    · simp only [if_neg h1, if_neg h2, List.append_nil, List.not_mem_nil, false_and,
        exists_false, false_iff, IsEmpty.forall_iff, implies_true, List.Pairwise.nil, true_and]
      intro k
      omega
  · rw [moveOne_disjoint M T hd]
    simp only [Option.getD_some, List.mem_singleton, shard.disjoint, shard.contains] at hd ⊢
    refine ⟨?_, List.pairwise_singleton _ _, fun k => ⟨?_, fun hk => ?_⟩⟩
    · rintro x rfl
      omega
    · rintro ⟨x, rfl, hx⟩
      omega
    · exact ⟨_, rfl, hk.1⟩

theorem pairwise_mem_cases {α : Type} (R : α → α → Prop) :
    ∀ (l : List α), l.Pairwise R → ∀ a ∈ l, ∀ b ∈ l, a = b ∨ R a b ∨ R b a := by
  intro l
  induction l with
  | nil => intro _ a ha; simp at ha
  | cons x rest ih =>
    intro hp a ha b hb
    obtain ⟨hx, hrest⟩ := List.pairwise_cons.1 hp
    rcases List.mem_cons.1 ha with rfl | ha' <;> rcases List.mem_cons.1 hb with rfl | hb'
    · exact Or.inl rfl
    · exact Or.inr (Or.inl (hx b hb'))
    · exact Or.inr (Or.inr (hx a ha'))
    · exact ih hrest a ha' b hb'

theorem flatMap_target {β : Type} (s : String) (M : shard) :
    ∀ (m : List (String × β)), (m.map Prod.fst).Nodup → s ∈ m.map Prod.fst →
      m.flatMap (fun e => if e.1 = s then [M] else []) = [M] := by
  intro m
  induction m with
  | nil => intro _ h; simp at h
  | cons p rest ih =>
    intro hnd hs
    obtain ⟨k, v⟩ := p
    simp only [List.map_cons, List.nodup_cons, List.mem_cons] at hnd hs
    simp only [List.flatMap_cons]
    by_cases hk : k = s
    · subst hk
      have hnone : ∀ e ∈ rest, (if e.1 = k then [M] else []) = ([] : List shard) := by
        intro e he
        have : e.1 ≠ k := by
          rintro rfl
          exact hnd.1 (List.mem_map_of_mem _ he)
        rw [if_neg this]
      have : rest.flatMap (fun e => if e.1 = k then [M] else []) = [] := by
        rw [List.flatMap_eq_nil_iff]
        exact hnone
      simp [this]
    · have hs' : s ∈ rest.map Prod.fst := by
        rcases hs with h | h
        · exact absurd h.symm hk
        · exact h
      rw [if_neg hk, ih hnd.2 hs']
      rfl

/-- The intervals after a `Move` whose interval lies inside one interval of
a well-formed, disjoint, covering configuration. -/
theorem move_inside_preserves (sm : StaticShardmaster) (s : String) (M S : shard)
    (hc : sm.Consistent) (hs : s ∈ sm.server_order) (hM : M.lower ≤ M.upper)
    (hwf : WellFormed sm.intervals) (hd : PairwiseDisjoint sm.intervals)
    (hcov : Covers sm.intervals MIN_KEY MAX_KEY)
    (hS : S ∈ sm.intervals) (hl : S.lower ≤ M.lower) (hu : M.upper ≤ S.upper) :
    WellFormed (StaticShardmaster.intervals ⟨sm.server_order,
        sm.server_shard_map.map (fun e =>
          (e.1, e.2.flatMap (fun sd => (moveOne M sd).getD []) ++
            (if e.1 = s then [M] else [])))⟩) ∧
    PairwiseDisjoint (StaticShardmaster.intervals ⟨sm.server_order,
        sm.server_shard_map.map (fun e =>
          (e.1, e.2.flatMap (fun sd => (moveOne M sd).getD []) ++
            (if e.1 = s then [M] else [])))⟩) ∧
    Covers (StaticShardmaster.intervals ⟨sm.server_order,
        sm.server_shard_map.map (fun e =>
          (e.1, e.2.flatMap (fun sd => (moveOne M sd).getD []) ++
            (if e.1 = s then [M] else [])))⟩) MIN_KEY MAX_KEY := by
  obtain ⟨hnd, hknd, hkeys⟩ := hc
  have hSwf : S.lower ≤ S.upper := hwf S hS
  have hSb : S.upper < UINT_MOD := by
    have := (hcov S.upper).1 ⟨S, hS, hSwf, le_refl _⟩
    simp only [MAX_KEY, UINT_MOD] at this ⊢
    omega
  have hsym : ∀ {x y : shard}, x.disjoint y → y.disjoint x := fun h => Or.symm h
  -- every interval contains the moved one or is disjoint from it
  have hcls : ∀ T ∈ sm.intervals,
      (T.lower ≤ M.lower ∧ M.upper ≤ T.upper ∧ T.upper < UINT_MOD) ∨ T.disjoint M := by
    intro T hT
    rcases pairwise_mem_cases shard.disjoint _ hd T hT S hS with rfl | h | h
    · exact Or.inl ⟨hl, hu, hSb⟩
    · right
      simp only [shard.disjoint] at h ⊢
      omega
    · right
      simp only [shard.disjoint] at h ⊢
      omega
  have hfacts := fun T hT => cut_facts M T hM (hwf T hT) (hcls T hT)
  -- the intervals after the call, up to their order
  have hperm : (StaticShardmaster.intervals ⟨sm.server_order,
        sm.server_shard_map.map (fun e =>
          (e.1, e.2.flatMap (fun sd => (moveOne M sd).getD []) ++
            (if e.1 = s then [M] else [])))⟩).Perm
      (sm.intervals.flatMap (fun sd => (moveOne M sd).getD []) ++ [M]) := by
    have h1 := (List.flatMap_append_perm sm.server_shard_map
      (fun e => e.2.flatMap (fun sd => (moveOne M sd).getD []))
      (fun e => if e.1 = s then [M] else [])).symm
    rw [flatMap_target s M sm.server_shard_map hknd ((hkeys s).2 hs)] at h1
    simp only [StaticShardmaster.intervals, List.flatMap_map]
    rw [List.flatMap_assoc]
    exact h1
  have hmem : ∀ x, x ∈ sm.intervals.flatMap (fun sd => (moveOne M sd).getD []) ++ [M] ↔
      (∃ T ∈ sm.intervals, x ∈ (moveOne M T).getD []) ∨ x = M := by
    intro x
    simp only [List.mem_append, List.mem_flatMap, List.mem_singleton]
  refine ⟨?_, ?_, ?_⟩
  · intro x hx
    rcases (hmem x).1 (hperm.mem_iff.1 hx) with ⟨T, hT, hxT⟩ | rfl
    · exact ((hfacts T hT).1 x hxT).1
    · exact hM
  · refine (List.Perm.pairwise_iff hsym hperm).2 ?_
    rw [List.pairwise_append]
    refine ⟨?_, List.pairwise_singleton _ _, ?_⟩
    · rw [List.pairwise_flatMap]
      refine ⟨fun T hT => (hfacts T hT).2.1, ?_⟩
      refine List.Pairwise.imp_of_mem ?_ hd
      intro T1 T2 h1 h2 h12 x hx y hy
      have fx := (hfacts T1 h1).1 x hx
      have fy := (hfacts T2 h2).1 y hy
      simp only [shard.disjoint] at h12 ⊢
      omega
    · intro a ha b hb
      rw [List.mem_singleton] at hb
      subst hb
      obtain ⟨T, hT, haT⟩ := List.mem_flatMap.1 ha
      exact ((hfacts T hT).1 a haT).2.2.2
  · intro k
    constructor
    · rintro ⟨x, hx, hk⟩
      rcases (hmem x).1 (hperm.mem_iff.1 hx) with ⟨T, hT, hxT⟩ | rfl
      · exact (hcov k).1 ⟨T, hT, (((hfacts T hT).2.2 k).1 ⟨x, hxT, hk⟩).1⟩
      · refine (hcov k).1 ⟨S, hS, ?_⟩
        simp only [shard.contains] at hk ⊢
        omega
    · intro hk
      by_cases hkM : M.contains k
      · exact ⟨M, hperm.mem_iff.2 ((hmem M).2 (Or.inr rfl)), hkM⟩
      · obtain ⟨T, hT, hkT⟩ := (hcov k).2 hk
        obtain ⟨x, hxT, hxk⟩ := ((hfacts T hT).2.2 k).2 ⟨hkT, hkM⟩
        exact ⟨x, hperm.mem_iff.2 ((hmem x).2 (Or.inl ⟨T, hT, hxT⟩)), hxk⟩

/-! ## Lemmas on the reconciler -/

theorem find_configMap :
    ∀ (config m : List (String × List shard)) (k : String),
      (config.map Prod.fst).Nodup → (∀ e ∈ config, StdMap.find m e.1 = none) →
      StdMap.find (configMap config m) k = (StdMap.find m k).or (StdMap.find config k) := by
  intro config
  induction config with
  | nil =>
    intro m k _ _
    simp [configMap, StdMap.find]
  | cons e rest ih =>
    intro m k hnd hm
    obtain ⟨k0, v0⟩ := e
    simp only [List.map_cons, List.nodup_cons] at hnd
    have hm0 : StdMap.find m k0 = none := hm (k0, v0) (List.mem_cons_self _ _)
    have hrest : ∀ e ∈ rest, StdMap.find (StdMap.insert m k0 v0) e.1 = none := by
      intro e he
      have hne : k0 ≠ e.1 := by
        rintro rfl
        exact hnd.1 (List.mem_map_of_mem _ he)
      rw [StdMap.find_insert_ne _ _ _ _ hne]
      exact hm e (List.mem_cons_of_mem _ he)
    simp only [configMap, ih _ k hnd.2 hrest, StdMap.find]
    by_cases hk : k0 = k
    · subst hk
      rw [if_pos rfl, StdMap.find_insert_self _ _ _ hm0, hm0]
      rfl
    · rw [if_neg hk, StdMap.find_insert_ne _ _ _ _ hk]

/-- What the loop of the reconciler leaves, when it completes on a store
without repeated keys: every key it visits is `all_users` or has an id, the
new store holds the visited records whose id is in the local intervals, the
requests are those of the visited records in order, and only the `all_users`
record of the old store is rewritten. -/
theorem reconcileLoop_spec (loc : List shard) (map : List (String × List shard)) :
    ∀ (entries kvc upd : List (String × String)) (calls : List PeerCall)
      (kvc' upd' : List (String × String)) (calls' : List PeerCall),
      (entries.map Prod.fst).Nodup → (∀ e ∈ entries, StdMap.find upd e.1 = none) →
      reconcileLoop loc map entries (kvc, upd, calls) = some (kvc', upd', calls') →
      (∀ e ∈ entries, e.1 ≠ "all_users" → extractID e.1 ≠ none) ∧
      (∀ k, StdMap.find upd' k =
        (StdMap.find upd k).or
          (if k ≠ "all_users" ∧ idInShards k loc = true then StdMap.find entries k else none)) ∧
      calls' = calls ++ entries.flatMap (migrationCalls loc map) ∧
      (∀ k, k ≠ "all_users" → StdMap.find kvc' k = StdMap.find kvc k) ∧
      (StdMap.find kvc "all_users" ≠ none → StdMap.find kvc' "all_users" ≠ none) := by
  intro entries
  induction entries with
  | nil =>
    intro kvc upd calls kvc' upd' calls' _ _ h
    simp only [reconcileLoop, Option.some.injEq, Prod.mk.injEq] at h
    obtain ⟨rfl, rfl, rfl⟩ := h
    refine ⟨fun e he => absurd he (by simp), fun k => ?_, by simp, fun k _ => rfl, id⟩
    simp [StdMap.find]
  | cons e rest ih =>
    intro kvc upd calls kvc' upd' calls' hnd hupd h
    obtain ⟨k0, v0⟩ := e
    simp only [List.map_cons, List.nodup_cons] at hnd
    have hupd0 : StdMap.find upd k0 = none := hupd (k0, v0) (List.mem_cons_self _ _)
    have hupdr : ∀ e ∈ rest, StdMap.find upd e.1 = none :=
      fun e he => hupd e (List.mem_cons_of_mem _ he)
    have hner : ∀ e ∈ rest, k0 ≠ e.1 := by
      rintro e he rfl
      exact hnd.1 (List.mem_map_of_mem _ he)
    simp only [reconcileLoop] at h
    by_cases hau : k0 = "all_users"
    · rw [if_pos hau] at h
      obtain ⟨h1, h2, h3, h4, h5⟩ := ih kvc upd calls kvc' upd' calls' hnd.2 hupdr h
      refine ⟨?_, fun k => ?_, ?_, h4, h5⟩
      · intro e he hne
        rcases List.mem_cons.1 he with rfl | he
        · exact absurd hau hne
        · exact h1 e he hne
      · rw [h2 k]
        by_cases hk : k ≠ "all_users" ∧ idInShards k loc = true
        · have hk0 : k0 ≠ k := fun hh => hk.1 (hh ▸ hau)
          simp only [if_pos hk, StdMap.find, if_neg hk0]
        · simp only [if_neg hk]
      · rw [h3]
        simp [migrationCalls, hau]
    · rw [if_neg hau] at h
      cases hid : extractID k0 with
      | none => simp [hid] at h
      | some id =>
        simp only [hid] at h
        by_cases hloc : CheckInShard id loc = true
        · simp only [hloc, Bool.true_eq_false, if_false] at h
          have hupd1 : ∀ e ∈ rest, StdMap.find (StdMap.insert upd k0 v0) e.1 = none := by
            intro e he
            rw [StdMap.find_insert_ne _ _ _ _ (hner e he)]
            exact hupdr e he
          obtain ⟨h1, h2, h3, h4, h5⟩ := ih kvc _ calls kvc' upd' calls' hnd.2 hupd1 h
          refine ⟨?_, fun k => ?_, ?_, h4, h5⟩
          · intro e he hne
            rcases List.mem_cons.1 he with rfl | he
            · simp [hid]
            · exact h1 e he hne
          · rw [h2 k]
            by_cases hk0 : k0 = k
            · subst hk0
              have hin : idInShards k0 loc = true := by simp [idInShards, hid, hloc]
              have hc : k0 ≠ "all_users" ∧ idInShards k0 loc = true := ⟨hau, hin⟩
              rw [StdMap.find_insert_self _ _ _ hupd0, hupd0]
              simp only [StdMap.find, if_true, if_pos hc, Option.or_some, Option.none_or]
            · rw [StdMap.find_insert_ne _ _ _ _ hk0]
              simp only [StdMap.find, if_neg hk0]
          · rw [h3]
            simp [migrationCalls, hau, hid, hloc]
        · have hloc' : CheckInShard id loc = false := by simpa using hloc
          have hin : idInShards k0 loc = false := by simp [idInShards, hid, hloc']
          have hcalls : migrationCalls loc map (k0, v0) =
              (map.filter (fun server => CheckInShard id server.2)).map
                (fun server => PeerCall.Put server.1 k0 v0 "") := by
            simp [migrationCalls, hau, hid, hloc']
          have hfind : ∀ k, (if k ≠ "all_users" ∧ idInShards k loc = true then
                StdMap.find ((k0, v0) :: rest) k else none) =
              (if k ≠ "all_users" ∧ idInShards k loc = true then StdMap.find rest k
                else none) := by
            intro k
            by_cases hk : k ≠ "all_users" ∧ idInShards k loc = true
            · have hk0 : k0 ≠ k := by
                rintro rfl
                rw [hin] at hk
                exact absurd hk.2 (by simp)
              simp only [if_pos hk, StdMap.find, if_neg hk0]
            · simp only [if_neg hk]
          have hext : ∀ e ∈ (k0, v0) :: rest, (∀ e ∈ rest, e.1 ≠ "all_users" →
              extractID e.1 ≠ none) → e.1 ≠ "all_users" → extractID e.1 ≠ none := by
            intro e he h1 hne
            rcases List.mem_cons.1 he with rfl | he
            · simp [hid]
            · exact h1 e he hne
          simp only [hloc', if_true] at h
          by_cases hu : (parse_value k0 "_").length = 2 ∧ (parse_value k0 "_")[0]? = some "user"
          · rw [if_pos hu] at h
            cases hfa : StdMap.find kvc "all_users" with
            | none => simp [hfa] at h
            | some au =>
              simp only [hfa] at h
              by_cases hm : (parse_value au ",").indexOf k0 = (parse_value au ",").length
              · simp [hm] at h
              · rw [if_neg hm] at h
                obtain ⟨h1, h2, h3, h4, h5⟩ := ih _ upd _ kvc' upd' calls' hnd.2 hupdr h
                refine ⟨fun e he => hext e he h1, fun k => ?_, ?_, fun k hk => ?_, fun _ => ?_⟩
                · rw [h2 k, hfind k]
                · rw [h3, List.flatMap_cons, hcalls, List.append_assoc]
                · rw [h4 k hk, StdMap.find_assign_ne _ _ _ _ (Ne.symm hk)]
                · exact h5 (StdMap.find_ne_none_assign _ _ _ _ (by rw [hfa]; simp))
          · rw [if_neg hu] at h
            obtain ⟨h1, h2, h3, h4, h5⟩ := ih kvc upd _ kvc' upd' calls' hnd.2 hupdr h
            refine ⟨fun e he => hext e he h1, fun k => ?_, ?_, h4, h5⟩
            · rw [h2 k, hfind k]
            · rw [h3, List.flatMap_cons, hcalls, List.append_assoc]

/-- The state and the requests a completed reconciler pass leaves, on a
store without repeated keys and a response that lists every server once. -/
theorem QueryShardmaster_spec (s s' : ShardkvServer) (config : List (String × List shard))
    (calls : List PeerCall) (hkv : (s.kv_store.map Prod.fst).Nodup)
    (hcfg : (config.map Prod.fst).Nodup)
    (h : s.QueryShardmaster (some config) = some (s', calls)) :
    s'.address = s.address ∧ s'.deleted = s.deleted ∧
    s'.server_shard_map = configMap config [] ∧
    StdMap.find config s.address = some s'.local_shard ∧
    (∀ e ∈ s.kv_store, e.1 ≠ "all_users" → extractID e.1 ≠ none) ∧
    StdMap.find s.kv_store "all_users" ≠ none ∧
    StdMap.find s'.kv_store "all_users" ≠ none ∧
    (∀ k, k ≠ "all_users" →
      StdMap.find s'.kv_store k =
        if idInShards k s'.local_shard = true then StdMap.find s.kv_store k else none) ∧
    calls = s.kv_store.flatMap (migrationCalls s'.local_shard s'.server_shard_map) := by
  simp only [ShardkvServer.QueryShardmaster] at h
  have hmap : ∀ k, StdMap.find (configMap config []) k = StdMap.find config k := by
    intro k
    rw [find_configMap config [] k hcfg (fun e _ => rfl)]
    rfl
  cases hl : StdMap.find (configMap config []) s.address with
  | none => simp [hl] at h
  | some loc =>
    simp only [hl] at h
    cases hr : reconcileLoop loc (configMap config []) s.kv_store (s.kv_store, [], []) with
    | none => simp [hr] at h
    | some r =>
      obtain ⟨kvc', upd', calls'⟩ := r
      simp only [hr] at h
      cases hfa : StdMap.find kvc' "all_users" with
      | none => simp [hfa] at h
      | some au =>
        simp only [hfa, Option.some.injEq, Prod.mk.injEq] at h
        obtain ⟨rfl, rfl⟩ := h
        obtain ⟨h1, h2, h3, h4, h5⟩ := reconcileLoop_spec loc (configMap config []) s.kv_store
          s.kv_store [] [] kvc' upd' calls' hkv (fun e _ => rfl) hr
        have hupd : StdMap.find upd' "all_users" = none := by
          rw [h2]
          simp [StdMap.find]
        refine ⟨rfl, rfl, rfl, ?_, h1, ?_, ?_, fun k hk => ?_, ?_⟩
        · rw [← hmap]
          exact hl
        · intro hn
          -- the record `all_users` is only rewritten, never created
          have : ∀ (entries kvc upd : List (String × String)) (c : List PeerCall)
              (r : List (String × String) × List (String × String) × List PeerCall),
              reconcileLoop loc (configMap config []) entries (kvc, upd, c) = some r →
              StdMap.find kvc "all_users" = none → StdMap.find r.1 "all_users" = none := by
            intro entries
            induction entries with
            | nil =>
              intro kvc upd c r hr0 hk
              simp only [reconcileLoop, Option.some.injEq] at hr0
              subst hr0
              exact hk
            | cons e rest ih =>
              intro kvc upd c r hr0 hk
              simp only [reconcileLoop] at hr0
              by_cases hau : e.1 = "all_users"
              · rw [if_pos hau] at hr0
                exact ih _ _ _ _ hr0 hk
              · rw [if_neg hau] at hr0
                cases hid : extractID e.1 with
                | none => simp [hid] at hr0
                | some id =>
                  simp only [hid] at hr0
                  by_cases hloc : CheckInShard id loc = false
                  · simp only [hloc, if_true] at hr0
                    by_cases hu : (parse_value e.1 "_").length = 2 ∧
                        (parse_value e.1 "_")[0]? = some "user"
                    · rw [if_pos hu] at hr0
                      simp [hk] at hr0
                    · rw [if_neg hu] at hr0
                      exact ih _ _ _ _ hr0 hk
                  · rw [if_neg hloc] at hr0
                    exact ih _ _ _ _ hr0 hk
          have := this _ _ _ _ _ hr hn
          rw [hfa] at this
          exact absurd this (by simp)
        · show StdMap.find (StdMap.insert upd' "all_users" au) "all_users" ≠ none
          rw [StdMap.find_insert_self _ _ _ hupd]
          simp
        · show StdMap.find (StdMap.insert upd' "all_users" au) k = _
          rw [StdMap.find_insert_ne _ _ _ _ (Ne.symm hk), h2 k]
          simp [StdMap.find, hk]
        · rw [h3]
          rfl

/-! ## Lemmas on the requests of the reconciler -/

theorem StdMap.insert_perm {β : Type} (m : List (String × β)) (k : String) (v : β)
    (h : StdMap.find m k = none) : (StdMap.insert m k v).Perm ((k, v) :: m) := by
  induction m with
  | nil => exact List.Perm.refl _
  | cons q rest ih =>
    obtain ⟨k', v'⟩ := q
    simp only [StdMap.insert]
    by_cases h1 : ltChars k.data k'.data = true
    · rw [if_pos h1]
    · rw [if_neg h1]
      simp only [StdMap.find] at h
      by_cases h2 : k' = k
      · rw [if_pos h2] at h
        exact absurd h (by simp)
      · rw [if_neg h2] at h
        rw [if_neg h2]
        exact ((ih h).cons (k', v')).trans (List.Perm.swap _ _ _)

theorem configMap_perm :
    ∀ (config m : List (String × List shard)),
      (config.map Prod.fst).Nodup → (∀ e ∈ config, StdMap.find m e.1 = none) →
      (configMap config m).Perm (config ++ m) := by
  intro config
  induction config with
  | nil =>
    intro m _ _
    exact List.Perm.refl _
  | cons e rest ih =>
    intro m hnd hm
    obtain ⟨k0, v0⟩ := e
    simp only [List.map_cons, List.nodup_cons] at hnd
    have hm0 : StdMap.find m k0 = none := hm (k0, v0) (List.mem_cons_self _ _)
    have hrest : ∀ e ∈ rest, StdMap.find (StdMap.insert m k0 v0) e.1 = none := by
      intro e he
      have hne : k0 ≠ e.1 := by
        rintro rfl
        exact hnd.1 (List.mem_map_of_mem _ he)
      rw [StdMap.find_insert_ne _ _ _ _ hne]
      exact hm e (List.mem_cons_of_mem _ he)
    simp only [configMap]
    refine (ih _ hnd.2 hrest).trans ?_
    refine ((StdMap.insert_perm m k0 v0 hm0).append_left rest).trans ?_
    exact List.perm_middle

theorem StdMap.find_of_mem {β : Type} :
    ∀ (m : List (String × β)) (k : String) (v : β),
      (m.map Prod.fst).Nodup → (k, v) ∈ m → StdMap.find m k = some v := by
  intro m
  induction m with
  | nil => intro k v _ h; simp at h
  | cons q rest ih =>
    intro k v hnd h
    obtain ⟨k', v'⟩ := q
    simp only [List.map_cons, List.nodup_cons] at hnd
    simp only [StdMap.find]
    rcases List.mem_cons.1 h with h | h
    · simp only [Prod.mk.injEq] at h
      rw [if_pos h.1.symm, h.2]
    · have hne : k' ≠ k := by
        rintro rfl
        exact hnd.1 (List.mem_map_of_mem Prod.fst h)
      rw [if_neg hne]
      exact ih k v hnd.2 h

theorem StdMap.mem_of_find {β : Type} :
    ∀ (m : List (String × β)) (k : String) (v : β), StdMap.find m k = some v → (k, v) ∈ m := by
  intro m
  induction m with
  | nil => intro k v h; simp [StdMap.find] at h
  | cons q rest ih =>
    intro k v h
    obtain ⟨k', v'⟩ := q
    simp only [StdMap.find] at h
    by_cases hk : k' = k
    · rw [if_pos hk] at h
      simp only [Option.some.injEq] at h
      rw [hk, h]
      exact List.mem_cons_self _ _
    · rw [if_neg hk] at h
      exact List.mem_cons_of_mem _ (ih k v h)

theorem CheckInShard_iff (id : Int) (shards : List shard) :
    CheckInShard id shards = true ↔
      ∃ sh ∈ shards, sh.contains (id % (UINT_MOD : Int)).toNat := by
  simp [CheckInShard, shard.contains]

theorem filter_unique {α : Type} (p : α → Bool) :
    ∀ (l : List α), l.Pairwise (fun a b => ¬ (p a = true ∧ p b = true)) →
      ∀ a ∈ l, p a = true → l.filter p = [a] := by
  intro l
  induction l with
  | nil => intro _ a ha; simp at ha
  | cons x rest ih =>
    intro hp a ha hpa
    obtain ⟨hx, hrest⟩ := List.pairwise_cons.1 hp
    rcases List.mem_cons.1 ha with rfl | ha'
    · have : rest.filter p = [] := by
        rw [List.filter_eq_nil_iff]
        intro b hb hpb
        exact hx b hb ⟨hpa, hpb⟩
      rw [List.filter_cons_of_pos hpa, this]
    · have hpx : ¬ p x = true := fun hpx => hx a ha' ⟨hpx, hpa⟩
      rw [List.filter_cons_of_neg hpx]
      exact ih hrest a ha' hpa

/-- In a map whose intervals are pairwise disjoint and cover
`[MIN_KEY, MAX_KEY]`, exactly one entry holds an id of that range. -/
theorem unique_owner (map : List (String × List shard)) (id : Int)
    (hd : PairwiseDisjoint (map.flatMap Prod.snd))
    (hcov : Covers (map.flatMap Prod.snd) MIN_KEY MAX_KEY)
    (h1 : (MIN_KEY : Int) ≤ id) (h2 : id ≤ (MAX_KEY : Int)) :
    ∃ e ∈ map, CheckInShard id e.2 = true ∧
      map.filter (fun server => CheckInShard id server.2) = [e] := by
  have hn : MIN_KEY ≤ (id % (UINT_MOD : Int)).toNat ∧
      (id % (UINT_MOD : Int)).toNat ≤ MAX_KEY := by
    simp only [MIN_KEY, MAX_KEY, UINT_MOD] at h1 h2 ⊢
    omega
  obtain ⟨sh, hsh, hc⟩ := (hcov _).2 hn
  obtain ⟨e, he, hshe⟩ := List.mem_flatMap.1 hsh
  have hpe : CheckInShard id e.2 = true := (CheckInShard_iff id e.2).2 ⟨sh, hshe, hc⟩
  refine ⟨e, he, hpe, filter_unique _ map ?_ e he hpe⟩
  have hpw := (List.pairwise_flatMap.1 hd).2
  refine hpw.imp ?_
  intro a b hab ⟨ha, hb⟩
  obtain ⟨x, hx, hxc⟩ := (CheckInShard_iff id a.2).1 ha
  obtain ⟨y, hy, hyc⟩ := (CheckInShard_iff id b.2).1 hb
  have := hab x hx y hy
  simp only [shard.disjoint, shard.contains] at this hxc hyc
  omega

theorem migrationCalls_key (loc : List shard) (map : List (String × List shard))
    (e : String × String) : ∀ c ∈ migrationCalls loc map e, c.key = e.1 := by
  intro c hc
  unfold migrationCalls at hc
  by_cases hau : e.1 = "all_users"
  · simp [hau] at hc
  · rw [if_neg hau] at hc
    cases hid : extractID e.1 with
    | none => simp [hid] at hc
    | some id =>
      simp only [hid] at hc
      by_cases hl : CheckInShard id loc = false
      · rw [if_pos hl] at hc
        obtain ⟨srv, -, rfl⟩ := List.mem_map.1 hc
        rfl
      · rw [if_neg hl] at hc
        simp at hc

/-- Among the requests of a pass over a store without repeated keys, those
that carry the key `k` are the requests sent for the record of `k`. -/
theorem calls_of_key (loc : List shard) (map : List (String × List shard)) (k : String) :
    ∀ (kv : List (String × String)), (kv.map Prod.fst).Nodup →
      (kv.flatMap (migrationCalls loc map)).filter (fun c => decide (c.key = k)) =
        match StdMap.find kv k with
        | none => []
        | some v => migrationCalls loc map (k, v) := by
  intro kv
  induction kv with
  | nil => intro _; rfl
  | cons e rest ih =>
    intro hnd
    obtain ⟨k0, v0⟩ := e
    simp only [List.map_cons, List.nodup_cons] at hnd
    rw [List.flatMap_cons, List.filter_append, ih hnd.2]
    simp only [StdMap.find]
    by_cases hk : k0 = k
    · subst hk
      have hnone : StdMap.find rest k0 = none := by
        by_contra hne
        exact hnd.1 ((StdMap.mem_keys_iff rest k0).2 hne)
      rw [if_pos rfl, hnone]
      have : (migrationCalls loc map (k0, v0)).filter (fun c => decide (c.key = k0)) =
          migrationCalls loc map (k0, v0) := by
        rw [List.filter_eq_self]
        intro c hc
        simpa using migrationCalls_key loc map (k0, v0) c hc
      rw [this]
      simp
    · rw [if_neg hk]
      have : (migrationCalls loc map (k0, v0)).filter (fun c => decide (c.key = k)) = [] := by
        rw [List.filter_eq_nil_iff]
        intro c hc
        have := migrationCalls_key loc map (k0, v0) c hc
        simp only at this
        simp [this, hk]
      rw [this]
      rfl

/-! ## Lemmas on `all_users` -/

theorem isUserKey_userKey (ds : List Char) (h : Decimal ds) : isUserKey (userKey ds) = true := by
  have hd : (userKey ds).data = 'u' :: 's' :: 'e' :: 'r' :: '_' :: ds := by
    simp [userKey]
  unfold isUserKey
  rw [hd]
  have h1 : ds.isEmpty = false := by
    cases ds with
    | nil => exact absurd rfl h.1
    | cons a as => rfl
  simp only [h1, Bool.not_false, Bool.true_and, List.all_eq_true]
  exact h.2

theorem isUserKey_iff (k : String) :
    isUserKey k = true ↔ ∃ ds, Decimal ds ∧ k = userKey ds := by
  constructor
  · intro h
    unfold isUserKey at h
    split at h
    · rename_i ds hk
      simp only [Bool.and_eq_true, Bool.not_eq_true', List.all_eq_true] at h
      refine ⟨ds, ⟨?_, h.2⟩, ?_⟩
      · intro hnil
        rw [hnil] at h
        simp at h
      · apply String.ext
        rw [hk]
        simp [userKey]
    · exact absurd h (by simp)
  · rintro ⟨ds, hds, rfl⟩
    exact isUserKey_userKey ds hds

theorem isUserKey_postKey (ds : List Char) : isUserKey (postKey ds) = false := by
  have hd : (postKey ds).data = 'p' :: 'o' :: 's' :: 't' :: '_' :: ds := by
    simp [postKey]
  unfold isUserKey
  rw [hd]
  rfl

theorem isUserKey_all_users : isUserKey "all_users" = false := by decide

theorem isUserKey_append_posts (user : String) : isUserKey (user ++ "_posts") = false := by
  by_contra h
  obtain ⟨ds, hds, hk⟩ := (isUserKey_iff _).1 (by simpa using h)
  exact userKey_ne_append_posts ds hds user hk

/-- The characters of a key `user_<id>` are neither a comma nor NUL. -/
theorem isUserKey_chars (k : String) (h : isUserKey k = true) :
    k.data ≠ [] ∧ ∀ c ∈ k.data, c ≠ ',' ∧ c ≠ Char.ofNat 0 := by
  obtain ⟨ds, hds, rfl⟩ := (isUserKey_iff k).1 h
  have hd : (userKey ds).data = 'u' :: 's' :: 'e' :: 'r' :: '_' :: ds := by
    simp [userKey]
  rw [hd]
  refine ⟨by simp, ?_⟩
  intro c hc
  simp only [List.mem_cons] at hc
  rcases hc with rfl | rfl | rfl | rfl | rfl | hc
  · decide
  · decide
  · decide
  · decide
  · decide
  · have := hds.2 c hc
    constructor
    · rintro rfl
      exact absurd this (by decide)
    · exact isDigit_ne_nul c this

theorem joinCommas_foldl (l : List String) (acc : String) :
    l.foldl (fun new_all_users c => new_all_users ++ c ++ ",") acc = acc ++ joinCommas l := by
  induction l generalizing acc with
  | nil => simp [joinCommas]
  | cons a rest ih =>
    simp only [joinCommas, List.foldl_cons]
    rw [ih, ih ("" ++ a ++ ",")]
    simp [String.append_assoc]

theorem joinCommas_cons (a : String) (l : List String) :
    joinCommas (a :: l) = a ++ "," ++ joinCommas l := by
  simp only [joinCommas, List.foldl_cons]
  rw [joinCommas_foldl]
  simp
  rfl

theorem joinCommas_append_singleton (l : List String) (a : String) :
    joinCommas (l ++ [a]) = joinCommas l ++ a ++ "," := by
  simp [joinCommas, List.foldl_append]

theorem c_str_comma : c_str "," = [','] := by decide

/-- The tokens of a comma-terminated list of keys `user_<id>` are the
keys. -/
theorem parse_value_joinCommas (l : List String) (h : ∀ k ∈ l, isUserKey k = true) :
    parse_value (joinCommas l) "," = l := by
  have hdata : ∀ l : List String, (joinCommas l).data = l.flatMap (fun k => k.data ++ [',']) := by
    intro l
    induction l with
    | nil => rfl
    | cons a rest ih =>
      rw [joinCommas_cons]
      simp [String.data_append, ih]
  have hnul : ∀ l : List String, (∀ k ∈ l, isUserKey k = true) →
      ∀ c ∈ l.flatMap (fun k => k.data ++ [',']), c ≠ Char.ofNat 0 := by
    intro l hl c hc
    obtain ⟨k, hk, hck⟩ := List.mem_flatMap.1 hc
    rcases List.mem_append.1 hck with hck | hck
    · exact ((isUserKey_chars k (hl k hk)).2 c hck).2
    · rw [List.mem_singleton] at hck
      rw [hck]
      decide
  have hc : c_str (joinCommas l) = l.flatMap (fun k => k.data ++ [',']) := by
    unfold c_str
    rw [hdata, List.takeWhile_eq_self_iff]
    intro c hc
    simpa using hnul l h c hc
  have htok : ∀ l : List String, (∀ k ∈ l, isUserKey k = true) →
      strtok [','] (l.flatMap (fun k => k.data ++ [','])) [] = l.map String.data := by
    intro l
    induction l with
    | nil => intro _; rfl
    | cons a rest ih =>
      intro hl
      have ha := isUserKey_chars a (hl a (List.mem_cons_self _ _))
      have hnc : ∀ c ∈ a.data, c ∉ [','] := fun c hc => by
        simpa using (ha.2 c hc).1
      rw [List.flatMap_cons, List.append_assoc, List.singleton_append,
        strtok_append_delim [','] a.data _ [] ',' hnc (by simp),
        ih (fun k hk => hl k (List.mem_cons_of_mem _ hk))]
      simp [ha.1]
  unfold parse_value
  rw [hc, c_str_comma, htok l h, List.map_map]
  have : (String.mk ∘ String.data) = id := by
    funext s
    rfl
  rw [this, List.map_id]

theorem ListsUsers_iff (kv : List (String × String)) (l : List String) :
    ListsUsers kv l ↔
      StdMap.find kv "all_users" = some (joinCommas l) ∧ l.Nodup ∧
        ∀ k, k ∈ l ↔ (isUserKey k = true ∧ StdMap.find kv k ≠ none) := by
  unfold ListsUsers
  constructor
  · rintro ⟨h1, h2, h3, h4⟩
    refine ⟨h1, h2, fun k => ⟨h3 k, fun hk => ?_⟩⟩
    obtain ⟨v, hv⟩ : ∃ v, StdMap.find kv k = some v := by
      cases hf : StdMap.find kv k with
      | none => exact absurd hf hk.2
      | some v => exact ⟨v, rfl⟩
    exact h4 (k, v) (StdMap.mem_of_find kv k v hv) hk.1
  · rintro ⟨h1, h2, h3⟩
    refine ⟨h1, h2, fun k hk => (h3 k).1 hk, fun e he hu => (h3 e.1).2 ⟨hu, ?_⟩⟩
    exact (StdMap.mem_keys_iff kv e.1).1 (List.mem_map_of_mem Prod.fst he)

theorem StdMap.stored_insert {β : Type} (m : List (String × β)) (k k' : String) (v : β) :
    StdMap.find (StdMap.insert m k v) k' ≠ none ↔ (StdMap.find m k' ≠ none ∨ k' = k) := by
  by_cases hk : k = k'
  · subst hk
    constructor
    · intro _
      exact Or.inr rfl
    · intro _
      cases hf : StdMap.find m k with
      | none =>
        rw [StdMap.find_insert_self _ _ _ hf]
        simp
      | some w => exact StdMap.find_ne_none_insert m k k v (by rw [hf]; simp)
  · rw [StdMap.find_insert_ne _ _ _ _ hk]
    constructor
    · exact Or.inl
    · rintro (h | h)
      · exact h
      · exact absurd h.symm hk

theorem StdMap.stored_assign {β : Type} (m : List (String × β)) (k k' : String) (v : β) :
    StdMap.find (StdMap.assign m k v) k' ≠ none ↔ StdMap.find m k' ≠ none := by
  by_cases hk : k = k'
  · subst hk
    cases hf : StdMap.find m k with
    | none =>
      have : StdMap.assign m k v = m :=
        StdMap.assign_eq_self m k v
          (fun p hp hpk => absurd hpk (StdMap.not_mem_of_find_none m k hf p hp))
      rw [this, hf]
    | some w =>
      rw [StdMap.find_assign_self _ _ _ _ hf]
      simp
  · rw [StdMap.find_assign_ne _ _ _ _ hk]

theorem StdMap.stored_erase {β : Type} (m : List (String × β)) (k k' : String) :
    StdMap.find (StdMap.erase m k) k' ≠ none ↔ (StdMap.find m k' ≠ none ∧ k' ≠ k) := by
  by_cases hk : k = k'
  · subst hk
    rw [StdMap.find_erase_self]
    simp
  · rw [StdMap.find_erase_ne _ _ _ hk]
    constructor
    · exact fun h => ⟨h, fun h' => hk h'.symm⟩
    · exact fun h => h.1

/-- A store whose `all_users` record and stored keys `user_<id>` are those
of another lists the same users. -/
theorem listsUsers_same (kv kv' : List (String × String)) (l : List String)
    (h : ListsUsers kv l)
    (hau : StdMap.find kv' "all_users" = StdMap.find kv "all_users")
    (hst : ∀ k, isUserKey k = true → (StdMap.find kv' k ≠ none ↔ StdMap.find kv k ≠ none)) :
    ListsUsers kv' l := by
  rw [ListsUsers_iff] at h ⊢
  obtain ⟨h1, h2, h3⟩ := h
  refine ⟨hau.trans h1, h2, fun k => ?_⟩
  rw [h3 k]
  constructor
  · exact fun hk => ⟨hk.1, (hst k hk.1).2 hk.2⟩
  · exact fun hk => ⟨hk.1, (hst k hk.1).1 hk.2⟩

/-- A store that has one more key `user_<id>` stored, appended to
`all_users`, lists the users followed by this key. -/
theorem listsUsers_append (kv kv' : List (String × String)) (l : List String) (u : String)
    (h : ListsUsers kv l) (hu : isUserKey u = true) (hnew : StdMap.find kv u = none)
    (hau : StdMap.find kv' "all_users" = some (joinCommas l ++ u ++ ","))
    (hst : ∀ k, isUserKey k = true →
      (StdMap.find kv' k ≠ none ↔ (StdMap.find kv k ≠ none ∨ k = u))) :
    ListsUsers kv' (l ++ [u]) := by
  rw [ListsUsers_iff] at h ⊢
  obtain ⟨h1, h2, h3⟩ := h
  have hnl : u ∉ l := fun hul => ((h3 u).1 hul).2 hnew
  refine ⟨?_, ?_, fun k => ?_⟩
  · rw [hau, joinCommas_append_singleton]
  · exact List.Nodup.append h2 (List.nodup_singleton u) (by simpa using hnl)
  · rw [List.mem_append, List.mem_singleton, h3 k]
    constructor
    · rintro (hk | rfl)
      · exact ⟨hk.1, (hst k hk.1).2 (Or.inl hk.2)⟩
      · exact ⟨hu, (hst k hu).2 (Or.inr rfl)⟩
    · rintro ⟨hk1, hk2⟩
      rcases (hst k hk1).1 hk2 with hk | hk
      · exact Or.inl ⟨hk1, hk⟩
      · exact Or.inr hk

/-- A store from which one key `user_<id>` is gone, erased from
`all_users`, lists the other users in their order. -/
theorem listsUsers_erase (kv kv' : List (String × String)) (l : List String) (u : String)
    (h : ListsUsers kv l)
    (hau : StdMap.find kv' "all_users" = some (joinCommas (l.erase u)))
    (hst : ∀ k, isUserKey k = true →
      (StdMap.find kv' k ≠ none ↔ (StdMap.find kv k ≠ none ∧ k ≠ u))) :
    ListsUsers kv' (l.erase u) := by
  rw [ListsUsers_iff] at h ⊢
  obtain ⟨h1, h2, h3⟩ := h
  refine ⟨hau, h2.erase u, fun k => ?_⟩
  rw [h2.mem_erase_iff, h3 k]
  constructor
  · rintro ⟨hne, hk1, hk2⟩
    exact ⟨hk1, (hst k hk1).2 ⟨hk2, hne⟩⟩
  · rintro ⟨hk1, hk2⟩
    have := (hst k hk1).1 hk2
    exact ⟨this.2, hk1, this.1⟩

theorem SameUsers.refl (kv : List (String × String)) : SameUsers kv kv :=
  ⟨rfl, fun _ _ => Iff.rfl⟩

theorem SameUsers.trans {kv kv1 kv2 : List (String × String)} (h1 : SameUsers kv kv1)
    (h2 : SameUsers kv1 kv2) : SameUsers kv kv2 :=
  ⟨h2.1.trans h1.1, fun k hk => (h2.2 k hk).trans (h1.2 k hk)⟩

theorem listsUsers_of_same (kv kv' : List (String × String)) (l : List String)
    (h : ListsUsers kv l) (hs : SameUsers kv kv') : ListsUsers kv' l :=
  listsUsers_same kv kv' l h hs.1 hs.2

theorem sameUsers_insert (kv : List (String × String)) (key data : String)
    (hk : isUserKey key = false) (hau : key ≠ "all_users") :
    SameUsers kv (StdMap.insert kv key data) := by
  refine ⟨StdMap.find_insert_ne _ _ _ _ hau, fun k hu => ?_⟩
  rw [StdMap.stored_insert]
  constructor
  · rintro (h | h)
    · exact h
    · rw [h, hk] at hu
      exact absurd hu (by simp)
  · exact Or.inl

theorem sameUsers_assign (kv : List (String × String)) (key data : String)
    (hau : key ≠ "all_users") : SameUsers kv (StdMap.assign kv key data) :=
  ⟨StdMap.find_assign_ne _ _ _ _ hau, fun k _ => StdMap.stored_assign kv key k data⟩

theorem sameUsers_upsert (kv : List (String × String)) (key data : String)
    (hk : isUserKey key = false) (hau : key ≠ "all_users") :
    SameUsers kv (upsert kv key data) := by
  unfold upsert
  cases StdMap.find kv key with
  | none => exact sameUsers_insert kv key data hk hau
  | some w => exact sameUsers_assign kv key data hau

theorem sameUsers_erase (kv : List (String × String)) (key : String)
    (hk : isUserKey key = false) (hau : key ≠ "all_users") :
    SameUsers kv (StdMap.erase kv key) := by
  refine ⟨StdMap.find_erase_ne _ _ _ hau, fun k hu => ?_⟩
  rw [StdMap.stored_erase]
  constructor
  · exact fun h => h.1
  · refine fun h => ⟨h, ?_⟩
    rintro rfl
    rw [hk] at hu
    exact absurd hu (by simp)

/-- The creation of a user by `Put` and `Append`: the record is inserted and
the key appended to `all_users`. -/
theorem listsUsers_create (kv kv' : List (String × String)) (l : List String) (u data : String)
    (h : ListsUsers kv l) (hu : isUserKey u = true) (hnew : StdMap.find kv u = none)
    (ha : appendAllUsers (StdMap.insert kv u data) u = some kv') :
    ListsUsers kv' (l ++ [u]) := by
  have hne : u ≠ "all_users" := by
    rintro rfl
    rw [isUserKey_all_users] at hu
    exact absurd hu (by simp)
  have hau : StdMap.find (StdMap.insert kv u data) "all_users" = some (joinCommas l) := by
    rw [StdMap.find_insert_ne _ _ _ _ hne]
    exact h.1
  simp only [appendAllUsers, hau, Option.some.injEq] at ha
  subst ha
  refine listsUsers_append kv _ l u h hu hnew (StdMap.find_assign_self _ _ _ _ hau) ?_
  intro k _
  rw [StdMap.stored_assign, StdMap.stored_insert]

theorem append_posts_ne_all_users (user : String) (h : isUserKey user = true) :
    user ++ "_posts" ≠ "all_users" := by
  obtain ⟨ds, -, rfl⟩ := (isUserKey_iff user).1 h
  exact userPostsKey_ne_all_users ds

/-- The last step of the post branch of `Put` leaves the users as they
are. -/
theorem Put_tail_users (s s' : ShardkvServer) (kv2 : List (String × String))
    (key user : String) (st : Status) (calls : List PeerCall) (hu : isUserKey user = true)
    (h :
      (match StdMap.find kv2 (user ++ "_posts") with
        | none =>
          some (Status.OK,
            ({ s with kv_store := StdMap.insert kv2 (user ++ "_posts") (key ++ ",") } :
              ShardkvServer), ([] : List PeerCall))
        | some v =>
          some (Status.OK,
            ({ s with kv_store :=
                StdMap.assign kv2 (user ++ "_posts") (v ++ key ++ ",") } :
              ShardkvServer), ([] : List PeerCall))) = some (st, s', calls)) :
    SameUsers kv2 s'.kv_store := by
  cases hfp : StdMap.find kv2 (user ++ "_posts") with
  | none =>
    simp only [hfp, Option.some.injEq, Prod.mk.injEq] at h
    rw [← h.2.1]
    exact sameUsers_insert _ _ _ (isUserKey_append_posts user) (append_posts_ne_all_users user hu)
  | some v =>
    simp only [hfp, Option.some.injEq, Prod.mk.injEq] at h
    rw [← h.2.1]
    exact sameUsers_assign _ _ _ (append_posts_ne_all_users user hu)

/-- Handler `Put` on a key of the schema keeps `all_users` in step with the
stored users: it creates at most one user, which it appends. -/
theorem Put_listsUsers (s s' : ShardkvServer) (ds : List Char) (key data user : String)
    (st : Status) (calls : List PeerCall) (l : List String) (hds : Decimal ds)
    (hkey : key = userKey ds ∨ key = userPostsKey ds ∨ key = postKey ds)
    (huser : user = "" ∨ isUserKey user = true) (hl : ListsUsers s.kv_store l)
    (h : s.Put key data user = some (st, s', calls)) :
    ListsUsers s'.kv_store l ∨
      ∃ u, isUserKey u = true ∧ StdMap.find s.kv_store u = none ∧
        ListsUsers s'.kv_store (l ++ [u]) := by
  have hne : key ≠ "" := by
    rcases hkey with rfl | rfl | rfl
    · exact userKey_ne_empty ds
    · exact userPostsKey_ne_empty ds
    · exact postKey_ne_empty ds
  have hau : key ≠ "all_users" := by
    rcases hkey with rfl | rfl | rfl
    · exact userKey_ne_all_users ds
    · exact userPostsKey_ne_all_users ds
    · exact postKey_ne_all_users ds
  cases hid : extractID key with
  | none => simp [ShardkvServer.Put, hne, hau, hid] at h
  | some uid =>
    by_cases hloc : CheckInShard uid s.local_shard = true
    swap
    · simp only [ShardkvServer.Put, hne, hau, if_false, hid] at h
      rw [if_pos (by simpa using hloc)] at h
      simp only [Option.some.injEq, Prod.mk.injEq] at h
      rw [← h.2.1]
      exact Or.inl hl
    rcases hkey with rfl | rfl | rfl
    · -- a user
      have h1 : ∀ u : String, ¬ ((parse_value (userKey ds) "_")[0]? = some "post" ∧
          (parse_value (userKey ds) "_").length = 2 ∧ u = "") := by
        intro u hc
        rw [parse_value_userKey ds hds] at hc
        exact absurd hc.1 (by simp)
      have h2 : ∀ u : String, ¬ ((parse_value (userKey ds) "_").length = 3 ∧
          ((parse_value (userKey ds) "_")[0]? = some "user" ∧
            (parse_value (userKey ds) "_")[2]? = some "posts") ∧ u = "") := by
        intro u hc
        rw [parse_value_userKey ds hds] at hc
        exact absurd hc.1 (by simp)
      have h3 : (parse_value (userKey ds) "_")[0]? = some "user" ∧
          (parse_value (userKey ds) "_").length = 2 := by
        rw [parse_value_userKey ds hds]
        exact ⟨rfl, rfl⟩
      simp only [ShardkvServer.Put, hne, hau, if_false, hid, hloc, Bool.true_eq_false,
        if_neg (h1 user), if_neg (h2 user), if_pos h3] at h
      cases hf : StdMap.find s.kv_store (userKey ds) with
      | some w =>
        simp only [hf, Option.some.injEq, Prod.mk.injEq] at h
        rw [← h.2.1]
        exact Or.inl (listsUsers_of_same _ _ l hl (sameUsers_assign _ _ _ hau))
      | none =>
        simp only [hf] at h
        cases ha : appendAllUsers (StdMap.insert s.kv_store (userKey ds) data) (userKey ds) with
        | none => simp [ha] at h
        | some kv =>
          simp only [ha, Option.some.injEq, Prod.mk.injEq] at h
          rw [← h.2.1]
          exact Or.inr ⟨userKey ds, isUserKey_userKey ds hds, hf,
            listsUsers_create _ _ l _ data hl (isUserKey_userKey ds hds) hf ha⟩
    · -- the posts of a user
      have hk : isUserKey (userPostsKey ds) = false := isUserKey_append_posts (userKey ds)
      by_cases hu : user = ""
      · have h1 : ¬ ((parse_value (userPostsKey ds) "_")[0]? = some "post" ∧
            (parse_value (userPostsKey ds) "_").length = 2 ∧ user = "") := by
          intro hc
          rw [parse_value_userPostsKey ds hds] at hc
          exact absurd hc.1 (by simp)
        have h2 : (parse_value (userPostsKey ds) "_").length = 3 ∧
            ((parse_value (userPostsKey ds) "_")[0]? = some "user" ∧
              (parse_value (userPostsKey ds) "_")[2]? = some "posts") ∧ user = "" := by
          rw [parse_value_userPostsKey ds hds]
          exact ⟨rfl, ⟨rfl, rfl⟩, hu⟩
        simp only [ShardkvServer.Put, hne, hau, if_false, hid, hloc, Bool.true_eq_false,
          if_neg h1, if_pos h2, Option.some.injEq, Prod.mk.injEq] at h
        rw [← h.2.1]
        exact Or.inl (listsUsers_of_same _ _ l hl (sameUsers_upsert _ _ _ hk hau))
      · rw [put_userPosts_with_user s ds uid data user hds hid hloc hu] at h
        simp only [Option.some.injEq, Prod.mk.injEq] at h
        rw [← h.2.1]
        exact Or.inl hl
    · -- a post
      have hk : isUserKey (postKey ds) = false := isUserKey_postKey ds
      have hpp : (parse_value (postKey ds) "_")[0]? = some "post" ∧
          (parse_value (postKey ds) "_").length = 2 := by
        rw [parse_value_postKey ds hds]
        exact ⟨rfl, rfl⟩
      by_cases hu : user = ""
      · have h1 : (parse_value (postKey ds) "_")[0]? = some "post" ∧
            (parse_value (postKey ds) "_").length = 2 ∧ user = "" := ⟨hpp.1, hpp.2, hu⟩
        simp only [ShardkvServer.Put, hne, hau, if_false, hid, hloc, Bool.true_eq_false,
          if_pos h1, Option.some.injEq, Prod.mk.injEq] at h
        rw [← h.2.1]
        exact Or.inl (listsUsers_of_same _ _ l hl (sameUsers_upsert _ _ _ hk hau))
      · have huk : isUserKey user = true := huser.resolve_left hu
        rw [Put_post_user s (postKey ds) data user uid hne hau hid hloc hpp hu] at h
        cases hf : StdMap.find s.kv_store (postKey ds) with
        | some w =>
          simp only [hf, Option.some.injEq, Prod.mk.injEq] at h
          rw [← h.2.1]
          exact Or.inl (listsUsers_of_same _ _ l hl (sameUsers_assign _ _ _ hau))
        | none =>
          simp only [hf] at h
          have hs1 := sameUsers_insert s.kv_store (postKey ds) data hk hau
          cases hx : extractID user with
          | none => simp [hx] at h
          | some uuid =>
            simp only [hx] at h
            by_cases hul : CheckInShard uuid s.local_shard = true
            · simp only [hul, Bool.true_eq_false, if_false] at h
              cases hfu : StdMap.find (StdMap.insert s.kv_store (postKey ds) data) user with
              | some uv =>
                simp only [hfu] at h
                exact Or.inl (listsUsers_of_same _ _ l hl
                  (hs1.trans (Put_tail_users s s' _ (postKey ds) user st calls huk h)))
              | none =>
                simp only [hfu] at h
                cases ha : appendAllUsers
                    (StdMap.insert (StdMap.insert s.kv_store (postKey ds) data) user "")
                    user with
                | none => simp [ha] at h
                | some kv2 =>
                  simp only [ha] at h
                  have hl1 := listsUsers_of_same _ _ l hl hs1
                  have hl2 := listsUsers_create _ _ l user "" hl1 huk hfu ha
                  have hnew : StdMap.find s.kv_store user = none := by
                    by_contra hne'
                    exact ((hs1.2 user huk).2 hne') hfu
                  exact Or.inr ⟨user, huk, hnew, listsUsers_of_same _ _ _ hl2
                    (Put_tail_users s s' _ (postKey ds) user st calls huk h)⟩
            · simp only [hul, if_true, Option.some.injEq, Prod.mk.injEq] at h
              rw [← h.2.1]
              exact Or.inl (listsUsers_of_same _ _ l hl hs1)

/-- Handler `Append` on a key of the schema keeps `all_users` in step with
the stored users: it creates at most one user, which it appends. -/
theorem Append_listsUsers (s s' : ShardkvServer) (ds : List Char) (key data : String)
    (st : Status) (calls : List PeerCall) (l : List String) (hds : Decimal ds)
    (hkey : key = userKey ds ∨ key = userPostsKey ds ∨ key = postKey ds)
    (hl : ListsUsers s.kv_store l)
    (h : s.Append key data = some (st, s', calls)) :
    ListsUsers s'.kv_store l ∨
      ∃ u, isUserKey u = true ∧ StdMap.find s.kv_store u = none ∧
        ListsUsers s'.kv_store (l ++ [u]) := by
  have hne : key ≠ "" := by
    rcases hkey with rfl | rfl | rfl
    · exact userKey_ne_empty ds
    · exact userPostsKey_ne_empty ds
    · exact postKey_ne_empty ds
  have hau : key ≠ "all_users" := by
    rcases hkey with rfl | rfl | rfl
    · exact userKey_ne_all_users ds
    · exact userPostsKey_ne_all_users ds
    · exact postKey_ne_all_users ds
  cases hid : extractID key with
  | none => simp [ShardkvServer.Append, hne, hau, hid] at h
  | some id =>
    by_cases hloc : CheckInShard id s.local_shard = true
    swap
    · simp only [ShardkvServer.Append, hne, hau, if_false, hid] at h
      rw [if_pos (by simpa using hloc)] at h
      simp only [Option.some.injEq, Prod.mk.injEq] at h
      rw [← h.2.1]
      exact Or.inl hl
    cases hf : StdMap.find s.kv_store key with
    | some w =>
      rw [Append_stored s ds key data w id hds hkey hid hloc hf] at h
      simp only [Option.some.injEq, Prod.mk.injEq] at h
      rw [← h.2.1]
      exact Or.inl (listsUsers_of_same _ _ l hl (sameUsers_assign _ _ _ hau))
    | none =>
      rcases hkey with rfl | rfl | rfl
      · simp only [ShardkvServer.Append, hne, hau, if_false, hid, hloc, Bool.true_eq_false,
          parse_value_userKey ds hds, hf] at h
        simp only [List.length_cons, List.length_nil, List.getElem?_cons_zero,
          Option.some.injEq, String.reduceEq, and_false, and_true, if_false, if_true,
          Nat.reduceAdd, Nat.reduceEqDiff, false_and] at h
        cases ha : appendAllUsers (StdMap.insert s.kv_store (userKey ds) data) (userKey ds) with
        | none => simp [ha] at h
        | some kv =>
          simp only [ha, Option.some.injEq, Prod.mk.injEq] at h
          rw [← h.2.1]
          exact Or.inr ⟨userKey ds, isUserKey_userKey ds hds, hf,
            listsUsers_create _ _ l _ data hl (isUserKey_userKey ds hds) hf ha⟩
      · rw [Append_userPosts_absent s ds data id hds hid hloc hf] at h
        simp only [Option.some.injEq, Prod.mk.injEq] at h
        rw [← h.2.1]
        exact Or.inl (listsUsers_of_same _ _ l hl
          (sameUsers_insert _ _ _ (isUserKey_append_posts (userKey ds)) hau))
      · simp only [ShardkvServer.Append, hne, hau, if_false, hid, hloc, Bool.true_eq_false,
          parse_value_postKey ds hds, hf] at h
        simp only [List.length_cons, List.length_nil, List.getElem?_cons_zero,
          Option.some.injEq, String.reduceEq, and_false, and_true, if_false, if_true,
          Nat.reduceAdd, Nat.reduceEqDiff, false_and, Prod.mk.injEq] at h
        rw [← h.2.1]
        exact Or.inl hl

/-- The loop of `Delete` over the posts of the user erases the listed keys
it finds and nothing else. -/
theorem deletePosts_find (address : String) (map : List (String × List shard)) (key : String) :
    ∀ (posts : List String) (kv : List (String × String)) (d : List String)
      (c : List PeerCall) (kv2 : List (String × String)) (d2 : List String)
      (c2 : List PeerCall),
      deletePosts address map key posts (kv, d, c) = some (kv2, d2, c2) →
      ∀ k, (k ∈ posts → StdMap.find kv2 k = none) ∧
        (k ∉ posts → StdMap.find kv2 k = StdMap.find kv k) := by
  intro posts
  induction posts with
  | nil =>
    intro kv d c kv2 d2 c2 h k
    simp only [deletePosts, Option.some.injEq, Prod.mk.injEq] at h
    rw [← h.1]
    exact ⟨fun hk => absurd hk (by simp), fun _ => rfl⟩
  | cons post rest ih =>
    intro kv d c kv2 d2 c2 h k
    simp only [deletePosts] at h
    cases hf : StdMap.find kv post with
    | none =>
      simp only [hf] at h
      cases hx : extractID post with
      | none => simp [hx] at h
      | some pid =>
        simp only [hx] at h
        have := ih kv d _ kv2 d2 c2 h k
        refine ⟨fun hk => ?_, fun hk => this.2 (fun hr => hk (List.mem_cons_of_mem _ hr))⟩
        by_cases hr : k ∈ rest
        · exact this.1 hr
        · rw [this.2 hr]
          rcases List.mem_cons.1 hk with rfl | hk'
          · exact hf
          · exact absurd hk' hr
    | some w =>
      simp only [hf] at h
      have := ih (StdMap.erase kv post) _ c kv2 d2 c2 h k
      refine ⟨fun hk => ?_, fun hk => ?_⟩
      · by_cases hr : k ∈ rest
        · exact this.1 hr
        · rw [this.2 hr]
          rcases List.mem_cons.1 hk with rfl | hk'
          · exact StdMap.find_erase_self _ _
          · exact absurd hk' hr
      · have hne : post ≠ k := by
          rintro rfl
          exact hk (List.mem_cons_self _ _)
        rw [this.2 (fun hr => hk (List.mem_cons_of_mem _ hr)),
          StdMap.find_erase_ne _ _ _ hne]

/-- Handler `Delete` on a key of the schema keeps `all_users` in step with
the stored users, provided the posts record of a deleted user lists no key
of the form `user_<id>`: the deleted user is erased from the list. -/
theorem Delete_listsUsers (s s' : ShardkvServer) (ds : List Char) (key : String)
    (st : Status) (calls : List PeerCall) (l : List String) (hds : Decimal ds)
    (hkey : key = userKey ds ∨ key = userPostsKey ds ∨ key = postKey ds)
    (hl : ListsUsers s.kv_store l)
    (hposts : ∀ posts, StdMap.find s.kv_store (key ++ "_posts") = some posts →
      ∀ t ∈ parse_value posts ",", isUserKey t = false)
    (h : s.Delete key = some (st, s', calls)) :
    ListsUsers s'.kv_store l ∨
      (isUserKey key = true ∧ StdMap.find s.kv_store key ≠ none ∧
        ListsUsers s'.kv_store (l.erase key)) := by
  have hne : key ≠ "" := by
    rcases hkey with rfl | rfl | rfl
    · exact userKey_ne_empty ds
    · exact userPostsKey_ne_empty ds
    · exact postKey_ne_empty ds
  have hau : key ≠ "all_users" := by
    rcases hkey with rfl | rfl | rfl
    · exact userKey_ne_all_users ds
    · exact userPostsKey_ne_all_users ds
    · exact postKey_ne_all_users ds
  cases hid : extractID key with
  | none => simp [ShardkvServer.Delete, hne, hau, hid] at h
  | some id =>
    by_cases hloc : CheckInShard id s.local_shard = true
    swap
    · simp only [ShardkvServer.Delete, hne, hau, if_false, hid] at h
      rw [if_pos (by simpa using hloc)] at h
      simp only [Option.some.injEq, Prod.mk.injEq] at h
      rw [← h.2.1]
      exact Or.inl hl
    rcases hkey with rfl | rfl | rfl
    · -- a user
      have huk := isUserKey_userKey ds hds
      have h1 : ¬ ((parse_value (userKey ds) "_")[0]? = some "post" ∧
          (parse_value (userKey ds) "_").length = 2) := by
        intro hc
        rw [parse_value_userKey ds hds] at hc
        exact absurd hc.1 (by simp)
      have h2 : (parse_value (userKey ds) "_")[0]? = some "user" ∧
          (parse_value (userKey ds) "_").length = 2 := by
        rw [parse_value_userKey ds hds]
        exact ⟨rfl, rfl⟩
      simp only [ShardkvServer.Delete, hne, hau, if_false, hid, hloc, Bool.true_eq_false,
        if_neg h1, if_pos h2] at h
      cases hf : StdMap.find s.kv_store (userKey ds) with
      | none =>
        simp only [hf, Option.some.injEq, Prod.mk.injEq] at h
        rw [← h.2.1]
        exact Or.inl hl
      | some w =>
        simp only [hf] at h
        have hpk : userKey ds ≠ userKey ds ++ "_posts" :=
          Ne.symm (userKey_ne_append_posts ds hds _)
        have hfp : StdMap.find (StdMap.erase s.kv_store (userKey ds)) (userKey ds ++ "_posts")
            = StdMap.find s.kv_store (userKey ds ++ "_posts") :=
          StdMap.find_erase_ne _ _ _ hpk
        cases hp : StdMap.find s.kv_store (userKey ds ++ "_posts") with
        | none =>
          rw [hfp, hp] at h
          simp at h
        | some posts =>
          rw [hfp, hp] at h
          simp only at h
          cases hdp : deletePosts s.address s.server_shard_map (userKey ds)
              (parse_value posts ",") (StdMap.erase s.kv_store (userKey ds), s.deleted, []) with
          | none =>
            rw [hdp] at h
            simp at h
          | some r =>
            obtain ⟨kv2, deleted2, calls2⟩ := r
            rw [hdp] at h
            simp only at h
            have hfind := deletePosts_find _ _ _ _ _ _ _ _ _ _ hdp
            have hl' := (ListsUsers_iff _ _).1 hl
            have htok := hposts posts hp
            cases hfa : StdMap.find kv2 "all_users" with
            | none => simp [hfa] at h
            | some v =>
              simp only [hfa] at h
              have hnp : "all_users" ∉ parse_value posts "," := by
                intro hin
                rw [(hfind "all_users").1 hin] at hfa
                exact absurd hfa (by simp)
              have hv : v = joinCommas l := by
                have := (hfind "all_users").2 hnp
                rw [hfa, StdMap.find_erase_ne _ _ _ hau, hl'.1] at this
                exact Option.some.inj this
              subst hv
              have hparse : parse_value (joinCommas l) "," = l :=
                parse_value_joinCommas l (fun k hk => ((hl'.2.2 k).1 hk).1)
              have hmem : userKey ds ∈ l := (hl'.2.2 _).2 ⟨huk, by rw [hf]; simp⟩
              rw [hparse] at h
              have hidx : ¬ l.indexOf (userKey ds) = l.length :=
                Nat.ne_of_lt (List.indexOf_lt_length.2 hmem)
              rw [if_neg hidx, List.eraseIdx_indexOf_eq_erase] at h
              simp only [Option.some.injEq, Prod.mk.injEq] at h
              rw [← h.2.1]
              refine Or.inr ⟨huk, by simp, ?_⟩
              refine listsUsers_erase s.kv_store _ l (userKey ds) hl ?_ ?_
              · show StdMap.find (StdMap.erase (StdMap.assign kv2 "all_users"
                  (joinCommas (l.erase (userKey ds)))) (userKey ds ++ "_posts")) "all_users" = _
                rw [StdMap.find_erase_ne _ _ _ (append_posts_ne_all_users _ huk),
                  StdMap.find_assign_self _ _ _ _ hfa]
              · intro k hk
                show StdMap.find (StdMap.erase (StdMap.assign kv2 "all_users"
                  (joinCommas (l.erase (userKey ds)))) (userKey ds ++ "_posts")) k ≠ none ↔ _
                have hkp : k ∉ parse_value posts "," := by
                  intro hin
                  rw [htok k hin] at hk
                  exact absurd hk (by simp)
                have hkpk : k ≠ userKey ds ++ "_posts" := by
                  rintro rfl
                  rw [isUserKey_append_posts] at hk
                  exact absurd hk (by simp)
                rw [StdMap.stored_erase, StdMap.stored_assign, (hfind k).2 hkp,
                  StdMap.stored_erase]
                constructor
                · exact fun hh => hh.1
                · exact fun hh => ⟨hh, hkpk⟩
    · -- the posts of a user
      have h1 : ¬ ((parse_value (userPostsKey ds) "_")[0]? = some "post" ∧
          (parse_value (userPostsKey ds) "_").length = 2) := by
        intro hc
        rw [parse_value_userPostsKey ds hds] at hc
        exact absurd hc.1 (by simp)
      have h2 : ¬ ((parse_value (userPostsKey ds) "_")[0]? = some "user" ∧
          (parse_value (userPostsKey ds) "_").length = 2) := by
        intro hc
        rw [parse_value_userPostsKey ds hds] at hc
        exact absurd hc.2 (by simp)
      simp only [ShardkvServer.Delete, hne, hau, if_false, hid, hloc, Bool.true_eq_false,
        if_neg h1, if_neg h2, Option.some.injEq, Prod.mk.injEq] at h
      rw [← h.2.1]
      exact Or.inl hl
    · -- a post
      rw [Delete_postKey s ds id hds hid hloc] at h
      cases hf : StdMap.find s.kv_store (postKey ds) with
      | none =>
        simp only [hf] at h
        by_cases hd : postKey ds ∈ s.deleted
        · simp only [hd, if_true, Option.some.injEq, Prod.mk.injEq] at h
          rw [← h.2.1]
          exact Or.inl hl
        · simp only [hd, if_false, Option.some.injEq, Prod.mk.injEq] at h
          rw [← h.2.1]
          exact Or.inl hl
      | some w =>
        simp only [hf, Option.some.injEq, Prod.mk.injEq] at h
        rw [← h.2.1]
        exact Or.inl (listsUsers_of_same _ _ l hl
          (sameUsers_erase _ _ (isUserKey_postKey ds) hau))

theorem visited_cons_ne (loc : List shard) (k k0 v0 : String) (rest : List (String × String))
    (hk : k ≠ k0) :
    (!(decide (k ∈ ((k0, v0) :: rest).map Prod.fst) && dropsUser loc k)) =
      (!(decide (k ∈ rest.map Prod.fst) && dropsUser loc k)) := by
  have : decide (k ∈ ((k0, v0) :: rest).map Prod.fst) = decide (k ∈ rest.map Prod.fst) := by
    apply decide_eq_decide.2
    simp [hk]
  rw [this]

/-- The `all_users` record the loop of the reconciler leaves: the users
listed before, without those the loop visits and drops. -/
theorem reconcileLoop_allUsers (loc : List shard) (map : List (String × List shard)) :
    ∀ (entries kvc upd : List (String × String)) (calls : List PeerCall)
      (kvc' upd' : List (String × String)) (calls' : List PeerCall) (lc : List String),
      reconcileLoop loc map entries (kvc, upd, calls) = some (kvc', upd', calls') →
      StdMap.find kvc "all_users" = some (joinCommas lc) → lc.Nodup →
      (∀ k ∈ lc, isUserKey k = true) →
      StdMap.find kvc' "all_users" =
        some (joinCommas (lc.filter
          (fun k => !(decide (k ∈ entries.map Prod.fst) && dropsUser loc k)))) := by
  intro entries
  induction entries with
  | nil =>
    intro kvc upd calls kvc' upd' calls' lc h hau _ _
    simp only [reconcileLoop, Option.some.injEq, Prod.mk.injEq] at h
    rw [← h.1, hau]
    simp
  | cons e rest ih =>
    intro kvc upd calls kvc' upd' calls' lc h hau hnd huk
    obtain ⟨k0, v0⟩ := e
    -- an entry the loop does not drop from `all_users` leaves the list as it is
    have hkeep : dropsUser loc k0 = false →
        lc.filter (fun k => !(decide (k ∈ ((k0, v0) :: rest).map Prod.fst) && dropsUser loc k))
          = lc.filter (fun k => !(decide (k ∈ rest.map Prod.fst) && dropsUser loc k)) := by
      intro hd
      apply List.filter_congr
      intro k _
      by_cases hk : k = k0
      · subst hk
        rw [hd]
        simp
      · exact visited_cons_ne loc k k0 v0 rest hk
    simp only [reconcileLoop] at h
    by_cases ha : k0 = "all_users"
    · rw [if_pos ha] at h
      rw [hkeep (by simp [dropsUser, ha])]
      exact ih _ _ _ _ _ _ lc h hau hnd huk
    · rw [if_neg ha] at h
      cases hid : extractID k0 with
      | none => simp [hid] at h
      | some id =>
        simp only [hid] at h
        by_cases hloc : CheckInShard id loc = true
        · simp only [hloc, Bool.true_eq_false, if_false] at h
          rw [hkeep (by simp [dropsUser, idInShards, hid, hloc])]
          exact ih _ _ _ _ _ _ lc h hau hnd huk
        · have hloc' : CheckInShard id loc = false := by simpa using hloc
          simp only [hloc', if_true] at h
          by_cases hu : (parse_value k0 "_").length = 2 ∧ (parse_value k0 "_")[0]? = some "user"
          · rw [if_pos hu] at h
            simp only [hau] at h
            rw [parse_value_joinCommas lc huk] at h
            by_cases hm : lc.indexOf k0 = lc.length
            · simp [hm] at h
            · rw [if_neg hm, List.eraseIdx_indexOf_eq_erase] at h
              have hau1 : StdMap.find
                  (StdMap.assign kvc "all_users" (joinCommas (lc.erase k0))) "all_users"
                  = some (joinCommas (lc.erase k0)) := StdMap.find_assign_self _ _ _ _ hau
              have := ih _ _ _ _ _ _ (lc.erase k0) h hau1 (hnd.erase k0)
                (fun k hk => huk k (List.mem_of_mem_erase hk))
              rw [this, hnd.erase_eq_filter, List.filter_filter]
              congr 2
              apply List.filter_congr
              intro k _
              have hd : dropsUser loc k0 = true := by
                simp [dropsUser, ha, idInShards, hid, hloc', hu]
              by_cases hk : k = k0
              · subst hk
                rw [hd]
                simp
              · rw [visited_cons_ne loc k k0 v0 rest hk]
                have : (k != k0) = true := by simpa using hk
                rw [this, Bool.and_true]
          · rw [if_neg hu] at h
            rw [hkeep (by simp [dropsUser, hu])]
            exact ih _ _ _ _ _ _ lc h hau hnd huk

/-- A completed reconciler pass keeps `all_users` in step with the stored
users: the users whose id is in the new local intervals stay listed, in
their order. -/
theorem QueryShardmaster_listsUsers (s s' : ShardkvServer)
    (config : List (String × List shard)) (calls : List PeerCall) (l : List String)
    (hkv : (s.kv_store.map Prod.fst).Nodup) (hcfg : (config.map Prod.fst).Nodup)
    (hl : ListsUsers s.kv_store l)
    (h : s.QueryShardmaster (some config) = some (s', calls)) :
    ListsUsers s'.kv_store (l.filter (fun k => idInShards k s'.local_shard)) := by
  obtain ⟨-, -, -, -, -, -, -, hfind, -⟩ := QueryShardmaster_spec s s' config calls hkv hcfg h
  have hl' := (ListsUsers_iff _ _).1 hl
  have huk : ∀ k ∈ l, isUserKey k = true := fun k hk => ((hl'.2.2 k).1 hk).1
  have hne : ∀ k, isUserKey k = true → k ≠ "all_users" := by
    rintro k hk rfl
    rw [isUserKey_all_users] at hk
    exact absurd hk (by simp)
  -- the `all_users` record after the pass
  have hau : StdMap.find s'.kv_store "all_users" =
      some (joinCommas (l.filter (fun k => idInShards k s'.local_shard))) := by
    simp only [ShardkvServer.QueryShardmaster] at h
    cases hloc : StdMap.find (configMap config []) s.address with
    | none => simp [hloc] at h
    | some loc =>
      simp only [hloc] at h
      cases hr : reconcileLoop loc (configMap config []) s.kv_store (s.kv_store, [], []) with
      | none => simp [hr] at h
      | some r =>
        obtain ⟨kvc', upd', calls'⟩ := r
        simp only [hr] at h
        cases hfa : StdMap.find kvc' "all_users" with
        | none => simp [hfa] at h
        | some au =>
          simp only [hfa, Option.some.injEq, Prod.mk.injEq] at h
          obtain ⟨rfl, rfl⟩ := h
          have hupd : StdMap.find upd' "all_users" = none := by
            rw [(reconcileLoop_spec loc (configMap config []) s.kv_store s.kv_store [] []
              kvc' upd' calls' hkv (fun e _ => rfl) hr).2.1]
            simp [StdMap.find]
          have hlist := reconcileLoop_allUsers loc (configMap config []) s.kv_store s.kv_store
            [] [] kvc' upd' calls' l hr hl'.1 hl'.2.1 huk
          show StdMap.find (StdMap.insert upd' "all_users" au) "all_users" = _
          rw [StdMap.find_insert_self _ _ _ hupd, ← hfa, hlist]
          congr 2
          apply List.filter_congr
          intro k hk
          obtain ⟨hk1, hk2⟩ := (hl'.2.2 k).1 hk
          obtain ⟨ds, hds, rfl⟩ := (isUserKey_iff k).1 hk1
          have hin : userKey ds ∈ s.kv_store.map Prod.fst := (StdMap.mem_keys_iff _ _).2 hk2
          simp [dropsUser, hin, userKey_ne_all_users, parse_value_userKey ds hds]
  rw [ListsUsers_iff]
  refine ⟨hau, hl'.2.1.filter _, fun k => ?_⟩
  rw [List.mem_filter, hl'.2.2 k]
  constructor
  · rintro ⟨⟨hk1, hk2⟩, hin⟩
    refine ⟨hk1, ?_⟩
    rw [hfind k (hne k hk1), if_pos hin]
    exact hk2
  · rintro ⟨hk1, hk2⟩
    rw [hfind k (hne k hk1)] at hk2
    by_cases hin : idInShards k s'.local_shard = true
    · rw [if_pos hin] at hk2
      exact ⟨⟨hk1, hk2⟩, hin⟩
    · rw [if_neg hin] at hk2
      exact absurd rfl hk2

/-! ## Lemmas on the completion of the reconciler -/

/-- The keys of the schema whose id fits an `int` are readable. -/
theorem readableKey_schema (ds : List Char) (k : String) (hds : Decimal ds)
    (hr : digitsValue ds ≤ 2147483647)
    (hk : k = userKey ds ∨ k = userPostsKey ds ∨ k = postKey ds) : readableKey k := by
  rcases hk with rfl | rfl | rfl
  · exact ⟨by rw [extractID_userKey ds hds hr]; simp, fun _ => isUserKey_userKey ds hds⟩
  · refine ⟨by rw [extractID_userPostsKey ds hds hr]; simp, fun h => ?_⟩
    rw [parse_value_userPostsKey ds hds] at h
    exact absurd h.1 (by simp)
  · refine ⟨by rw [extractID_postKey ds hds hr]; simp, fun h => ?_⟩
    rw [parse_value_postKey ds hds] at h
    exact absurd h.2 (by simp)

/-- The loop of the reconciler completes on a store without repeated keys
whose keys are readable and whose users are listed in `all_users`. -/
theorem reconcileLoop_completes (loc : List shard) (map : List (String × List shard)) :
    ∀ (entries kvc upd : List (String × String)) (calls : List PeerCall) (lc : List String),
      (entries.map Prod.fst).Nodup →
      (∀ e ∈ entries, e.1 ≠ "all_users" → readableKey e.1) →
      StdMap.find kvc "all_users" = some (joinCommas lc) → lc.Nodup →
      (∀ k ∈ lc, isUserKey k = true) →
      (∀ e ∈ entries, isUserKey e.1 = true → e.1 ∈ lc) →
      ∃ r, reconcileLoop loc map entries (kvc, upd, calls) = some r ∧
        StdMap.find r.1 "all_users" ≠ none := by
  intro entries
  induction entries with
  | nil =>
    intro kvc upd calls lc _ _ hau _ _ _
    exact ⟨_, rfl, by rw [hau]; simp⟩
  | cons e rest ih =>
    intro kvc upd calls lc hnd hread hau hlnd huk hlist
    obtain ⟨k0, v0⟩ := e
    simp only [List.map_cons, List.nodup_cons] at hnd
    have hread' : ∀ e ∈ rest, e.1 ≠ "all_users" → readableKey e.1 :=
      fun e he => hread e (List.mem_cons_of_mem _ he)
    have hlist' : ∀ e ∈ rest, isUserKey e.1 = true → e.1 ∈ lc :=
      fun e he => hlist e (List.mem_cons_of_mem _ he)
    simp only [reconcileLoop]
    by_cases ha : k0 = "all_users"
    · rw [if_pos ha]
      exact ih kvc upd calls lc hnd.2 hread' hau hlnd huk hlist'
    · rw [if_neg ha]
      obtain ⟨hid, hform⟩ := hread (k0, v0) (List.mem_cons_self _ _) ha
      obtain ⟨id, hid⟩ : ∃ id, extractID k0 = some id := by
        cases hx : extractID k0 with
        | none => exact absurd hx hid
        | some id => exact ⟨id, rfl⟩
      simp only [hid]
      by_cases hloc : CheckInShard id loc = true
      · simp only [hloc, Bool.true_eq_false, if_false]
        exact ih kvc _ calls lc hnd.2 hread' hau hlnd huk hlist'
      · have hloc' : CheckInShard id loc = false := by simpa using hloc
        simp only [hloc', if_true]
        by_cases hu : (parse_value k0 "_").length = 2 ∧ (parse_value k0 "_")[0]? = some "user"
        · rw [if_pos hu]
          simp only [hau]
          rw [parse_value_joinCommas lc huk]
          have hmem : k0 ∈ lc := hlist (k0, v0) (List.mem_cons_self _ _) (hform hu)
          have hidx : ¬ lc.indexOf k0 = lc.length :=
            Nat.ne_of_lt (List.indexOf_lt_length.2 hmem)
          rw [if_neg hidx, List.eraseIdx_indexOf_eq_erase]
          refine ih _ upd _ (lc.erase k0) hnd.2 hread' (StdMap.find_assign_self _ _ _ _ hau)
            (hlnd.erase k0) (fun k hk => huk k (List.mem_of_mem_erase hk)) ?_
          intro e he heu
          have hne : e.1 ≠ k0 := by
            intro heq
            exact hnd.1 (heq ▸ List.mem_map_of_mem Prod.fst he)
          exact (List.mem_erase_of_ne hne).2 (hlist' e he heu)
        · rw [if_neg hu]
          exact ih kvc upd _ lc hnd.2 hread' hau hlnd huk hlist'

/-- The reconciler pass completes on a response that lists this server
(every server once), when the store has no repeated key, its keys are
readable and `all_users` lists its users. -/
theorem QueryShardmaster_completes (s : ShardkvServer) (config : List (String × List shard))
    (loc : List shard) (l : List String) (hkv : (s.kv_store.map Prod.fst).Nodup)
    (hcfg : (config.map Prod.fst).Nodup) (hloc : StdMap.find config s.address = some loc)
    (hl : ListsUsers s.kv_store l)
    (hread : ∀ e ∈ s.kv_store, e.1 ≠ "all_users" → readableKey e.1) :
    ∃ s' calls, s.QueryShardmaster (some config) = some (s', calls) := by
  have hmap : StdMap.find (configMap config []) s.address = some loc := by
    rw [find_configMap config [] _ hcfg (fun e _ => rfl)]
    exact hloc
  obtain ⟨r, hr, hra⟩ := reconcileLoop_completes loc (configMap config []) s.kv_store
    s.kv_store [] [] l hkv hread hl.1 hl.2.1 (fun k hk => (hl.2.2.1 k hk).1) hl.2.2.2
  obtain ⟨kvc', upd', calls'⟩ := r
  obtain ⟨au, hau⟩ : ∃ au, StdMap.find kvc' "all_users" = some au := by
    cases hx : StdMap.find kvc' "all_users" with
    | none => exact absurd hx hra
    | some au => exact ⟨au, rfl⟩
  refine ⟨⟨s.address, StdMap.insert upd' "all_users" au, loc, configMap config [], s.deleted⟩,
    calls', ?_⟩
  simp only [ShardkvServer.QueryShardmaster, hmap, hr, hau]

/-! ## Lemmas on the splitting passes of partition -/

/-- The halves of an interval with more than one key. -/
theorem halves_eq (s : shard) (h : s.lower < s.upper) :
    halves s = [⟨s.lower, s.lower + (s.upper - s.lower) / 2⟩,
      ⟨s.lower + (s.upper - s.lower) / 2 + 1, s.upper⟩] := by
  simp only [halves, split_shard, if_pos h]

/-- The inner loop splits every interval when each of them has more than
one key. -/
theorem splitFromBack_eq :
    ∀ l : List shard, (∀ s ∈ l, s.lower < s.upper) →
      splitFromBack l = some (l.flatMap halves) := by
  intro l
  induction l with
  | nil => intro _; rfl
  | cons s rest ih =>
    intro h
    have hs := h s (List.mem_cons_self _ _)
    have hr := ih (fun x hx => h x (List.mem_cons_of_mem _ hx))
    simp only [splitFromBack, split_shard, if_pos hs, hr, List.flatMap_cons, halves_eq s hs,
      List.cons_append, List.nil_append]

/-- Splitting every interval of a tiling gives a tiling of the same range. -/
theorem tilesFrom_split (hi : Nat) :
    ∀ (l : List shard) (lo : Nat), TilesFrom hi lo l → (∀ s ∈ l, s.lower < s.upper) →
      TilesFrom hi lo (l.flatMap halves) := by
  intro l
  induction l with
  | nil => intro lo h _; exact h
  | cons s rest ih =>
    intro lo h hlt
    have hs := hlt s (List.mem_cons_self _ _)
    obtain ⟨h1, _, h3⟩ := h
    have hr := ih (s.upper + 1) h3 (fun x hx => hlt x (List.mem_cons_of_mem _ hx))
    rw [List.flatMap_cons, halves_eq s hs]
    refine ⟨h1, ?_, ?_, ?_, ?_⟩
    · exact Nat.le_add_right _ _
    · rfl
    · show s.lower + (s.upper - s.lower) / 2 + 1 ≤ s.upper
      omega
    · exact hr

/-- Each half of an interval with at least `2 * p` keys has at least `p`
keys. -/
theorem size_split (p : Nat) (hp : 1 ≤ p) (l : List shard)
    (h : ∀ s ∈ l, 2 * p ≤ s.upper - s.lower + 1) :
    ∀ s ∈ l.flatMap halves, p ≤ s.upper - s.lower + 1 := by
  intro s hs
  obtain ⟨x, hx, hsx⟩ := List.mem_flatMap.1 hs
  have h2 := h x hx
  have hlt : x.lower < x.upper := by omega
  rw [halves_eq x hlt] at hsx
  simp only [List.mem_cons, List.mem_singleton, List.not_mem_nil, or_false] at hsx
  rcases hsx with rfl | rfl
  · show p ≤ x.lower + (x.upper - x.lower) / 2 - x.lower + 1
    omega
  · show p ≤ x.upper - (x.lower + (x.upper - x.lower) / 2 + 1) + 1
    omega

/-- Splitting doubles the number of intervals. -/
theorem length_split :
    ∀ l : List shard, (∀ s ∈ l, s.lower < s.upper) →
      (l.flatMap halves).length = 2 * l.length := by
  intro l
  induction l with
  | nil => intro _; rfl
  | cons s rest ih =>
    intro h
    rw [List.flatMap_cons, halves_eq s (h s (List.mem_cons_self _ _)), List.length_append,
      ih (fun x hx => h x (List.mem_cons_of_mem _ hx))]
    simp only [List.length_cons, List.length_nil]
    omega

/-- After `k` passes over a rearranged tiling of `[lo, hi]` whose intervals
have at least `2 ^ k` keys each, no assertion of `split_shard` has failed and
the vector is a rearrangement of a tiling of `[lo, hi]` with `2 ^ k` times
as many intervals. -/
theorem splitPasses_tiles (hi lo : Nat) :
    ∀ (k : Nat) (l T : List shard), l.Perm T → TilesFrom hi lo T →
      (∀ s ∈ T, 2 ^ k ≤ s.upper - s.lower + 1) →
      ∃ l' T', splitPasses k l = some l' ∧ l'.Perm T' ∧ TilesFrom hi lo T' ∧
        T'.length = 2 ^ k * T.length := by
  intro k
  induction k with
  | zero =>
    intro l T hp ht _
    exact ⟨l, T, rfl, hp, ht, by simp⟩
  | succ k ih =>
    intro l T hp ht hsz
    have hsz2 : ∀ s ∈ T, 2 * 2 ^ k ≤ s.upper - s.lower + 1 := by
      intro s hs
      have := hsz s hs
      rw [pow_succ] at this
      omega
    have hpos : 1 ≤ 2 ^ k := Nat.one_le_two_pow
    have hltT : ∀ s ∈ T, s.lower < s.upper := by
      intro s hs
      have := hsz2 s hs
      omega
    have hltr : ∀ s ∈ l.reverse, s.lower < s.upper :=
      fun s hs => hltT s (hp.mem_iff.1 (List.mem_reverse.1 hs))
    have hpass : splitPass l = some (l.reverse.flatMap halves) := splitFromBack_eq _ hltr
    have hperm : (l.reverse.flatMap halves).Perm (T.flatMap halves) :=
      List.Perm.flatMap_right halves ((List.reverse_perm l).trans hp)
    obtain ⟨l', T', h1, h2, h3, h4⟩ := ih (l.reverse.flatMap halves) (T.flatMap halves) hperm
      (tilesFrom_split hi T lo ht hltT) (size_split (2 ^ k) hpos T hsz2)
    refine ⟨l', T', ?_, h2, h3, ?_⟩
    · simp only [splitPasses, hpass]
      exact h1
    · rw [h4, length_split T hltT, pow_succ]
      ring

/-- The intervals of a tiling start at or above its left end. -/
theorem tilesFrom_lower (hi : Nat) :
    ∀ (T : List shard) (lo : Nat), TilesFrom hi lo T → ∀ s ∈ T, lo ≤ s.lower := by
  intro T
  induction T with
  | nil => intro lo _ s hs; simp at hs
  | cons t rest ih =>
    intro lo h s hs
    obtain ⟨h1, h2, h3⟩ := h
    rcases List.mem_cons.1 hs with rfl | hs
    · omega
    · have := ih (t.upper + 1) h3 s hs
      omega

/-- The intervals of a tiling end at or below its right end. -/
theorem tilesFrom_upper (hi : Nat) :
    ∀ (T : List shard) (lo : Nat), TilesFrom hi lo T → ∀ s ∈ T, s.upper ≤ hi := by
  intro T
  induction T with
  | nil => intro lo _ s hs; simp at hs
  | cons t rest ih =>
    intro lo h s hs
    obtain ⟨_, _, h3⟩ := h
    rcases List.mem_cons.1 hs with rfl | hs
    · cases rest with
      | nil =>
        have h3' : s.upper + 1 = hi + 1 := h3
        omega
      | cons u rest' =>
        have hu := ih (s.upper + 1) h3 u (List.mem_cons_self _ _)
        have hl := h3.1
        have hw := h3.2.1
        omega
    · exact ih (t.upper + 1) h3 s hs

/-- The lower bounds of a tiling increase strictly. -/
theorem tilesFrom_pairwise (hi : Nat) :
    ∀ (T : List shard) (lo : Nat), TilesFrom hi lo T →
      T.Pairwise (fun a b => a.lower < b.lower) := by
  intro T
  induction T with
  | nil => intro lo _; exact List.Pairwise.nil
  | cons t rest ih =>
    intro lo h
    obtain ⟨_, h2, h3⟩ := h
    refine List.Pairwise.cons (fun s hs => ?_) (ih _ h3)
    have := tilesFrom_lower hi rest (t.upper + 1) h3 s hs
    omega

/-- Sorting a rearrangement of a tiling by `lower` gives the tiling. -/
theorem sort_of_perm_tiles (hi lo : Nat) (l T : List shard) (hp : l.Perm T)
    (ht : TilesFrom hi lo T) : sortAscendingInterval l = T := by
  have hpw := tilesFrom_pairwise hi T lo ht
  have hne : T.Pairwise (fun a b => a.lower ≠ b.lower) :=
    hpw.imp (fun h => Nat.ne_of_lt h)
  have hsym : Symmetric (fun a b : shard => a.lower ≠ b.lower) := fun _ _ h => h.symm
  refine List.Perm.eq_of_sorted ?_ (List.sorted_insertionSort lowerLE l)
    (hpw.imp (fun h => Nat.le_of_lt h)) ((List.perm_insertionSort lowerLE l).trans hp)
  intro a b ha hb hab hba
  have ha' : a ∈ T := hp.mem_iff.1 ((List.perm_insertionSort lowerLE l).mem_iff.1 ha)
  by_contra hcon
  exact hne.forall hsym ha' hb hcon (Nat.le_antisymm hab hba)

/-- A non-empty tiling in the words of the claim: the first lower bound, the
last upper bound, and the step from each interval to the next. -/
theorem tilesFrom_words (hi : Nat) :
    ∀ (T : List shard) (lo : Nat), TilesFrom hi lo T → T ≠ [] →
      T.head?.map shard.lower = some lo ∧ T.getLast?.map shard.upper = some hi ∧
      T.Chain' (fun a b => b.lower = a.upper + 1) := by
  intro T
  induction T with
  | nil => intro lo _ h; exact absurd rfl h
  | cons t rest ih =>
    intro lo h _
    obtain ⟨h1, h2, h3⟩ := h
    cases rest with
    | nil =>
      have h3' : t.upper + 1 = hi + 1 := h3
      exact ⟨by simp [h1], by simp; omega, List.chain'_singleton _⟩
    | cons u rest' =>
      obtain ⟨i1, i2, i3⟩ := ih (t.upper + 1) h3 (List.cons_ne_nil _ _)
      refine ⟨by simp [h1], ?_, ?_⟩
      · rw [List.getLast?_cons_cons]
        exact i2
      · refine List.chain'_cons.2 ⟨?_, i3⟩
        simpa using i1

/-- The intervals of a tiling have `lower ≤ upper`. -/
theorem tilesFrom_wf (hi : Nat) :
    ∀ (T : List shard) (lo : Nat), TilesFrom hi lo T → ∀ s ∈ T, s.lower ≤ s.upper := by
  intro T
  induction T with
  | nil => intro lo _ s hs; simp at hs
  | cons t rest ih =>
    intro lo h s hs
    rcases List.mem_cons.1 hs with rfl | hs
    · exact h.2.1
    · exact ih _ h.2.2 s hs

/-- On a vector whose lower bounds are pairwise different the result of
sorting is determined by the comparison: every rearrangement of the vector
that is ascending in `lower`, whichever `std::sort` produces, is the list
`sortAscendingInterval` returns. -/
theorem sortAscendingInterval_unique (l r : List shard)
    (hd : l.Pairwise (fun a b => a.lower ≠ b.lower)) (hp : r.Perm l)
    (hs : r.Pairwise lowerLE) : r = sortAscendingInterval l := by
  have hsym : Symmetric (fun a b : shard => a.lower ≠ b.lower) := fun _ _ h => h.symm
  refine List.Perm.eq_of_sorted ?_ hs (List.sorted_insertionSort lowerLE l)
    (hp.trans (List.perm_insertionSort lowerLE l).symm)
  intro a b ha hb hab hba
  have ha' : a ∈ l := hp.mem_iff.1 ha
  have hb' : b ∈ l := (List.perm_insertionSort lowerLE l).mem_iff.1 hb
  by_contra hcon
  exact hd.forall hsym ha' hb' hcon (Nat.le_antisymm hab hba)

/-! ## Lemmas on a response that does not list the server -/

/-- An address that the response does not list is looked up in the rebuilt
map as in the map the loop started from. -/
theorem find_configMap_unlisted :
    ∀ (config m : List (String × List shard)) (a : String),
      (∀ e ∈ config, e.1 ≠ a) → StdMap.find (configMap config m) a = StdMap.find m a := by
  intro config
  induction config with
  | nil => intro m a _; rfl
  | cons c rest ih =>
    intro m a h
    simp only [configMap]
    rw [ih _ a (fun e he => h e (List.mem_cons_of_mem _ he))]
    exact StdMap.find_insert_ne m c.1 a c.2 (h c (List.mem_cons_self _ _))

/-- The reconciler pass does not complete on a response that does not list
the address of the server: `server_shard_map.find(address)` is `end()` and
is dereferenced. -/
theorem QueryShardmaster_unlisted (s : ShardkvServer) (config : List (String × List shard))
    (h : ∀ e ∈ config, e.1 ≠ s.address) : s.QueryShardmaster (some config) = none := by
  have hf : StdMap.find (configMap config []) s.address = none := by
    rw [find_configMap_unlisted config [] s.address h]
    rfl
  simp only [ShardkvServer.QueryShardmaster, hf]

/-! ## Theorems -/

/-- C1: after six Joins from the empty configuration the six members hold
`[0,124]`, `[125,249]`, `[250,374]`, `[375,499]`, `[500,624]` and
`[875,999]`: key 700 of `[MIN_KEY, MAX_KEY]` is held by no server, so the
intervals do not cover the key space. -/
theorem six_joins_leave_keys_unowned :
    StaticShardmaster.runOK
        [.Join "A", .Join "B", .Join "C", .Join "D", .Join "E", .Join "F"]
        StaticShardmaster.empty
      = some ⟨["A", "B", "C", "D", "E", "F"],
          [("A", [⟨0, 124⟩]), ("B", [⟨125, 249⟩]), ("C", [⟨250, 374⟩]),
           ("D", [⟨375, 499⟩]), ("E", [⟨500, 624⟩]), ("F", [⟨875, 999⟩])]⟩ ∧
    ¬ Covers
        (StaticShardmaster.intervals ⟨["A", "B", "C", "D", "E", "F"],
          [("A", [⟨0, 124⟩]), ("B", [⟨125, 249⟩]), ("C", [⟨250, 374⟩]),
           ("D", [⟨375, 499⟩]), ("E", [⟨500, 624⟩]), ("F", [⟨875, 999⟩])]⟩)
        MIN_KEY MAX_KEY := by
  refine ⟨by decide, ?_⟩
  intro h
  have h700 := (h 700).2 (by decide)
  revert h700
  decide

/-- C2: `partition(8, 0, 999)` returns sixteen intervals, not eight, and
`partition(3, 10, 20)` returns `[4,12]`, `[10,3]`, `[13,20]`, which
neither covers `[10, 20]` nor is well-formed. -/
theorem partition_eight_returns_sixteen :
    (partition 8 0 999).map List.length = some 16 ∧
    partition 3 10 20 = some [⟨4, 12⟩, ⟨10, 3⟩, ⟨13, 20⟩] := by
  decide

/-- C3: from `A:[0,499]`, `B:[500,999]` (two Joins), `Move(A, [0,500])`
returns OK and leaves `A` with `[0, 4294967295]` and `[0, 500]`: the
intervals are no longer pairwise disjoint. -/
theorem move_breaks_disjointness :
    StaticShardmaster.runOK [.Join "A", .Join "B"] StaticShardmaster.empty
      = some ⟨["A", "B"], [("A", [⟨0, 499⟩]), ("B", [⟨500, 999⟩])]⟩ ∧
    StaticShardmaster.Move ⟨["A", "B"], [("A", [⟨0, 499⟩]), ("B", [⟨500, 999⟩])]⟩ "A" ⟨0, 500⟩
      = some (.OK, ⟨["A", "B"],
          [("A", [⟨0, 4294967295⟩, ⟨0, 500⟩]), ("B", [⟨501, 999⟩])]⟩) ∧
    ¬ PairwiseDisjoint (StaticShardmaster.intervals ⟨["A", "B"],
          [("A", [⟨0, 4294967295⟩, ⟨0, 500⟩]), ("B", [⟨501, 999⟩])]⟩) := by
  decide

/-- C4: from `A:[0,499]`, `B:[500,999]`, after `Move(A, [0,500])` key 1000,
which is outside `[MIN_KEY, MAX_KEY]`, lies in an interval of `A`: the union
of the intervals is not `[MIN_KEY, MAX_KEY]`. -/
theorem move_breaks_coverage :
    (StaticShardmaster.Move ⟨["A", "B"], [("A", [⟨0, 499⟩]), ("B", [⟨500, 999⟩])]⟩
        "A" ⟨0, 500⟩).map (fun r => (r.1, StaticShardmaster.intervals r.2))
      = some (.OK, [⟨0, 4294967295⟩, ⟨0, 500⟩, ⟨501, 999⟩]) ∧
    ¬ Covers [⟨0, 4294967295⟩, ⟨0, 500⟩, ⟨501, 999⟩] MIN_KEY MAX_KEY := by
  refine ⟨by decide, ?_⟩
  intro h
  have h1000 := (h 1000).1 ⟨⟨0, 4294967295⟩, by decide, by decide⟩
  revert h1000
  decide

/-- C5 as stated fails: the configuration `A:[11,999],[0,10]` is reached by
`Join(A)`, `Move(A, [0,10])`; after `Join(B)` and `Leave([B])` Query returns
`A:[0,999]`, which differs from the snapshot before the Join. -/
theorem join_leave_after_move_changes_snapshot :
    ¬ (∀ sm : StaticShardmaster, Reachable sm →
        ∀ s : String, s ≠ "" → s ∉ sm.server_order →
          ∀ sm1 sm2 : StaticShardmaster,
            sm.Join s = some (.OK, sm1) → sm1.Leave [s] = some (.OK, sm2) →
              sm2.Query = sm.Query) := by
  intro h
  have hreach : Reachable ⟨["A"], [("A", [⟨11, 999⟩, ⟨0, 10⟩])]⟩ :=
    Reachable.step (.Move "A" ⟨0, 10⟩)
      (Reachable.step (.Join "A") Reachable.empty
        (show StaticShardmaster.empty.handle (.Join "A")
            = some (.OK, ⟨["A"], [("A", [⟨0, 999⟩])]⟩) by decide))
      (by decide)
  have hq := h ⟨["A"], [("A", [⟨11, 999⟩, ⟨0, 10⟩])]⟩ hreach "B" (by decide) (by decide)
    ⟨["A", "B"], [("A", [⟨0, 499⟩]), ("B", [⟨500, 999⟩])]⟩
    ⟨["A"], [("A", [⟨0, 999⟩])]⟩ (by decide) (by decide)
  revert hq
  decide

/-- C5, amended: for every configuration with at most five members in which
no Move has taken place since the last Join or Leave (the empty
configuration, or the result of a Join or Leave that returns OK on a
configuration reachable by Join, Leave and Move calls), and every non-empty
address `s` that is not a member, `Join(s)` and then `Leave([s])` both return
OK, and Query returns the same snapshot before the Join and after the
Leave. -/
theorem join_then_leave_restores_snapshot (sm : StaticShardmaster) (s : String)
    (hr : AfterJoinLeave sm) (h5 : sm.server_order.length ≤ 5)
    (hs : s ≠ "") (hns : s ∉ sm.server_order) :
    ∃ sm1 sm2 snapshot,
      sm.Join s = some (.OK, sm1) ∧ sm1.Leave [s] = some (.OK, sm2) ∧
      sm.Query = some (.OK, snapshot) ∧ sm2.Query = some (.OK, snapshot) := by
  obtain ⟨hc, hcan⟩ := afterJoinLeave_invariant sm hr
  obtain ⟨sm1, hj⟩ := join_succeeds sm s hc hs hns h5
  obtain ⟨hc1, ho1⟩ := join_consistent sm sm1 s hc hj
  obtain ⟨sm2, hl, ho2⟩ := leave_single_succeeds sm1 sm.server_order s hc1 ho1 hns h5
  obtain ⟨-, hcan2⟩ := leave_consistent_canonical sm1 sm2 [s] hc1 hl
  obtain ⟨snapshot, hq1, hq2⟩ := query_eq_of_canonical sm sm2 ho2 (hcan h5) hcan2
  exact ⟨sm1, sm2, snapshot, hj, hl, hq1, hq2⟩

/-- Witness of C5 on the configuration `A:[0,499]`, `B:[500,999]` reached by
`Join(A)`, `Move(A, [0,10])`, `Join(B)`, with `s = C`. -/
theorem join_then_leave_restores_snapshot_witness :
    (AfterJoinLeave ⟨["A", "B"], [("A", [⟨0, 499⟩]), ("B", [⟨500, 999⟩])]⟩ ∧
      ["A", "B"].length ≤ 5 ∧ "C" ≠ "" ∧ "C" ∉ ["A", "B"]) ∧
    ∃ sm1 sm2 snapshot,
      StaticShardmaster.Join ⟨["A", "B"], [("A", [⟨0, 499⟩]), ("B", [⟨500, 999⟩])]⟩ "C"
        = some (.OK, sm1) ∧
      sm1.Leave ["C"] = some (.OK, sm2) ∧
      StaticShardmaster.Query ⟨["A", "B"], [("A", [⟨0, 499⟩]), ("B", [⟨500, 999⟩])]⟩
        = some (.OK, snapshot) ∧
      sm2.Query = some (.OK, snapshot) :=
  have hmoved : Reachable ⟨["A"], [("A", [⟨11, 999⟩, ⟨0, 10⟩])]⟩ :=
    Reachable.step (.Move "A" ⟨0, 10⟩)
      (Reachable.step (.Join "A") Reachable.empty
        (show StaticShardmaster.empty.handle (.Join "A")
            = some (.OK, ⟨["A"], [("A", [⟨0, 999⟩])]⟩) by decide))
      (by decide)
  have hreach : AfterJoinLeave ⟨["A", "B"], [("A", [⟨0, 499⟩]), ("B", [⟨500, 999⟩])]⟩ :=
    AfterJoinLeave.join "B" hmoved (by decide)
  ⟨⟨hreach, by decide, by decide, by decide⟩,
   join_then_leave_restores_snapshot _ "C" hreach (by decide) (by decide) (by decide)⟩

/-- C6 as stated fails: after `Join(A)`, `Join(B)`, `Join(C)` the Query
response is not `A:[334,666]`, `B:[667,999]`, `C:[0,333]`. -/
theorem three_joins_query_differs_from_stated :
    (StaticShardmaster.runOK [.Join "A", .Join "B", .Join "C"]
        StaticShardmaster.empty).bind StaticShardmaster.Query
      ≠ some (.OK, [("A", [⟨334, 666⟩]), ("B", [⟨667, 999⟩]), ("C", [⟨0, 333⟩])]) := by
  decide

/-- C6, amended: after `Join(A)`, `Join(B)`, `Join(C)` from the empty
configuration, Query returns OK with three entries in the order A, B, C,
where A owns exactly `[0, 333]`, B exactly `[334, 666]` and C exactly
`[667, 999]`. -/
theorem query_after_three_joins :
    (StaticShardmaster.runOK [.Join "A", .Join "B", .Join "C"]
        StaticShardmaster.empty).bind StaticShardmaster.Query
      = some (.OK, [("A", [⟨0, 333⟩]), ("B", [⟨334, 666⟩]), ("C", [⟨667, 999⟩])]) := by
  decide

/-- C7 as stated fails: `Put(user_5_posts, v, user_5)` with 5 in the local
intervals returns OK and stores nothing, and the following
`Get(user_5_posts)` returns an error. -/
theorem put_userPosts_with_user_is_dropped :
    ShardkvServer.Put ⟨"A", [("all_users", "")], [⟨0, 999⟩], [("A", [⟨0, 999⟩])], []⟩
        "user_5_posts" "post_1," "user_5"
      = some (.OK, ⟨"A", [("all_users", "")], [⟨0, 999⟩], [("A", [⟨0, 999⟩])], []⟩, []) ∧
    ShardkvServer.Get ⟨"A", [("all_users", "")], [⟨0, 999⟩], [("A", [⟨0, 999⟩])], []⟩
        "user_5_posts"
      = some (.INVALID_ARGUMENT "GET request key not found", none) := by
  decide

/-- C7, amended: for every shardkv state, every key `user_<id>` or
`post_<id>` with any user argument, and every key `user_<id>_posts` with the
empty user argument, if `Put(k, v, user)` returns OK (which requires the id
to lie in the local intervals), then `Get(k)` on the state it leaves returns
OK with data `v`. -/
theorem put_get_roundtrip (s s' : ShardkvServer) (ds : List Char) (key data user : String)
    (calls : List PeerCall) (hds : Decimal ds)
    (hkey : key = userKey ds ∨ key = postKey ds ∨ (key = userPostsKey ds ∧ user = ""))
    (hput : s.Put key data user = some (.OK, s', calls)) :
    s'.Get key = some (.OK, some data) := by
  rcases hkey with rfl | rfl | ⟨rfl, rfl⟩
  · exact put_get_user s s' ds data user calls hds hput
  · exact put_get_post s s' ds data user calls hds hput
  · exact put_get_userPosts s s' ds data calls hds hput

/-- Witness of C7: `Put(post_7, hi, user_5)` then `Get(post_7)`. -/
theorem put_get_roundtrip_witness :
    (Decimal ['7'] ∧
      ("post_7" = userKey ['7'] ∨ "post_7" = postKey ['7'] ∨
        ("post_7" = userPostsKey ['7'] ∧ "user_5" = "")) ∧
      ShardkvServer.Put
          ⟨"A", [("all_users", "user_5,"), ("user_5", "n")], [⟨0, 999⟩], [], []⟩
          "post_7" "hi" "user_5"
        = some (.OK,
            ⟨"A", [("all_users", "user_5,"), ("post_7", "hi"), ("user_5", "n"),
                   ("user_5_posts", "post_7,")], [⟨0, 999⟩], [], []⟩, [])) ∧
    ShardkvServer.Get
        ⟨"A", [("all_users", "user_5,"), ("post_7", "hi"), ("user_5", "n"),
               ("user_5_posts", "post_7,")], [⟨0, 999⟩], [], []⟩ "post_7"
      = some (.OK, some "hi") :=
  ⟨by decide,
   put_get_roundtrip
     ⟨"A", [("all_users", "user_5,"), ("user_5", "n")], [⟨0, 999⟩], [], []⟩
     ⟨"A", [("all_users", "user_5,"), ("post_7", "hi"), ("user_5", "n"),
            ("user_5_posts", "post_7,")], [⟨0, 999⟩], [], []⟩
     ['7'] "post_7" "hi" "user_5" [] (by decide) (by decide) (by decide)⟩

/-- C8: `Delete` on a key `post_<id>` whose extracted id is in the local
intervals. If the post is stored, it returns OK, erases the post from
`kv_store` and appends the key to `deleted`, and a second `Delete` of the key
returns OK and changes nothing; if the post is not stored and the key is in
`deleted`, it returns OK and changes nothing; otherwise it returns an
invalid-argument error and changes nothing. -/
theorem delete_post_key (s : ShardkvServer) (ds : List Char) (id : Int)
    (hds : Decimal ds) (hid : extractID (postKey ds) = some id)
    (hloc : CheckInShard id s.local_shard = true) :
    (∀ v, StdMap.find s.kv_store (postKey ds) = some v →
      s.Delete (postKey ds) =
          some (.OK,
            { s with kv_store := StdMap.erase s.kv_store (postKey ds),
                     deleted := s.deleted ++ [postKey ds] }, []) ∧
        StdMap.find (StdMap.erase s.kv_store (postKey ds)) (postKey ds) = none ∧
        ShardkvServer.Delete
            { s with kv_store := StdMap.erase s.kv_store (postKey ds),
                     deleted := s.deleted ++ [postKey ds] } (postKey ds) =
          some (.OK,
            { s with kv_store := StdMap.erase s.kv_store (postKey ds),
                     deleted := s.deleted ++ [postKey ds] }, [])) ∧
    (StdMap.find s.kv_store (postKey ds) = none → postKey ds ∈ s.deleted →
      s.Delete (postKey ds) = some (.OK, s, [])) ∧
    (StdMap.find s.kv_store (postKey ds) = none → postKey ds ∉ s.deleted →
      ∃ msg, s.Delete (postKey ds) = some (.INVALID_ARGUMENT msg, s, [])) := by
  refine ⟨fun v hv => ⟨?_, StdMap.find_erase_self _ _, ?_⟩, fun hn hd => ?_, fun hn hd => ?_⟩
  · rw [Delete_postKey s ds id hds hid hloc, hv]
  · have h2 := Delete_postKey
      ⟨s.address, StdMap.erase s.kv_store (postKey ds), s.local_shard, s.server_shard_map,
        s.deleted ++ [postKey ds]⟩ ds id hds hid hloc
    rw [h2]
    simp [StdMap.find_erase_self]
  · rw [Delete_postKey s ds id hds hid hloc, hn]
    simp [hd]
  · rw [Delete_postKey s ds id hds hid hloc, hn]
    exact ⟨"ERR: DELETE request post_id not found on server", by simp [hd]⟩

/-- Witness of C8 on a server storing `post_9`. -/
theorem delete_post_key_witness :
    (Decimal ['9'] ∧ extractID (postKey ['9']) = some 9 ∧
      CheckInShard 9 [⟨0, 999⟩] = true) ∧
    ShardkvServer.Delete ⟨"A", [("all_users", ""), ("post_9", "hi")], [⟨0, 999⟩], [], []⟩ "post_9"
      = some (.OK, ⟨"A", [("all_users", "")], [⟨0, 999⟩], [], ["post_9"]⟩, []) :=
  ⟨by decide,
   ((delete_post_key ⟨"A", [("all_users", ""), ("post_9", "hi")], [⟨0, 999⟩], [], []⟩
      ['9'] 9 (by decide) (by decide) (by decide)).1 "hi" (by decide)).1⟩

/-- C9: on a server that stores `user_5` without a `user_5_posts` record
(the state a single `Put(user_5, n)` leaves), `Delete(user_5)` dereferences
the failed lookup of `user_5_posts` and returns no status. -/
theorem delete_user_without_posts_record :
    ShardkvServer.Put ⟨"A", [("all_users", "")], [⟨0, 999⟩], [("A", [⟨0, 999⟩])], []⟩
        "user_5" "n" ""
      = some (.OK,
          ⟨"A", [("all_users", "user_5,"), ("user_5", "n")], [⟨0, 999⟩],
            [("A", [⟨0, 999⟩])], []⟩, []) ∧
    ShardkvServer.Delete
        ⟨"A", [("all_users", "user_5,"), ("user_5", "n")], [⟨0, 999⟩],
          [("A", [⟨0, 999⟩])], []⟩ "user_5"
      = none := by
  decide

/-- C10: `Delete(user_5)` on a server that stores `user_5` and its post
`post_7` erases `post_7` and appends `user_5`, not `post_7`, to the
tombstone list; the following `Delete(post_7)` returns an error. -/
theorem delete_user_records_user_key :
    ShardkvServer.Delete
        ⟨"A", [("all_users", "user_5,"), ("post_7", "hi"), ("user_5", "n"),
               ("user_5_posts", "post_7,")], [⟨0, 999⟩], [("A", [⟨0, 999⟩])], []⟩ "user_5"
      = some (.OK,
          ⟨"A", [("all_users", "")], [⟨0, 999⟩], [("A", [⟨0, 999⟩])], ["user_5"]⟩, []) ∧
    ShardkvServer.Delete
        ⟨"A", [("all_users", "")], [⟨0, 999⟩], [("A", [⟨0, 999⟩])], ["user_5"]⟩ "post_7"
      = some (.INVALID_ARGUMENT "ERR: DELETE request post_id not found on server",
          ⟨"A", [("all_users", "")], [⟨0, 999⟩], [("A", [⟨0, 999⟩])], ["user_5"]⟩, []) := by
  decide

/-- C11: for all intervals `A` and `B` (well-formed or not), `get_overlap(A, B)`
returns a class and never reaches its final `throw`; it returns `NO_OVERLAP`
iff `A.upper < B.lower` or `B.upper < A.lower`; otherwise
`COMPLETELY_CONTAINED` iff `B.lower <= A.lower` and `A.upper <= B.upper`;
otherwise `COMPLETELY_CONTAINS` iff `A.lower < B.lower` and
`A.upper > B.upper`; otherwise `OVERLAP_START` iff `A.lower >= B.lower` and
`A.upper > B.upper`; otherwise `OVERLAP_END` iff `A.lower < B.lower` and
`A.upper <= B.upper`. Being a function, it returns exactly one class. -/
theorem get_overlap_classifies (A B : shard) :
    (∃ c, get_overlap A B = some c) ∧
    (get_overlap A B = some .NO_OVERLAP ↔ (A.upper < B.lower ∨ B.upper < A.lower)) ∧
    (get_overlap A B = some .COMPLETELY_CONTAINED ↔
      ¬ (A.upper < B.lower ∨ B.upper < A.lower) ∧
      (B.lower ≤ A.lower ∧ A.upper ≤ B.upper)) ∧
    (get_overlap A B = some .COMPLETELY_CONTAINS ↔
      ¬ (A.upper < B.lower ∨ B.upper < A.lower) ∧
      ¬ (B.lower ≤ A.lower ∧ A.upper ≤ B.upper) ∧
      (A.lower < B.lower ∧ A.upper > B.upper)) ∧
    (get_overlap A B = some .OVERLAP_START ↔
      ¬ (A.upper < B.lower ∨ B.upper < A.lower) ∧
      ¬ (B.lower ≤ A.lower ∧ A.upper ≤ B.upper) ∧
      ¬ (A.lower < B.lower ∧ A.upper > B.upper) ∧
      (A.lower ≥ B.lower ∧ A.upper > B.upper)) ∧
    (get_overlap A B = some .OVERLAP_END ↔
      ¬ (A.upper < B.lower ∨ B.upper < A.lower) ∧
      ¬ (B.lower ≤ A.lower ∧ A.upper ≤ B.upper) ∧
      ¬ (A.lower < B.lower ∧ A.upper > B.upper) ∧
      ¬ (A.lower ≥ B.lower ∧ A.upper > B.upper) ∧
      (A.lower < B.lower ∧ A.upper ≤ B.upper)) := by
  unfold get_overlap
  by_cases h1 : A.upper < B.lower ∨ B.upper < A.lower
  · rw [if_pos h1]
    simp [h1]
  · rw [if_neg h1]
    by_cases h2 : B.lower ≤ A.lower ∧ A.upper ≤ B.upper
    · rw [if_pos h2]
      simp [h1, h2]
    · rw [if_neg h2]
      by_cases h3 : A.lower < B.lower ∧ A.upper > B.upper
      · rw [if_pos h3]
        simp [h1, h2, h3]
      · rw [if_neg h3]
        by_cases h4 : A.lower ≥ B.lower ∧ A.upper > B.upper
        · rw [if_pos h4]
          simp [h1, h2, h3, h4]
        · rw [if_neg h4]
          by_cases h5 : A.lower < B.lower ∧ A.upper ≤ B.upper
          · rw [if_pos h5]
            simp [h1, h2, h3, h4, h5]
          · exfalso
            omega

/-- C12: for every interval `S` with `S.lower < S.upper` and bounds that fit
`unsigned int`, `split_shard(S)` returns `(L, R)` with `L.lower = S.lower`,
`R.upper = S.upper`, `L.upper + 1 = R.lower` and
`L.upper = S.lower + (S.upper - S.lower) / 2`; both halves are non-empty, and
the computation reduced modulo `2 ^ 32` at every step gives the same pair, so
no `unsigned int` operation overflows. -/
theorem split_shard_halves (S : shard) (h : S.lower < S.upper) (hu : S.upper < UINT_MOD) :
    ∃ L R, split_shard S = some (L, R) ∧ split_shard_u32 S = some (L, R) ∧
      L.lower = S.lower ∧ R.upper = S.upper ∧ L.upper + 1 = R.lower ∧
      L.upper = S.lower + (S.upper - S.lower) / 2 ∧
      L.lower ≤ L.upper ∧ R.lower ≤ R.upper ∧
      L.upper < UINT_MOD ∧ R.lower < UINT_MOD := by
  have e1 : (S.upper + UINT_MOD - S.lower) % UINT_MOD = S.upper - S.lower := by
    unfold UINT_MOD at *
    omega
  have e2 : (S.lower + (S.upper - S.lower) / 2) % UINT_MOD
      = S.lower + (S.upper - S.lower) / 2 := by
    unfold UINT_MOD at *
    omega
  have e3 : (S.lower + (S.upper - S.lower) / 2 + 1) % UINT_MOD
      = S.lower + (S.upper - S.lower) / 2 + 1 := by
    unfold UINT_MOD at *
    omega
  refine ⟨⟨S.lower, S.lower + (S.upper - S.lower) / 2⟩,
    ⟨S.lower + (S.upper - S.lower) / 2 + 1, S.upper⟩, ?_, ?_, rfl, rfl, rfl, rfl, ?_, ?_, ?_, ?_⟩
  · simp [split_shard, h]
  · simp [split_shard_u32, h, e1, e2, e3]
  · show S.lower ≤ S.lower + (S.upper - S.lower) / 2
    omega
  · show S.lower + (S.upper - S.lower) / 2 + 1 ≤ S.upper
    omega
  · show S.lower + (S.upper - S.lower) / 2 < UINT_MOD
    unfold UINT_MOD at *
    omega
  · show S.lower + (S.upper - S.lower) / 2 + 1 < UINT_MOD
    unfold UINT_MOD at *
    omega

/-- Witness of C12 on the interval `[0, 999]`. -/
theorem split_shard_halves_witness :
    ((⟨0, 999⟩ : shard).lower < (⟨0, 999⟩ : shard).upper ∧
      (⟨0, 999⟩ : shard).upper < UINT_MOD) ∧
    ∃ L R, split_shard ⟨0, 999⟩ = some (L, R) ∧ split_shard_u32 ⟨0, 999⟩ = some (L, R) ∧
      L.lower = (⟨0, 999⟩ : shard).lower ∧ R.upper = (⟨0, 999⟩ : shard).upper ∧
      L.upper + 1 = R.lower ∧
      L.upper = (⟨0, 999⟩ : shard).lower
        + ((⟨0, 999⟩ : shard).upper - (⟨0, 999⟩ : shard).lower) / 2 ∧
      L.lower ≤ L.upper ∧ R.lower ≤ R.upper ∧
      L.upper < UINT_MOD ∧ R.lower < UINT_MOD :=
  ⟨by decide, split_shard_halves ⟨0, 999⟩ (by decide) (by decide)⟩

/-- C13: in every configuration reached by Join, Leave and Move calls (with
any status, so whatever Moves preceded), after a Join that returns OK and
after a Leave that returns OK every member server holds exactly one
interval. -/
theorem single_interval_after_join_or_leave (sm sm' : StaticShardmaster)
    (hr : ReachableAny sm)
    (h : (∃ s, sm.Join s = some (.OK, sm')) ∨ (∃ l, sm.Leave l = some (.OK, sm'))) :
    ∀ k ∈ sm'.server_order, ∃ sh : shard, StdMap.find sm'.server_shard_map k = some [sh] := by
  have hc := reachableAny_consistent sm hr
  rcases h with ⟨s, hj⟩ | ⟨l, hl⟩
  · exact join_single_interval sm sm' s hc hj
  · obtain ⟨-, P, -, hcan⟩ := leave_consistent_canonical sm sm' l hc hl
    intro k hk
    obtain ⟨i, hi⟩ := List.mem_iff_getElem?.mp hk
    obtain ⟨sh, -, h2⟩ := hcan i k hi
    exact ⟨sh, h2⟩

/-- Witness of C13: `Join(B)` on the configuration `A:[11,999],[0,10]` left
by `Join(A)`, `Move(A, [0,10])`. -/
theorem single_interval_after_join_or_leave_witness :
    (ReachableAny ⟨["A"], [("A", [⟨11, 999⟩, ⟨0, 10⟩])]⟩ ∧
      ((∃ s, StaticShardmaster.Join ⟨["A"], [("A", [⟨11, 999⟩, ⟨0, 10⟩])]⟩ s
          = some (.OK, ⟨["A", "B"], [("A", [⟨0, 499⟩]), ("B", [⟨500, 999⟩])]⟩)) ∨
       (∃ l, StaticShardmaster.Leave ⟨["A"], [("A", [⟨11, 999⟩, ⟨0, 10⟩])]⟩ l
          = some (.OK, ⟨["A", "B"], [("A", [⟨0, 499⟩]), ("B", [⟨500, 999⟩])]⟩)))) ∧
    ∀ k ∈ (["A", "B"] : List String), ∃ sh : shard,
      StdMap.find [("A", [⟨0, 499⟩]), ("B", [⟨500, 999⟩])] k = some [sh] :=
  have hreach : ReachableAny ⟨["A"], [("A", [⟨11, 999⟩, ⟨0, 10⟩])]⟩ :=
    ReachableAny.step (.Move "A" ⟨0, 10⟩) .OK
      (ReachableAny.step (.Join "A") .OK ReachableAny.empty
        (show StaticShardmaster.empty.handle (.Join "A")
            = some (.OK, ⟨["A"], [("A", [⟨0, 999⟩])]⟩) by decide))
      (by decide)
  ⟨⟨hreach, Or.inl ⟨"B", by decide⟩⟩,
   single_interval_after_join_or_leave _
     ⟨["A", "B"], [("A", [⟨0, 499⟩]), ("B", [⟨500, 999⟩])]⟩ hreach
     (Or.inl ⟨"B", by decide⟩)⟩

/-- C14: after any sequence of Join, Leave and Move calls that return OK,
Query returns OK with one entry per member, in the order in which the
current members joined (`membersAfter`: a Join appends, a Leave removes the
leaving servers and keeps the order of the others), each entry carrying the
interval list stored for that server; the response is empty when there is
no member. -/
theorem query_in_join_order (reqs : List Request) (sm : StaticShardmaster)
    (h : StaticShardmaster.runOK reqs StaticShardmaster.empty = some sm) :
    ∃ entries, sm.Query = some (.OK, entries) ∧
      entries.map Prod.fst = membersAfter [] reqs ∧
      (∀ e ∈ entries, StdMap.find sm.server_shard_map e.1 = some e.2) ∧
      (membersAfter [] reqs = [] → entries = []) := by
  have hc0 : StaticShardmaster.empty.Consistent :=
    ⟨by simp [StaticShardmaster.empty], by simp [StaticShardmaster.empty],
      by simp [StaticShardmaster.empty]⟩
  obtain ⟨hc, ho⟩ := runOK_order reqs _ sm hc0 h
  have ho' : sm.server_order = membersAfter [] reqs := ho
  obtain ⟨entries, he⟩ := queryEntries_isSome sm.server_shard_map sm.server_order
    (fun k hk => find_ne_none_of_consistent sm hc k hk)
  obtain ⟨h1, h2⟩ := queryEntries_spec _ _ _ he
  by_cases hoe : sm.server_order = []
  · refine ⟨[], by simp [StaticShardmaster.Query, hoe], by simp [← ho', hoe], by simp,
      fun _ => rfl⟩
  · refine ⟨entries, by simp [StaticShardmaster.Query, hoe, he], by rw [h1, ho'], h2, ?_⟩
    intro hnil
    exact absurd (ho'.trans hnil) hoe

/-- Witness of C14: `Join(A)`, `Join(B)`, `Join(C)`, `Leave([B])`. -/
theorem query_in_join_order_witness :
    StaticShardmaster.runOK [.Join "A", .Join "B", .Join "C", .Leave ["B"]]
        StaticShardmaster.empty
      = some ⟨["A", "C"], [("A", [⟨0, 499⟩]), ("C", [⟨500, 999⟩])]⟩ ∧
    ∃ entries,
      StaticShardmaster.Query ⟨["A", "C"], [("A", [⟨0, 499⟩]), ("C", [⟨500, 999⟩])]⟩
        = some (.OK, entries) ∧
      entries.map Prod.fst
        = membersAfter [] [.Join "A", .Join "B", .Join "C", .Leave ["B"]] ∧
      (∀ e ∈ entries,
        StdMap.find [("A", [⟨0, 499⟩]), ("C", [⟨500, 999⟩])] e.1 = some e.2) ∧
      (membersAfter [] [.Join "A", .Join "B", .Join "C", .Leave ["B"]] = [] →
        entries = []) :=
  ⟨by decide,
   query_in_join_order [.Join "A", .Join "B", .Join "C", .Leave ["B"]]
     ⟨["A", "C"], [("A", [⟨0, 499⟩]), ("C", [⟨500, 999⟩])]⟩ (by decide)⟩

/-- C15: after `Join(A)`, `Join(B)`, the call `Move(A, [400, 999])`, whose
shard lies inside `[MIN_KEY, MAX_KEY]`, returns OK and leaves `B` with the
interval `[1000, 999]`, which is neither well-formed nor inside the key
space. -/
theorem move_leaves_ill_formed_interval :
    StaticShardmaster.runOK [.Join "A", .Join "B", .Move "A" ⟨400, 999⟩]
        StaticShardmaster.empty
      = some ⟨["A", "B"], [("A", [⟨0, 399⟩, ⟨400, 999⟩]), ("B", [⟨1000, 999⟩])]⟩ ∧
    (MIN_KEY ≤ 400 ∧ 400 ≤ 999 ∧ 999 ≤ MAX_KEY) ∧
    ¬ (∀ s ∈ StaticShardmaster.intervals
          ⟨["A", "B"], [("A", [⟨0, 399⟩, ⟨400, 999⟩]), ("B", [⟨1000, 999⟩])]⟩,
        MIN_KEY ≤ s.lower ∧ s.lower ≤ s.upper ∧ s.upper ≤ MAX_KEY) := by
  decide

/-- C16: in every shardmaster state reached from the empty one by Join,
Leave and Move calls that return, including those that return an error,
`server_order` has no duplicate, the keys of `server_shard_map` are distinct
and are exactly the addresses of `server_order`, and both have the same
size. -/
theorem order_map_consistent (sm : StaticShardmaster) (h : ReachableAny sm) :
    sm.server_order.Nodup ∧
    (sm.server_shard_map.map Prod.fst).Nodup ∧
    (∀ k, k ∈ sm.server_order ↔ k ∈ sm.server_shard_map.map Prod.fst) ∧
    sm.server_shard_map.length = sm.server_order.length := by
  have hc := reachableAny_consistent sm h
  exact ⟨hc.1, hc.2.1, fun k => (hc.2.2 k).symm, consistent_length sm hc⟩

/-- Witness of C16: the state left by `Join(A)`, `Join(B)` and the failing
`Leave([A, X])`. -/
theorem order_map_consistent_witness :
    ReachableAny ⟨["B"], [("B", [⟨500, 999⟩])]⟩ ∧
    ((["B"] : List String).Nodup ∧
      (([("B", [⟨500, 999⟩])] : List (String × List shard)).map Prod.fst).Nodup ∧
      (∀ k, k ∈ (["B"] : List String) ↔
        k ∈ ([("B", [⟨500, 999⟩])] : List (String × List shard)).map Prod.fst) ∧
      ([("B", [⟨500, 999⟩])] : List (String × List shard)).length
        = (["B"] : List String).length) :=
  have hreach : ReachableAny ⟨["B"], [("B", [⟨500, 999⟩])]⟩ :=
    ReachableAny.step (.Leave ["A", "X"])
      (.INVALID_ARGUMENT "ERR: LEAVE request server not found in config")
      (ReachableAny.step (.Join "B") .OK
        (ReachableAny.step (.Join "A") .OK ReachableAny.empty
          (show StaticShardmaster.empty.handle (.Join "A")
              = some (.OK, ⟨["A"], [("A", [⟨0, 999⟩])]⟩) by decide))
        (show StaticShardmaster.handle ⟨["A"], [("A", [⟨0, 999⟩])]⟩ (.Join "B")
            = some (.OK, ⟨["A", "B"], [("A", [⟨0, 499⟩]), ("B", [⟨500, 999⟩])]⟩) by decide))
      (by decide)
  ⟨hreach, order_map_consistent _ hreach⟩

/-- C17: for each of Get, Put, Append and Delete, when the key is non-empty,
is not `all_users`, and its extracted id lies in none of the local
intervals, the handler returns an invalid-argument error, sends no request
to a peer and leaves the state (`kv_store`, `local_shard`, `deleted`)
unchanged. -/
theorem not_responsible_rejected (s : ShardkvServer) (key : String) (id : Int)
    (hne : key ≠ "") (hau : key ≠ "all_users") (hid : extractID key = some id)
    (hloc : CheckInShard id s.local_shard = false) :
    (∃ msg, s.Get key = some (.INVALID_ARGUMENT msg, none)) ∧
    (∀ data user, ∃ msg, s.Put key data user = some (.INVALID_ARGUMENT msg, s, [])) ∧
    (∀ data, ∃ msg, s.Append key data = some (.INVALID_ARGUMENT msg, s, [])) ∧
    (∃ msg, s.Delete key = some (.INVALID_ARGUMENT msg, s, [])) := by
  refine ⟨⟨"ERR: server not responsible for key", ?_⟩,
    fun data user => ⟨"ERR: PUT request server not responsible for key", ?_⟩,
    fun data => ⟨"ERR: APPEND request server not responsible for id", ?_⟩,
    ⟨"ERR: DELETE request server not responsible for id", ?_⟩⟩
  · simp [ShardkvServer.Get, hne, hau, hid, hloc]
  · simp [ShardkvServer.Put, hne, hau, hid, hloc]
  · simp [ShardkvServer.Append, hne, hau, hid, hloc]
  · simp [ShardkvServer.Delete, hne, hau, hid, hloc]

/-- Witness of C17: the key `user_5` on a server whose local interval is
`[100, 200]`. -/
theorem not_responsible_rejected_witness :
    ("user_5" ≠ "" ∧ "user_5" ≠ "all_users" ∧ extractID "user_5" = some 5 ∧
      CheckInShard 5 [⟨100, 200⟩] = false) ∧
    ((∃ msg, ShardkvServer.Get ⟨"A", [("all_users", "")], [⟨100, 200⟩], [], []⟩ "user_5"
        = some (.INVALID_ARGUMENT msg, none)) ∧
     (∀ data user, ∃ msg,
        ShardkvServer.Put ⟨"A", [("all_users", "")], [⟨100, 200⟩], [], []⟩ "user_5" data user
          = some (.INVALID_ARGUMENT msg,
              ⟨"A", [("all_users", "")], [⟨100, 200⟩], [], []⟩, [])) ∧
     (∀ data, ∃ msg,
        ShardkvServer.Append ⟨"A", [("all_users", "")], [⟨100, 200⟩], [], []⟩ "user_5" data
          = some (.INVALID_ARGUMENT msg,
              ⟨"A", [("all_users", "")], [⟨100, 200⟩], [], []⟩, [])) ∧
     (∃ msg,
        ShardkvServer.Delete ⟨"A", [("all_users", "")], [⟨100, 200⟩], [], []⟩ "user_5"
          = some (.INVALID_ARGUMENT msg,
              ⟨"A", [("all_users", "")], [⟨100, 200⟩], [], []⟩, []))) :=
  ⟨by decide,
   not_responsible_rejected ⟨"A", [("all_users", "")], [⟨100, 200⟩], [], []⟩ "user_5" 5
     (by decide) (by decide) (by decide) (by decide)⟩

/-- C18 as stated fails: with 5 in the local intervals, `Put` and `Append`
on the key `foo_5` return OK, not an error, and so does `Put` on the key
`user_5_posts` with the user argument `user_5`. -/
theorem unclassified_key_not_rejected :
    ShardkvServer.Put ⟨"A", [("all_users", "")], [⟨0, 999⟩], [], []⟩ "foo_5" "x" ""
      = some (.OK, ⟨"A", [("all_users", "")], [⟨0, 999⟩], [], []⟩, []) ∧
    ShardkvServer.Append ⟨"A", [("all_users", "")], [⟨0, 999⟩], [], []⟩ "foo_5" "x"
      = some (.OK, ⟨"A", [("all_users", "")], [⟨0, 999⟩], [], []⟩, []) ∧
    ShardkvServer.Put ⟨"A", [("all_users", "")], [⟨0, 999⟩], [], []⟩ "user_5_posts" "x" "user_5"
      = some (.OK, ⟨"A", [("all_users", "")], [⟨0, 999⟩], [], []⟩, []) := by
  decide

/-- C18, amended: `Put` and `Append` do not reject a key for its form. For
every key that is non-empty and not `all_users`, whose extracted id is in the
local intervals and whose tokens are not `[user, t]`, `[post, t]` or
`[user, t, posts]` (for example `foo_5`), `Put` returns OK and leaves the
state unchanged without a peer call, and so does `Append` when the key is not
stored; `Delete` on such a key returns with the state unchanged and without a
peer call; and `Put` on a key `user_<n>_posts` with a non-empty user argument
and `n` in the local intervals returns OK and leaves the state unchanged. -/
theorem unclassified_key_ok_unchanged (s : ShardkvServer) :
    (∀ (key : String) (id : Int), key ≠ "" → key ≠ "all_users" → extractID key = some id →
      CheckInShard id s.local_shard = true →
      ¬ ((parse_value key "_")[0]? = some "user" ∧ (parse_value key "_").length = 2) →
      ¬ ((parse_value key "_")[0]? = some "post" ∧ (parse_value key "_").length = 2) →
      ¬ ((parse_value key "_").length = 3 ∧
        ((parse_value key "_")[0]? = some "user" ∧
          (parse_value key "_")[2]? = some "posts")) →
      (∀ data user, s.Put key data user = some (.OK, s, [])) ∧
      (StdMap.find s.kv_store key = none → ∀ data, s.Append key data = some (.OK, s, [])) ∧
      ∃ status, s.Delete key = some (status, s, [])) ∧
    (∀ (ds : List Char) (id : Int) (data user : String), Decimal ds →
      extractID (userPostsKey ds) = some id → CheckInShard id s.local_shard = true →
      user ≠ "" → s.Put (userPostsKey ds) data user = some (.OK, s, [])) := by
  refine ⟨fun key id hne hau hid hloc hU hP hUP => ?_,
    fun ds id data user hds hid hloc hu => put_userPosts_with_user s ds id data user hds hid hloc hu⟩
  obtain ⟨h1, h2, h3⟩ := unclassified_key_passes s key id hne hau hid hloc hU hP hUP
  exact ⟨h1, h2, .OK, h3⟩

/-- Witness of C18 on the key `foo_5`. -/
theorem unclassified_key_ok_unchanged_witness :
    ("foo_5" ≠ "" ∧ "foo_5" ≠ "all_users" ∧ extractID "foo_5" = some 5 ∧
      CheckInShard 5 [⟨0, 999⟩] = true ∧
      ¬ ((parse_value "foo_5" "_")[0]? = some "user" ∧ (parse_value "foo_5" "_").length = 2) ∧
      ¬ ((parse_value "foo_5" "_")[0]? = some "post" ∧ (parse_value "foo_5" "_").length = 2) ∧
      ¬ ((parse_value "foo_5" "_").length = 3 ∧
        ((parse_value "foo_5" "_")[0]? = some "user" ∧
          (parse_value "foo_5" "_")[2]? = some "posts"))) ∧
    ((∀ data user,
        ShardkvServer.Put ⟨"A", [("all_users", "")], [⟨0, 999⟩], [], []⟩ "foo_5" data user
          = some (.OK, ⟨"A", [("all_users", "")], [⟨0, 999⟩], [], []⟩, [])) ∧
     (StdMap.find [("all_users", "")] "foo_5" = none → ∀ data,
        ShardkvServer.Append ⟨"A", [("all_users", "")], [⟨0, 999⟩], [], []⟩ "foo_5" data
          = some (.OK, ⟨"A", [("all_users", "")], [⟨0, 999⟩], [], []⟩, [])) ∧
     ∃ status, ShardkvServer.Delete ⟨"A", [("all_users", "")], [⟨0, 999⟩], [], []⟩ "foo_5"
        = some (status, ⟨"A", [("all_users", "")], [⟨0, 999⟩], [], []⟩, [])) :=
  ⟨by decide,
   (unclassified_key_ok_unchanged ⟨"A", [("all_users", "")], [⟨0, 999⟩], [], []⟩).1 "foo_5" 5
     (by decide) (by decide) (by decide) (by decide) (by decide) (by decide) (by decide)⟩

/-- C19: for every integer `n` with `0 <= n <= 2^31 - 1`, written in
decimal, `extractID` returns `n` on the keys `user_<n>`, `post_<n>` and
`user_<n>_posts`. -/
theorem extractID_decimal_keys (n : Nat) (h : n ≤ 2147483647) :
    extractID ("user_" ++ toString n) = some (n : Int) ∧
    extractID ("post_" ++ toString n) = some (n : Int) ∧
    extractID ("user_" ++ toString n ++ "_posts") = some (n : Int) := by
  obtain ⟨hd, hv⟩ := toDigits_decimal n
  have hs : toString n = String.mk (Nat.toDigits 10 n) := rfl
  have hr : digitsValue (Nat.toDigits 10 n) ≤ 2147483647 := by rw [hv]; exact h
  have h1 := extractID_userKey _ hd hr
  have h2 := extractID_postKey _ hd hr
  have h3 := extractID_userPostsKey _ hd hr
  rw [hv] at h1 h2 h3
  rw [hs]
  exact ⟨h1, h2, h3⟩

/-- Witness of C19 for `n = 42`. -/
theorem extractID_decimal_keys_witness :
    (42 ≤ 2147483647) ∧
    (extractID ("user_" ++ toString 42) = some ((42 : Nat) : Int) ∧
      extractID ("post_" ++ toString 42) = some ((42 : Nat) : Int) ∧
      extractID ("user_" ++ toString 42 ++ "_posts") = some ((42 : Nat) : Int)) :=
  ⟨by decide, extractID_decimal_keys 42 (by decide)⟩

/-- C20: `Append(key, d)` on a key `user_<id>`, `user_<id>_posts` or
`post_<id>` whose extracted id is in the local intervals. If the key is stored
with value `w`, it returns OK and the value becomes `w` followed by `d`; if a
key `user_<id>_posts` is not stored, it returns OK and creates it with value
`d`; if a key `user_<id>` is not stored (and `all_users` is stored, with
value `au`), it returns OK, creates it with value `d` and `all_users` becomes
`au` followed by `user_<id>,`. In each case every other record, the local
intervals and the tombstone list are unchanged and no peer call is made. -/
theorem append_concatenates_or_creates (s : ShardkvServer) (ds : List Char) (d : String)
    (id : Int) (key : String) (hds : Decimal ds)
    (hkey : key = userKey ds ∨ key = userPostsKey ds ∨ key = postKey ds)
    (hid : extractID key = some id) (hloc : CheckInShard id s.local_shard = true) :
    (∀ w, StdMap.find s.kv_store key = some w →
      s.Append key d
          = some (.OK, { s with kv_store := StdMap.assign s.kv_store key (w ++ d) }, []) ∧
        StdMap.find (StdMap.assign s.kv_store key (w ++ d)) key = some (w ++ d) ∧
        ∀ k, k ≠ key →
          StdMap.find (StdMap.assign s.kv_store key (w ++ d)) k = StdMap.find s.kv_store k) ∧
    (key = userPostsKey ds → StdMap.find s.kv_store key = none →
      s.Append key d
          = some (.OK, { s with kv_store := StdMap.insert s.kv_store key d }, []) ∧
        StdMap.find (StdMap.insert s.kv_store key d) key = some d ∧
        ∀ k, k ≠ key →
          StdMap.find (StdMap.insert s.kv_store key d) k = StdMap.find s.kv_store k) ∧
    (key = userKey ds → StdMap.find s.kv_store key = none →
      ∀ au, StdMap.find s.kv_store "all_users" = some au →
        s.Append key d
          = some (.OK,
              ⟨s.address,
                StdMap.assign (StdMap.insert s.kv_store key d) "all_users" (au ++ key ++ ","),
                s.local_shard, s.server_shard_map, s.deleted⟩, []) ∧
        StdMap.find (StdMap.assign (StdMap.insert s.kv_store key d) "all_users"
            (au ++ key ++ ",")) key = some d ∧
        StdMap.find (StdMap.assign (StdMap.insert s.kv_store key d) "all_users"
            (au ++ key ++ ",")) "all_users" = some (au ++ key ++ ",") ∧
        ∀ k, k ≠ key → k ≠ "all_users" →
          StdMap.find (StdMap.assign (StdMap.insert s.kv_store key d) "all_users"
            (au ++ key ++ ",")) k = StdMap.find s.kv_store k) := by
  refine ⟨fun w hf => ⟨Append_stored s ds key d w id hds hkey hid hloc hf,
      StdMap.find_assign_self _ _ _ _ hf,
      fun k hk => StdMap.find_assign_ne _ _ _ _ (Ne.symm hk)⟩, ?_, ?_⟩
  · rintro rfl hf
    exact ⟨Append_userPosts_absent s ds d id hds hid hloc hf,
      StdMap.find_insert_self _ _ _ hf,
      fun k hk => StdMap.find_insert_ne _ _ _ _ (Ne.symm hk)⟩
  · rintro rfl hf au hall
    have hall' : StdMap.find (StdMap.insert s.kv_store (userKey ds) d) "all_users"
        = some au := by
      rw [StdMap.find_insert_ne _ _ _ _ (userKey_ne_all_users ds)]
      exact hall
    refine ⟨Append_user_absent s ds d au id hds hid hloc hf hall, ?_,
      StdMap.find_assign_self _ _ _ _ hall', ?_⟩
    · rw [StdMap.find_assign_ne _ _ _ _ (Ne.symm (userKey_ne_all_users ds))]
      exact StdMap.find_insert_self _ _ _ hf
    · intro k hk hka
      rw [StdMap.find_assign_ne _ _ _ _ (Ne.symm hka),
        StdMap.find_insert_ne _ _ _ _ (Ne.symm hk)]

/-- Witness of C20: `Append(user_5, n)` on a server that stores `user_1`. -/
theorem append_concatenates_or_creates_witness :
    (Decimal ['5'] ∧
      ("user_5" = userKey ['5'] ∨ "user_5" = userPostsKey ['5'] ∨ "user_5" = postKey ['5']) ∧
      extractID "user_5" = some 5 ∧ CheckInShard 5 [⟨0, 999⟩] = true) ∧
    ShardkvServer.Append
        ⟨"A", [("all_users", "user_1,"), ("user_1", "a")], [⟨0, 999⟩], [], []⟩ "user_5" "n"
      = some (.OK,
          ⟨"A", [("all_users", "user_1,user_5,"), ("user_1", "a"), ("user_5", "n")],
            [⟨0, 999⟩], [], []⟩, []) :=
  ⟨by decide,
   ((append_concatenates_or_creates
        ⟨"A", [("all_users", "user_1,"), ("user_1", "a")], [⟨0, 999⟩], [], []⟩
        ['5'] "n" 5 "user_5" (by decide) (by decide) (by decide) (by decide)).2.2
      (by decide) (by decide) "user_1," (by decide)).1⟩

/-- C21: `Append(post_<id>, d)` with the extracted id in the local intervals
returns an invalid-argument error when `post_<id>` is not stored, and leaves
the state (the store with its `all_users` record, the local intervals and
the tombstone list) unchanged; no peer call is made. -/
theorem append_absent_post_rejected (s : ShardkvServer) (ds : List Char) (d : String)
    (id : Int) (hds : Decimal ds) (hid : extractID (postKey ds) = some id)
    (hloc : CheckInShard id s.local_shard = true)
    (hf : StdMap.find s.kv_store (postKey ds) = none) :
    s.Append (postKey ds) d
      = some (.INVALID_ARGUMENT
          "ERR: APPEND request cannot handle post_id without user_id specified", s, []) := by
  simp only [ShardkvServer.Append, postKey_ne_empty, postKey_ne_all_users, if_false,
    parse_value_postKey ds hds, hid, hloc, hf]
  simp

/-- Witness of C21: `Append(post_7, x)` on a server that stores `user_1`
only. -/
theorem append_absent_post_rejected_witness :
    (Decimal ['7'] ∧ extractID (postKey ['7']) = some 7 ∧
      CheckInShard 7 [⟨0, 999⟩] = true ∧
      StdMap.find [("all_users", "user_1,"), ("user_1", "a")] (postKey ['7']) = none) ∧
    ShardkvServer.Append
        ⟨"A", [("all_users", "user_1,"), ("user_1", "a")], [⟨0, 999⟩], [], []⟩ (postKey ['7']) "x"
      = some (.INVALID_ARGUMENT
          "ERR: APPEND request cannot handle post_id without user_id specified",
          ⟨"A", [("all_users", "user_1,"), ("user_1", "a")], [⟨0, 999⟩], [], []⟩, []) :=
  ⟨by decide,
   append_absent_post_rejected
     ⟨"A", [("all_users", "user_1,"), ("user_1", "a")], [⟨0, 999⟩], [], []⟩ ['7'] "x" 7
     (by decide) (by decide) (by decide) (by decide)⟩

/-- C22: `Put(post_<p>, body, user_<u>)` with `p` and `u` both in the local
intervals. If `post_<p>` is not stored (and `user_<u>` or `all_users` is
stored), the call returns OK without a peer call, and afterwards `post_<p>`
maps to `body`, `user_<u>` is stored (with the empty value if it was absent,
and then `all_users` is its previous value followed by `user_<u>,`; with its
previous value otherwise, and then `all_users` is unchanged),
`user_<u>_posts` is its previous value (empty if absent) followed by
`post_<p>,`, and every other record, the local intervals and the tombstone
list are unchanged. If `post_<p>` is already stored, the call returns OK
without a peer call and only the value of `post_<p>` changes. -/
theorem put_post_with_local_user (s : ShardkvServer) (dp du : List Char) (body : String)
    (pid uid : Int) (hdp : Decimal dp) (hdu : Decimal du)
    (hpid : extractID (postKey dp) = some pid) (hploc : CheckInShard pid s.local_shard = true)
    (huid : extractID (userKey du) = some uid) (huloc : CheckInShard uid s.local_shard = true) :
    (StdMap.find s.kv_store (postKey dp) = none →
      (StdMap.find s.kv_store (userKey du) ≠ none ∨
        StdMap.find s.kv_store "all_users" ≠ none) →
      ∃ kv, s.Put (postKey dp) body (userKey du)
          = some (.OK, ⟨s.address, kv, s.local_shard, s.server_shard_map, s.deleted⟩, []) ∧
        StdMap.find kv (postKey dp) = some body ∧
        StdMap.find kv (userKey du) = some ((StdMap.find s.kv_store (userKey du)).getD "") ∧
        StdMap.find kv "all_users" =
          (if StdMap.find s.kv_store (userKey du) = none then
            (StdMap.find s.kv_store "all_users").map (fun au => au ++ userKey du ++ ",")
          else StdMap.find s.kv_store "all_users") ∧
        StdMap.find kv (userPostsKey du) =
          some ((StdMap.find s.kv_store (userPostsKey du)).getD "" ++ postKey dp ++ ",") ∧
        ∀ k, k ≠ postKey dp → k ≠ userKey du → k ≠ "all_users" → k ≠ userPostsKey du →
          StdMap.find kv k = StdMap.find s.kv_store k) ∧
    (∀ w, StdMap.find s.kv_store (postKey dp) = some w →
      s.Put (postKey dp) body (userKey du)
          = some (.OK,
              ⟨s.address, StdMap.assign s.kv_store (postKey dp) body, s.local_shard,
                s.server_shard_map, s.deleted⟩, []) ∧
        StdMap.find (StdMap.assign s.kv_store (postKey dp) body) (postKey dp) = some body ∧
        ∀ k, k ≠ postKey dp →
          StdMap.find (StdMap.assign s.kv_store (postKey dp) body) k
            = StdMap.find s.kv_store k) := by
  have hpp : (parse_value (postKey dp) "_")[0]? = some "post" ∧
      (parse_value (postKey dp) "_").length = 2 := by
    rw [parse_value_postKey dp hdp]
    exact ⟨rfl, rfl⟩
  have hput := Put_post_user s (postKey dp) body (userKey du) pid (postKey_ne_empty dp)
    (postKey_ne_all_users dp) hpid hploc hpp (userKey_ne_empty du)
  have hup : userKey du ≠ postKey dp := userKey_ne_postKey du dp
  have hupp : userKey du ++ "_posts" ≠ postKey dp := postKey_ne_append_posts dp hdp _
  have huup : userKey du ++ "_posts" ≠ userKey du := userKey_ne_append_posts du hdu _
  have hupa : userKey du ++ "_posts" ≠ "all_users" := userPostsKey_ne_all_users du
  have hkey : userPostsKey du = userKey du ++ "_posts" := rfl
  refine ⟨fun hf hst => ?_, fun w hf => ⟨?_, StdMap.find_assign_self _ _ _ _ hf,
    fun k hk => StdMap.find_assign_ne _ _ _ _ (Ne.symm hk)⟩⟩
  · rw [hput]
    simp only [hf, huid, huloc, Bool.true_eq_false, if_false]
    have hk1 : StdMap.find (StdMap.insert s.kv_store (postKey dp) body) (postKey dp)
        = some body := StdMap.find_insert_self _ _ _ hf
    have hk1u : StdMap.find (StdMap.insert s.kv_store (postKey dp) body) (userKey du)
        = StdMap.find s.kv_store (userKey du) := StdMap.find_insert_ne _ _ _ _ (Ne.symm hup)
    rw [hk1u]
    -- the store after the user has been looked up, and its records
    have hkv2 : ∃ kv2,
        (match StdMap.find s.kv_store (userKey du) with
          | none =>
            appendAllUsers
              (StdMap.insert (StdMap.insert s.kv_store (postKey dp) body) (userKey du) "")
              (userKey du)
          | some _ => some (StdMap.insert s.kv_store (postKey dp) body)) = some kv2 ∧
        StdMap.find kv2 (postKey dp) = some body ∧
        StdMap.find kv2 (userKey du) = some ((StdMap.find s.kv_store (userKey du)).getD "") ∧
        StdMap.find kv2 "all_users" =
          (if StdMap.find s.kv_store (userKey du) = none then
            (StdMap.find s.kv_store "all_users").map (fun au => au ++ userKey du ++ ",")
          else StdMap.find s.kv_store "all_users") ∧
        ∀ k, k ≠ postKey dp → k ≠ userKey du → k ≠ "all_users" →
          StdMap.find kv2 k = StdMap.find s.kv_store k := by
      cases hfu : StdMap.find s.kv_store (userKey du) with
      | some uv =>
        refine ⟨_, rfl, hk1, ?_, ?_, ?_⟩
        · rw [hk1u, hfu]
          rfl
        · rw [StdMap.find_insert_ne _ _ _ _ (postKey_ne_all_users dp)]
          simp
        · intro k hk _ _
          exact StdMap.find_insert_ne _ _ _ _ (Ne.symm hk)
      | none =>
        have hau : ∃ au, StdMap.find s.kv_store "all_users" = some au := by
          rcases hst with h | h
          · exact absurd hfu h
          · cases ha : StdMap.find s.kv_store "all_users" with
            | none => exact absurd ha h
            | some au => exact ⟨au, rfl⟩
        obtain ⟨au, hau⟩ := hau
        have hau2 : StdMap.find
            (StdMap.insert (StdMap.insert s.kv_store (postKey dp) body) (userKey du) "")
            "all_users" = some au := by
          rw [StdMap.find_insert_ne _ _ _ _ (userKey_ne_all_users du),
            StdMap.find_insert_ne _ _ _ _ (postKey_ne_all_users dp)]
          exact hau
        refine ⟨StdMap.assign
            (StdMap.insert (StdMap.insert s.kv_store (postKey dp) body) (userKey du) "")
            "all_users" (au ++ userKey du ++ ","), ?_, ?_, ?_, ?_, ?_⟩
        · simp only [appendAllUsers, hau2]
        · rw [StdMap.find_assign_ne _ _ _ _ (Ne.symm (postKey_ne_all_users dp)),
            StdMap.find_insert_ne _ _ _ _ hup]
          exact hk1
        · rw [StdMap.find_assign_ne _ _ _ _ (Ne.symm (userKey_ne_all_users du)),
            StdMap.find_insert_self _ _ _ (by rw [hk1u]; exact hfu)]
          rfl
        · rw [StdMap.find_assign_self _ _ _ _ hau2, hau]
          simp
        · intro k hk hku hka
          rw [StdMap.find_assign_ne _ _ _ _ (Ne.symm hka),
            StdMap.find_insert_ne _ _ _ _ (Ne.symm hku),
            StdMap.find_insert_ne _ _ _ _ (Ne.symm hk)]
    obtain ⟨kv2, h2, hp2, hu2, ha2, ho2⟩ := hkv2
    rw [h2]
    have hpo2 : StdMap.find kv2 (userKey du ++ "_posts")
        = StdMap.find s.kv_store (userKey du ++ "_posts") := ho2 _ hupp huup hupa
    simp only [hkey]
    cases hfp : StdMap.find kv2 (userKey du ++ "_posts") with
    | none =>
      refine ⟨_, rfl, ?_, ?_, ?_, ?_, ?_⟩
      · rw [StdMap.find_insert_ne _ _ _ _ hupp]
        exact hp2
      · rw [StdMap.find_insert_ne _ _ _ _ huup]
        exact hu2
      · rw [StdMap.find_insert_ne _ _ _ _ hupa]
        exact ha2
      · rw [StdMap.find_insert_self _ _ _ hfp, ← hpo2, hfp]
        simp
      · intro k hk hku hka hkp
        rw [StdMap.find_insert_ne _ _ _ _ (Ne.symm hkp)]
        exact ho2 k hk hku hka
    | some v =>
      refine ⟨_, rfl, ?_, ?_, ?_, ?_, ?_⟩
      · rw [StdMap.find_assign_ne _ _ _ _ hupp]
        exact hp2
      · rw [StdMap.find_assign_ne _ _ _ _ huup]
        exact hu2
      · rw [StdMap.find_assign_ne _ _ _ _ hupa]
        exact ha2
      · rw [StdMap.find_assign_self _ _ _ _ hfp, ← hpo2, hfp]
        simp
      · intro k hk hku hka hkp
        rw [StdMap.find_assign_ne _ _ _ _ (Ne.symm hkp)]
        exact ho2 k hk hku hka
  · rw [hput]
    simp only [hf]

/-- Witness of C22: `Put(post_7, hi, user_5)` on a server that stores
`user_1` only. -/
theorem put_post_with_local_user_witness :
    (Decimal ['7'] ∧ Decimal ['5'] ∧ extractID (postKey ['7']) = some 7 ∧
      CheckInShard 7 [⟨0, 999⟩] = true ∧ extractID (userKey ['5']) = some 5 ∧
      CheckInShard 5 [⟨0, 999⟩] = true ∧
      StdMap.find [("all_users", "user_1,"), ("user_1", "a")] (postKey ['7']) = none) ∧
    ShardkvServer.Put
        ⟨"A", [("all_users", "user_1,"), ("user_1", "a")], [⟨0, 999⟩], [], []⟩
        (postKey ['7']) "hi" (userKey ['5'])
      = some (.OK,
          ⟨"A", [("all_users", "user_1,user_5,"), ("post_7", "hi"), ("user_1", "a"),
              ("user_5", ""), ("user_5_posts", "post_7,")], [⟨0, 999⟩], [], []⟩, []) ∧
    ∃ kv, StdMap.find kv (userPostsKey ['5']) = some ("" ++ postKey ['7'] ++ ",") :=
  ⟨by decide, by decide,
   ((put_post_with_local_user
        ⟨"A", [("all_users", "user_1,"), ("user_1", "a")], [⟨0, 999⟩], [], []⟩
        ['7'] ['5'] "hi" 7 5 (by decide) (by decide) (by decide) (by decide) (by decide)
        (by decide)).1 (by decide) (Or.inr (by decide))).imp
      (fun _ h => h.2.2.2.2.1)⟩

/-- C23: on a store without repeated keys and a response that lists every
server once, a reconciler pass completes when the response lists this
server, `all_users` lists the stored users and every other stored key is
readable (as the keys of the schema are); and after every pass that
completes, the local intervals are this server's interval list in the
response, the `all_users` record is stored, and the other stored records are
exactly the previously stored records whose id lies in the new local
intervals, each with its value unchanged, so that no record with an id
outside the local intervals remains. -/
theorem reconcile_keeps_local_records (s : ShardkvServer)
    (config : List (String × List shard))
    (hkv : (s.kv_store.map Prod.fst).Nodup) (hcfg : (config.map Prod.fst).Nodup) :
    (∀ (loc : List shard) (l : List String), StdMap.find config s.address = some loc →
      ListsUsers s.kv_store l →
      (∀ e ∈ s.kv_store, e.1 ≠ "all_users" → readableKey e.1) →
      ∃ s' calls, s.QueryShardmaster (some config) = some (s', calls)) ∧
    (∀ (s' : ShardkvServer) (calls : List PeerCall),
      s.QueryShardmaster (some config) = some (s', calls) →
      StdMap.find config s.address = some s'.local_shard ∧
      (∃ au, StdMap.find s'.kv_store "all_users" = some au) ∧
      (∀ k v, k ≠ "all_users" →
        (StdMap.find s'.kv_store k = some v ↔
          StdMap.find s.kv_store k = some v ∧
            ∃ id, extractID k = some id ∧ CheckInShard id s'.local_shard = true))) := by
  refine ⟨fun loc l hloc hl hread =>
    QueryShardmaster_completes s config loc l hkv hcfg hloc hl hread, fun s' calls h => ?_⟩
  obtain ⟨-, -, -, hloc, -, -, hau, hfind, -⟩ := QueryShardmaster_spec s s' config calls hkv hcfg h
  refine ⟨hloc, ?_, fun k v hk => ?_⟩
  · cases hf : StdMap.find s'.kv_store "all_users" with
    | none => exact absurd hf hau
    | some au => exact ⟨au, rfl⟩
  · rw [hfind k hk]
    unfold idInShards
    cases hid : extractID k with
    | none => simp
    | some id =>
      by_cases hc : CheckInShard id s'.local_shard = true
      · simp [hc]
      · simp [hc]

/-- Witness of C23: server `A` holds users 1 and 600 and a post 700 under
`[0, 999]`; the response gives `A:[0,499]`, `B:[500,999]`. -/
theorem reconcile_keeps_local_records_witness :
    ((List.map Prod.fst [("all_users", "user_1,user_600,"), ("post_700", "p"), ("user_1", "a"),
        ("user_600", "b"), ("user_600_posts", "post_700,")]).Nodup ∧
      (List.map Prod.fst [("A", [(⟨0, 499⟩ : shard)]), ("B", [⟨500, 999⟩])]).Nodup ∧
      StdMap.find [("A", [(⟨0, 499⟩ : shard)]), ("B", [⟨500, 999⟩])] "A" = some [⟨0, 499⟩] ∧
      ListsUsers [("all_users", "user_1,user_600,"), ("post_700", "p"), ("user_1", "a"),
        ("user_600", "b"), ("user_600_posts", "post_700,")] ["user_1", "user_600"] ∧
      ShardkvServer.QueryShardmaster
          ⟨"A", [("all_users", "user_1,user_600,"), ("post_700", "p"), ("user_1", "a"),
            ("user_600", "b"), ("user_600_posts", "post_700,")], [⟨0, 999⟩], [], []⟩
          (some [("A", [⟨0, 499⟩]), ("B", [⟨500, 999⟩])])
        = some (⟨"A", [("all_users", "user_1,"), ("user_1", "a")], [⟨0, 499⟩],
            [("A", [⟨0, 499⟩]), ("B", [⟨500, 999⟩])], []⟩,
          [PeerCall.Put "B" "post_700" "p" "", PeerCall.Put "B" "user_600" "b" "",
            PeerCall.Put "B" "user_600_posts" "post_700," ""])) ∧
    (∃ s' calls, ShardkvServer.QueryShardmaster
        ⟨"A", [("all_users", "user_1,user_600,"), ("post_700", "p"), ("user_1", "a"),
          ("user_600", "b"), ("user_600_posts", "post_700,")], [⟨0, 999⟩], [], []⟩
        (some [("A", [⟨0, 499⟩]), ("B", [⟨500, 999⟩])]) = some (s', calls)) ∧
    ∃ au, StdMap.find [("all_users", "user_1,"), ("user_1", "a")] "all_users" = some au :=
  ⟨⟨by decide, by decide, by decide, by decide, by decide⟩,
   (reconcile_keeps_local_records
      ⟨"A", [("all_users", "user_1,user_600,"), ("post_700", "p"), ("user_1", "a"),
        ("user_600", "b"), ("user_600_posts", "post_700,")], [⟨0, 999⟩], [], []⟩
      [("A", [⟨0, 499⟩]), ("B", [⟨500, 999⟩])] (by decide) (by decide)).1
      [⟨0, 499⟩] ["user_1", "user_600"] (by decide) (by decide) (by decide),
   ((reconcile_keeps_local_records
      ⟨"A", [("all_users", "user_1,user_600,"), ("post_700", "p"), ("user_1", "a"),
        ("user_600", "b"), ("user_600_posts", "post_700,")], [⟨0, 999⟩], [], []⟩
      [("A", [⟨0, 499⟩]), ("B", [⟨500, 999⟩])] (by decide) (by decide)).2
      ⟨"A", [("all_users", "user_1,"), ("user_1", "a")], [⟨0, 499⟩],
        [("A", [⟨0, 499⟩]), ("B", [⟨500, 999⟩])], []⟩
      [PeerCall.Put "B" "post_700" "p" "", PeerCall.Put "B" "user_600" "b" "",
        PeerCall.Put "B" "user_600_posts" "post_700," ""]
      (by decide)).2.1⟩

/-- C24 as stated fails: `Move` accepts any interval, so after `Join(A)`,
`Join(B)`, `Move(A, [2000, 3000])` server `A` (whose pass takes
`[0,499],[2000,3000]` as local intervals) accepts `Put(user_2500, z)`. After
`Join(C)` the configuration is `A:[0,333]`, `B:[334,666]`, `C:[667,999]`,
pairwise disjoint and covering `[0, 999]`; in the pass over it the record
`user_2500`, whose id is outside the local intervals, is removed and no
request is sent. -/
theorem reconcile_drops_record_without_owner :
    (StaticShardmaster.runOK [.Join "A", .Join "B", .Move "A" ⟨2000, 3000⟩]
        StaticShardmaster.empty).bind StaticShardmaster.Query
      = some (.OK, [("A", [⟨0, 499⟩, ⟨2000, 3000⟩]), ("B", [⟨500, 999⟩])]) ∧
    ShardkvServer.QueryShardmaster ⟨"A", [("all_users", "")], [], [], []⟩
        (some [("A", [⟨0, 499⟩, ⟨2000, 3000⟩]), ("B", [⟨500, 999⟩])])
      = some (⟨"A", [("all_users", "")], [⟨0, 499⟩, ⟨2000, 3000⟩],
          [("A", [⟨0, 499⟩, ⟨2000, 3000⟩]), ("B", [⟨500, 999⟩])], []⟩, []) ∧
    ShardkvServer.Put
        ⟨"A", [("all_users", "")], [⟨0, 499⟩, ⟨2000, 3000⟩],
          [("A", [⟨0, 499⟩, ⟨2000, 3000⟩]), ("B", [⟨500, 999⟩])], []⟩ "user_2500" "z" ""
      = some (.OK,
          ⟨"A", [("all_users", "user_2500,"), ("user_2500", "z")], [⟨0, 499⟩, ⟨2000, 3000⟩],
            [("A", [⟨0, 499⟩, ⟨2000, 3000⟩]), ("B", [⟨500, 999⟩])], []⟩, []) ∧
    (StaticShardmaster.runOK [.Join "A", .Join "B", .Move "A" ⟨2000, 3000⟩, .Join "C"]
        StaticShardmaster.empty).bind StaticShardmaster.Query
      = some (.OK, [("A", [⟨0, 333⟩]), ("B", [⟨334, 666⟩]), ("C", [⟨667, 999⟩])]) ∧
    PairwiseDisjoint
      (List.flatMap [("A", [(⟨0, 333⟩ : shard)]), ("B", [⟨334, 666⟩]), ("C", [⟨667, 999⟩])]
        Prod.snd) ∧
    Covers
      (List.flatMap [("A", [(⟨0, 333⟩ : shard)]), ("B", [⟨334, 666⟩]), ("C", [⟨667, 999⟩])]
        Prod.snd)
      MIN_KEY MAX_KEY ∧
    ShardkvServer.QueryShardmaster
        ⟨"A", [("all_users", "user_2500,"), ("user_2500", "z")], [⟨0, 499⟩, ⟨2000, 3000⟩],
          [("A", [⟨0, 499⟩, ⟨2000, 3000⟩]), ("B", [⟨500, 999⟩])], []⟩
        (some [("A", [⟨0, 333⟩]), ("B", [⟨334, 666⟩]), ("C", [⟨667, 999⟩])])
      = some (⟨"A", [("all_users", "")], [⟨0, 333⟩],
          [("A", [⟨0, 333⟩]), ("B", [⟨334, 666⟩]), ("C", [⟨667, 999⟩])], []⟩, []) := by
  refine ⟨by decide, by decide, by decide, by decide, by decide, ?_, by decide⟩
  intro k
  simp only [List.flatMap_cons, List.flatMap_nil, List.singleton_append, List.append_nil,
    List.mem_cons, List.mem_singleton, List.not_mem_nil, or_false, exists_eq_or_imp,
    exists_eq_left, shard.contains, MIN_KEY, MAX_KEY]
  omega

/-- C24, amended: take a response whose intervals are pairwise disjoint and
cover `[MIN_KEY, MAX_KEY]` (each server listed once; the store has no
repeated key). The reconciler pass over it completes when the response lists
this server, `all_users` lists the stored users and every other stored key
is readable. In every pass that completes, every stored record other than
`all_users` has an id. If the id is in the new local intervals, the record
is kept with its value and no request carries its key. If the id is outside
the new local intervals and inside `[MIN_KEY, MAX_KEY]`, exactly one request
carries its key: a `Put` with the key, the stored value and an empty user,
addressed to the only server of the response whose intervals contain the id.
No record with an id in `[MIN_KEY, MAX_KEY]` is removed without having been
sent. -/
theorem reconcile_sends_each_migrated_record_once (s : ShardkvServer)
    (config : List (String × List shard))
    (hkv : (s.kv_store.map Prod.fst).Nodup) (hcfg : (config.map Prod.fst).Nodup)
    (hd : PairwiseDisjoint (config.flatMap Prod.snd))
    (hcov : Covers (config.flatMap Prod.snd) MIN_KEY MAX_KEY) :
    (∀ (loc : List shard) (l : List String), StdMap.find config s.address = some loc →
      ListsUsers s.kv_store l →
      (∀ e ∈ s.kv_store, e.1 ≠ "all_users" → readableKey e.1) →
      ∃ s' calls, s.QueryShardmaster (some config) = some (s', calls)) ∧
    ∀ (s' : ShardkvServer) (calls : List PeerCall),
      s.QueryShardmaster (some config) = some (s', calls) →
    ∀ k v, k ≠ "all_users" → StdMap.find s.kv_store k = some v →
      ∃ id, extractID k = some id ∧
        (CheckInShard id s'.local_shard = true →
          StdMap.find s'.kv_store k = some v ∧
            calls.filter (fun c => decide (c.key = k)) = []) ∧
        (CheckInShard id s'.local_shard = false → (MIN_KEY : Int) ≤ id → id ≤ (MAX_KEY : Int) →
          ∃ server shards, StdMap.find config server = some shards ∧
            CheckInShard id shards = true ∧
            (∀ server' shards', (server', shards') ∈ config →
              CheckInShard id shards' = true → server' = server) ∧
            calls.filter (fun c => decide (c.key = k)) = [PeerCall.Put server k v ""]) ∧
        (StdMap.find s'.kv_store k = none → (MIN_KEY : Int) ≤ id → id ≤ (MAX_KEY : Int) →
          ∃ server, PeerCall.Put server k v "" ∈ calls) := by
  refine ⟨fun loc l hloc hl hread =>
    QueryShardmaster_completes s config loc l hkv hcfg hloc hl hread, ?_⟩
  intro s' calls h k v hk hf
  obtain ⟨-, -, hmap, -, hids, -, -, hfind, hcalls⟩ :=
    QueryShardmaster_spec s s' config calls hkv hcfg h
  obtain ⟨id, hid⟩ : ∃ id, extractID k = some id := by
    cases hx : extractID k with
    | none => exact absurd hx (hids (k, v) (StdMap.mem_of_find _ _ _ hf) hk)
    | some id => exact ⟨id, rfl⟩
  have hperm : s'.server_shard_map.Perm config := by
    rw [hmap]
    simpa using configMap_perm config [] hcfg (fun e _ => rfl)
  have hd' : PairwiseDisjoint (s'.server_shard_map.flatMap Prod.snd) :=
    (List.Perm.pairwise_iff (fun h => Or.symm h) (hperm.flatMap_right _)).2 hd
  have hcov' : Covers (s'.server_shard_map.flatMap Prod.snd) MIN_KEY MAX_KEY := by
    intro n
    rw [← hcov n]
    constructor
    · rintro ⟨sh, hsh, hc⟩
      exact ⟨sh, (hperm.flatMap_right _).mem_iff.1 hsh, hc⟩
    · rintro ⟨sh, hsh, hc⟩
      exact ⟨sh, (hperm.flatMap_right _).mem_iff.2 hsh, hc⟩
  have hfilter := calls_of_key s'.local_shard s'.server_shard_map k s.kv_store hkv
  rw [← hcalls, hf] at hfilter
  have hkept : CheckInShard id s'.local_shard = true →
      StdMap.find s'.kv_store k = some v ∧
        calls.filter (fun c => decide (c.key = k)) = [] := by
    intro hin
    refine ⟨?_, ?_⟩
    · rw [hfind k hk]
      simp [idInShards, hid, hin, hf]
    · rw [hfilter]
      simp [migrationCalls, hk, hid, hin]
  have hsent : CheckInShard id s'.local_shard = false → (MIN_KEY : Int) ≤ id →
      id ≤ (MAX_KEY : Int) →
      ∃ server shards, StdMap.find config server = some shards ∧
        CheckInShard id shards = true ∧
        (∀ server' shards', (server', shards') ∈ config →
          CheckInShard id shards' = true → server' = server) ∧
        calls.filter (fun c => decide (c.key = k)) = [PeerCall.Put server k v ""] := by
    intro hout h1 h2
    obtain ⟨e, he, hpe, hfe⟩ := unique_owner s'.server_shard_map id hd' hcov' h1 h2
    refine ⟨e.1, e.2, StdMap.find_of_mem config e.1 e.2 hcfg (hperm.mem_iff.1 he), hpe, ?_, ?_⟩
    · intro server' shards' hmem hin
      have : (server', shards') ∈
          s'.server_shard_map.filter (fun server => CheckInShard id server.2) :=
        List.mem_filter.2 ⟨hperm.mem_iff.2 hmem, hin⟩
      rw [hfe, List.mem_singleton] at this
      rw [← this]
    · rw [hfilter]
      simp [migrationCalls, hk, hid, hout, hfe]
  refine ⟨id, hid, hkept, hsent, ?_⟩
  intro hgone h1 h2
  by_cases hin : CheckInShard id s'.local_shard = true
  · rw [(hkept hin).1] at hgone
    exact absurd hgone (by simp)
  · obtain ⟨server, shards, -, -, -, hc⟩ := hsent (by simpa using hin) h1 h2
    refine ⟨server, ?_⟩
    have : PeerCall.Put server k v "" ∈ calls.filter (fun c => decide (c.key = k)) := by
      rw [hc]
      exact List.mem_singleton_self _
    exact (List.mem_filter.1 this).1

/-- Witness of C24: server `A` holds users 1 and 600 and a post 700 under
`[0, 999]`; the response gives `A:[0,499]`, `B:[500,999]`, and the record
`user_600` is sent once, to `B`. -/
theorem reconcile_sends_each_migrated_record_once_witness :
    ((List.map Prod.fst [("all_users", "user_1,user_600,"), ("post_700", "p"), ("user_1", "a"),
        ("user_600", "b"), ("user_600_posts", "post_700,")]).Nodup ∧
      (List.map Prod.fst [("A", [(⟨0, 499⟩ : shard)]), ("B", [⟨500, 999⟩])]).Nodup ∧
      PairwiseDisjoint
        (List.flatMap [("A", [(⟨0, 499⟩ : shard)]), ("B", [⟨500, 999⟩])] Prod.snd) ∧
      Covers (List.flatMap [("A", [(⟨0, 499⟩ : shard)]), ("B", [⟨500, 999⟩])] Prod.snd)
        MIN_KEY MAX_KEY ∧
      ShardkvServer.QueryShardmaster
          ⟨"A", [("all_users", "user_1,user_600,"), ("post_700", "p"), ("user_1", "a"),
            ("user_600", "b"), ("user_600_posts", "post_700,")], [⟨0, 999⟩], [], []⟩
          (some [("A", [⟨0, 499⟩]), ("B", [⟨500, 999⟩])])
        = some (⟨"A", [("all_users", "user_1,"), ("user_1", "a")], [⟨0, 499⟩],
            [("A", [⟨0, 499⟩]), ("B", [⟨500, 999⟩])], []⟩,
          [PeerCall.Put "B" "post_700" "p" "", PeerCall.Put "B" "user_600" "b" "",
            PeerCall.Put "B" "user_600_posts" "post_700," ""])) ∧
    ∃ id, extractID "user_600" = some id :=
  have hcov : Covers
      (List.flatMap [("A", [(⟨0, 499⟩ : shard)]), ("B", [⟨500, 999⟩])] Prod.snd)
      MIN_KEY MAX_KEY := by
    intro k
    simp only [List.flatMap_cons, List.flatMap_nil, List.singleton_append, List.append_nil,
      List.mem_cons, List.mem_singleton, List.not_mem_nil, or_false, exists_eq_or_imp,
      exists_eq_left, shard.contains, MIN_KEY, MAX_KEY]
    omega
  ⟨⟨by decide, by decide, by decide, hcov, by decide⟩,
   ((reconcile_sends_each_migrated_record_once
      ⟨"A", [("all_users", "user_1,user_600,"), ("post_700", "p"), ("user_1", "a"),
        ("user_600", "b"), ("user_600_posts", "post_700,")], [⟨0, 999⟩], [], []⟩
      [("A", [⟨0, 499⟩]), ("B", [⟨500, 999⟩])]
      (by decide) (by decide) (by decide) hcov).2
      ⟨"A", [("all_users", "user_1,"), ("user_1", "a")], [⟨0, 499⟩],
        [("A", [⟨0, 499⟩]), ("B", [⟨500, 999⟩])], []⟩
      [PeerCall.Put "B" "post_700" "p" "", PeerCall.Put "B" "user_600" "b" "",
        PeerCall.Put "B" "user_600_posts" "post_700," ""]
      (by decide)
      "user_600" "b" (by decide) (by decide)).imp (fun _ h => h.1)⟩

/-- C25 as stated fails: `Put(user_5, a)`, `Put(user_7, b)` and
`Append(user_5_posts, "user_7,")`, all on keys of the schema, lead to a
store whose `all_users` record `user_5,user_7,` lists exactly the stored
users; `Delete(user_5)` then returns OK and erases the record `user_7` named
in the posts record, while `all_users` becomes `user_7,`: it lists a user
that is not stored. -/
theorem delete_breaks_all_users_mirror :
    ((ShardkvServer.Put ⟨"A", [("all_users", "")], [⟨0, 999⟩], [], []⟩ "user_5" "a" "").bind
        (fun r => r.2.1.Put "user_7" "b" "")).bind
        (fun r => r.2.1.Append "user_5_posts" "user_7,")
      = some (.OK,
          ⟨"A", [("all_users", "user_5,user_7,"), ("user_5", "a"),
            ("user_5_posts", "user_7,"), ("user_7", "b")], [⟨0, 999⟩], [], []⟩, []) ∧
    ListsUsers
      [("all_users", "user_5,user_7,"), ("user_5", "a"), ("user_5_posts", "user_7,"),
        ("user_7", "b")] ["user_5", "user_7"] ∧
    ShardkvServer.Delete
        ⟨"A", [("all_users", "user_5,user_7,"), ("user_5", "a"),
          ("user_5_posts", "user_7,"), ("user_7", "b")], [⟨0, 999⟩], [], []⟩ "user_5"
      = some (.OK, ⟨"A", [("all_users", "user_7,")], [⟨0, 999⟩], [], ["user_5"]⟩, []) ∧
    StdMap.find [("all_users", "user_7,")] "user_7" = none ∧
    ¬ ∃ l, ListsUsers [("all_users", "user_7,")] l := by
  refine ⟨by decide, by decide, by decide, by decide, ?_⟩
  rintro ⟨l, h1, -, h3, -⟩
  cases l with
  | nil => exact absurd h1 (by decide)
  | cons a rest =>
    have ha := h3 a (List.mem_cons_self _ _)
    by_cases hk : "all_users" = a
    · rw [← hk] at ha
      exact absurd ha.1 (by decide)
    · exact ha.2 (by simp [StdMap.find, hk])

/-- C25, amended: let the `all_users` record of a server be the
comma-terminated list `l` of exactly the stored keys `user_<id>`, each once.
After a `Put` or an `Append` on a key `user_<id>`, `user_<id>_posts` or
`post_<id>` (with a user argument that is empty or of the form `user_<n>`),
whatever the status, `all_users` lists exactly the stored users again: the
list is `l`, or `l` followed by the one user the call created. After a
`Delete` on such a key, provided the record `user_<id>_posts` of a deleted
user names no key of the form `user_<n>`, the list is `l`, or `l` without
the deleted user. After a reconciler pass that completes (the store has no
repeated key, the response lists every server once), the list is `l`
restricted to the users whose id is in the new local intervals, in their
order. -/
theorem all_users_mirrors_stored_users (s : ShardkvServer) (l : List String)
    (hl : ListsUsers s.kv_store l) :
    (∀ (ds : List Char) (key data user : String) (st : Status) (s' : ShardkvServer)
      (calls : List PeerCall), Decimal ds →
      (key = userKey ds ∨ key = userPostsKey ds ∨ key = postKey ds) →
      (user = "" ∨ isUserKey user = true) →
      s.Put key data user = some (st, s', calls) →
      ListsUsers s'.kv_store l ∨
        ∃ u, isUserKey u = true ∧ StdMap.find s.kv_store u = none ∧
          ListsUsers s'.kv_store (l ++ [u])) ∧
    (∀ (ds : List Char) (key data : String) (st : Status) (s' : ShardkvServer)
      (calls : List PeerCall), Decimal ds →
      (key = userKey ds ∨ key = userPostsKey ds ∨ key = postKey ds) →
      s.Append key data = some (st, s', calls) →
      ListsUsers s'.kv_store l ∨
        ∃ u, isUserKey u = true ∧ StdMap.find s.kv_store u = none ∧
          ListsUsers s'.kv_store (l ++ [u])) ∧
    (∀ (ds : List Char) (key : String) (st : Status) (s' : ShardkvServer)
      (calls : List PeerCall), Decimal ds →
      (key = userKey ds ∨ key = userPostsKey ds ∨ key = postKey ds) →
      (∀ posts, StdMap.find s.kv_store (key ++ "_posts") = some posts →
        ∀ t ∈ parse_value posts ",", isUserKey t = false) →
      s.Delete key = some (st, s', calls) →
      ListsUsers s'.kv_store l ∨
        (isUserKey key = true ∧ StdMap.find s.kv_store key ≠ none ∧
          ListsUsers s'.kv_store (l.erase key))) ∧
    (∀ (config : List (String × List shard)) (s' : ShardkvServer) (calls : List PeerCall),
      (s.kv_store.map Prod.fst).Nodup → (config.map Prod.fst).Nodup →
      s.QueryShardmaster (some config) = some (s', calls) →
      ListsUsers s'.kv_store (l.filter (fun k => idInShards k s'.local_shard))) :=
  ⟨fun ds key data user st s' calls hds hkey huser h =>
      Put_listsUsers s s' ds key data user st calls l hds hkey huser hl h,
   fun ds key data st s' calls hds hkey h =>
      Append_listsUsers s s' ds key data st calls l hds hkey hl h,
   fun ds key st s' calls hds hkey hposts h =>
      Delete_listsUsers s s' ds key st calls l hds hkey hl hposts h,
   fun config s' calls hkv hcfg h =>
      QueryShardmaster_listsUsers s s' config calls l hkv hcfg hl h⟩

/-- Witness of C25: `Delete(user_5)` on a server that stores users 5 and 7
and the post 9 of user 5. -/
theorem all_users_mirrors_stored_users_witness :
    (ListsUsers
        [("all_users", "user_5,user_7,"), ("post_9", "p"), ("user_5", "a"),
          ("user_5_posts", "post_9,"), ("user_7", "b")] ["user_5", "user_7"] ∧
      Decimal ['5'] ∧ "user_5" = userKey ['5'] ∧
      ShardkvServer.Delete
          ⟨"A", [("all_users", "user_5,user_7,"), ("post_9", "p"), ("user_5", "a"),
            ("user_5_posts", "post_9,"), ("user_7", "b")], [⟨0, 999⟩], [], []⟩ "user_5"
        = some (.OK,
            ⟨"A", [("all_users", "user_7,"), ("user_7", "b")], [⟨0, 999⟩], [],
              ["user_5"]⟩, [])) ∧
    (ListsUsers [("all_users", "user_7,"), ("user_7", "b")] ["user_5", "user_7"] ∨
      (isUserKey "user_5" = true ∧
        StdMap.find
          [("all_users", "user_5,user_7,"), ("post_9", "p"), ("user_5", "a"),
            ("user_5_posts", "post_9,"), ("user_7", "b")] "user_5" ≠ none ∧
        ListsUsers [("all_users", "user_7,"), ("user_7", "b")]
          (["user_5", "user_7"].erase "user_5"))) :=
  ⟨by decide,
   (all_users_mirrors_stored_users
      ⟨"A", [("all_users", "user_5,user_7,"), ("post_9", "p"), ("user_5", "a"),
        ("user_5_posts", "post_9,"), ("user_7", "b")], [⟨0, 999⟩], [], []⟩
      ["user_5", "user_7"] (by decide)).2.2.1 ['5'] "user_5" .OK
      ⟨"A", [("all_users", "user_7,"), ("user_7", "b")], [⟨0, 999⟩], [], ["user_5"]⟩ []
      (by decide) (Or.inl (by decide))
      (fun posts hp t ht => by
        have h2 : StdMap.find
            [("all_users", "user_5,user_7,"), ("post_9", "p"), ("user_5", "a"),
              ("user_5_posts", "post_9,"), ("user_7", "b")] ("user_5" ++ "_posts")
            = some "post_9," := by decide
        rw [h2] at hp
        cases hp
        have h3 : parse_value "post_9," "," = ["post_9"] := by decide
        rw [h3, List.mem_singleton] at ht
        rw [ht]
        decide)
      (by decide)⟩

/-- C26: with the key `post_5` followed by a NUL character
and `_posts`, and the user argument `post_5` followed by a NUL character (the
tokens of both are read up to the NUL), the first `Put` returns OK and leaves
the key with the data followed by the key and a comma, the second `Put`
returns OK and leaves it with the data alone: the store after the second
`Put` is not the store after the first. -/
theorem put_twice_differs_on_posts_key :
    ShardkvServer.Put ⟨"A", [("all_users", "")], [⟨0, 999⟩], [], []⟩
        "post_5\x00_posts" "hi" "post_5\x00"
      = some (.OK,
          ⟨"A", [("all_users", "post_5\x00,"), ("post_5\x00", ""),
              ("post_5\x00_posts", "hipost_5\x00_posts,")], [⟨0, 999⟩], [], []⟩, []) ∧
    ShardkvServer.Put
        ⟨"A", [("all_users", "post_5\x00,"), ("post_5\x00", ""),
            ("post_5\x00_posts", "hipost_5\x00_posts,")], [⟨0, 999⟩], [], []⟩
        "post_5\x00_posts" "hi" "post_5\x00"
      = some (.OK,
          ⟨"A", [("all_users", "post_5\x00,"), ("post_5\x00", ""),
              ("post_5\x00_posts", "hi")], [⟨0, 999⟩], [], []⟩, []) := by
  decide

/-- C27: in every shardmaster state reached by Join, Leave and Move calls,
`Join(s)` returns an invalid-argument error and leaves the member order and
the assignment unchanged when `s` is empty or already a member; and when it
returns OK the member order afterwards is the previous order followed by
`s`, so that the previous members keep their relative order. -/
theorem join_rejects_or_appends (sm : StaticShardmaster) (s : String)
    (hr : ReachableAny sm) :
    (s = "" ∨ s ∈ sm.server_order →
      ∃ msg, sm.Join s = some (.INVALID_ARGUMENT msg, sm)) ∧
    (∀ sm', sm.Join s = some (.OK, sm') →
      s ≠ "" ∧ s ∉ sm.server_order ∧ sm'.server_order = sm.server_order ++ [s]) := by
  have hc := reachableAny_consistent sm hr
  refine ⟨fun h => ?_, fun sm' h => ?_⟩
  · by_cases h0 : s = ""
    · exact ⟨"ERR: JOIN request null server", by simp [StaticShardmaster.Join, h0]⟩
    · have hm : s ∈ sm.server_order := h.resolve_left h0
      have hf := find_ne_none_of_consistent sm hc s hm
      refine ⟨"ERR: JOIN request server already in cluster", ?_⟩
      cases hfs : StdMap.find sm.server_shard_map s with
      | none => exact absurd hfs hf
      | some v => simp [StaticShardmaster.Join, h0, hfs]
  · have h1 := join_ok_cases sm sm' s h
    exact ⟨h1.1, not_mem_order_of_find_none sm hc s h1.2.1, (join_consistent sm sm' s hc h).2⟩

/-- Witness of C27: `Join(A)` on the state left by `Join(A)`, `Join(B)`. -/
theorem join_rejects_or_appends_witness :
    ReachableAny ⟨["A", "B"], [("A", [⟨0, 499⟩]), ("B", [⟨500, 999⟩])]⟩ ∧
    ∃ msg, StaticShardmaster.Join ⟨["A", "B"], [("A", [⟨0, 499⟩]), ("B", [⟨500, 999⟩])]⟩ "A"
      = some (.INVALID_ARGUMENT msg,
          ⟨["A", "B"], [("A", [⟨0, 499⟩]), ("B", [⟨500, 999⟩])]⟩) :=
  have hr : ReachableAny ⟨["A", "B"], [("A", [⟨0, 499⟩]), ("B", [⟨500, 999⟩])]⟩ :=
    ReachableAny.step (.Join "B") .OK
      (ReachableAny.step (.Join "A") .OK ReachableAny.empty
        (show StaticShardmaster.empty.handle (.Join "A")
          = some (.OK, ⟨["A"], [("A", [⟨0, 999⟩])]⟩) by decide))
      (by decide)
  ⟨hr, (join_rejects_or_appends _ "A" hr).1 (Or.inr (by decide))⟩

/-- C28: in every shardmaster state reached by Join, Leave and Move calls,
`Leave(servers)` returns an invalid-argument error if the server list is
empty or some listed server is not a member of the configuration. -/
theorem leave_rejects_empty_or_unknown (sm : StaticShardmaster) (servers : List String)
    (hr : ReachableAny sm)
    (h : servers = [] ∨ ∃ x ∈ servers, x ∉ sm.server_order) :
    ∃ msg sm', sm.Leave servers = some (.INVALID_ARGUMENT msg, sm') := by
  have hc := reachableAny_consistent sm hr
  by_cases h0 : servers = []
  · subst h0
    exact ⟨"ERR: LEAVE request null server list", sm, by simp [StaticShardmaster.Leave]⟩
  · obtain ⟨x, hx, hnm⟩ := h.resolve_left h0
    obtain ⟨sm1, h1⟩ := leaveAll_missing servers sm x hx (find_none_of_consistent sm hc x hnm)
    have hl : servers.length ≠ 0 := by
      intro hl
      exact h0 (List.length_eq_zero.1 hl)
    refine ⟨"ERR: LEAVE request server not found in config", sm1, ?_⟩
    simp only [StaticShardmaster.Leave, hl, if_false, h1]

/-- Witness of C28: `Leave([B, C])` on the state left by `Join(A)`,
`Join(B)`, where `C` is not a member. -/
theorem leave_rejects_empty_or_unknown_witness :
    (ReachableAny ⟨["A", "B"], [("A", [⟨0, 499⟩]), ("B", [⟨500, 999⟩])]⟩ ∧
      (["B", "C"] = [] ∨ ∃ x ∈ ["B", "C"], x ∉ ["A", "B"])) ∧
    ∃ msg sm', StaticShardmaster.Leave
        ⟨["A", "B"], [("A", [⟨0, 499⟩]), ("B", [⟨500, 999⟩])]⟩ ["B", "C"]
      = some (.INVALID_ARGUMENT msg, sm') :=
  have hr : ReachableAny ⟨["A", "B"], [("A", [⟨0, 499⟩]), ("B", [⟨500, 999⟩])]⟩ :=
    ReachableAny.step (.Join "B") .OK
      (ReachableAny.step (.Join "A") .OK ReachableAny.empty
        (show StaticShardmaster.empty.handle (.Join "A")
          = some (.OK, ⟨["A"], [("A", [⟨0, 999⟩])]⟩) by decide))
      (by decide)
  ⟨⟨hr, Or.inr ⟨"C", by decide, by decide⟩⟩,
   leave_rejects_empty_or_unknown _ ["B", "C"] hr (Or.inr ⟨"C", by decide, by decide⟩)⟩

/-- C29: in `SimpleShardkvServer`, for every store, every non-empty key `k`
and every non-empty value `v`: when `k` is not in the store, `Append(k, v)`
returns OK and produces exactly the store `Put(k, v)` produces, in which `k`
maps to `v`; when `k` is stored with value `w`, `Append(k, v)` returns OK and
makes it `w` followed by `v`, every other record unchanged. -/
theorem simple_append_absent_equals_put (s : SimpleShardkvServer) (k v : String)
    (hk : k ≠ "") (hv : v ≠ "") :
    (StdMap.find s.kv_store k = none →
      s.Append k v = (.OK, ⟨StdMap.insert s.kv_store k v⟩) ∧
      s.Append k v = s.Put k v ∧
      StdMap.find (StdMap.insert s.kv_store k v) k = some v) ∧
    (∀ w, StdMap.find s.kv_store k = some w →
      s.Append k v = (.OK, ⟨StdMap.assign s.kv_store k (w ++ v)⟩) ∧
      StdMap.find (StdMap.assign s.kv_store k (w ++ v)) k = some (w ++ v) ∧
      ∀ k', k' ≠ k →
        StdMap.find (StdMap.assign s.kv_store k (w ++ v)) k' = StdMap.find s.kv_store k') := by
  refine ⟨fun hf => ⟨?_, ?_, StdMap.find_insert_self _ _ _ hf⟩,
    fun w hf => ⟨?_, StdMap.find_assign_self _ _ _ _ hf,
      fun k' hk' => StdMap.find_assign_ne _ _ _ _ (Ne.symm hk')⟩⟩
  · simp [SimpleShardkvServer.Append, hk, hv, hf]
  · simp [SimpleShardkvServer.Append, SimpleShardkvServer.Put, hk, hv, hf]
  · simp [SimpleShardkvServer.Append, hk, hv, hf]

/-- Witness of C29: `Append(b, x)` on a store that holds `a` only. -/
theorem simple_append_absent_equals_put_witness :
    ("b" ≠ "" ∧ "x" ≠ "" ∧ StdMap.find [("a", "1")] "b" = none) ∧
    SimpleShardkvServer.Append ⟨[("a", "1")]⟩ "b" "x"
      = SimpleShardkvServer.Put ⟨[("a", "1")]⟩ "b" "x" :=
  ⟨by decide,
   ((simple_append_absent_equals_put ⟨[("a", "1")]⟩ "b" "x" (by decide) (by decide)).1
      (by decide)).2.1⟩

/-- C30: in every shardmaster state reached by Join, Leave and Move calls,
`Move(s, M)` for a member `s` and an interval `M` with `M.lower <= M.upper`
returns OK, keeps the member order, and replaces the list of every member by
the concatenation, in the original order, of what the `switch` leaves of
each of its intervals, followed by `M` for the member `s` (so `M` is the
last interval of `s`). An interval `S` that contains `M`
(`S.lower <= M.lower` and `M.upper <= S.upper`, bounds of `unsigned int`) is
replaced by `[S.lower, M.lower - 1]` only if `S.lower < M.lower`, followed
by `[M.upper + 1, S.upper]` only if `M.upper < S.upper`; an interval
disjoint from `M` is kept unchanged. Consequently, when `M` lies inside an
interval of a configuration that is well-formed, pairwise disjoint and
covers `[MIN_KEY, MAX_KEY]`, the configuration after the call is again
well-formed, pairwise disjoint and covering. -/
theorem move_inside_interval (sm : StaticShardmaster) (s : String) (M : shard)
    (hr : ReachableAny sm) (hs0 : s ≠ "") (hs : s ∈ sm.server_order)
    (hM : M.lower ≤ M.upper) :
    ∃ sm', sm.Move s M = some (.OK, sm') ∧ sm'.server_order = sm.server_order ∧
      (∀ k l, StdMap.find sm.server_shard_map k = some l →
        StdMap.find sm'.server_shard_map k =
          some (l.flatMap (fun sd => (moveOne M sd).getD []) ++ if k = s then [M] else [])) ∧
      (∀ S : shard, S.lower ≤ M.lower → M.upper ≤ S.upper → S.upper < UINT_MOD →
        moveOne M S =
          some ((if S.lower < M.lower then [⟨S.lower, M.lower - 1⟩] else []) ++
            (if M.upper < S.upper then [⟨M.upper + 1, S.upper⟩] else []))) ∧
      (∀ T : shard, T.disjoint M → moveOne M T = some [T]) ∧
      (WellFormed sm.intervals → PairwiseDisjoint sm.intervals →
        Covers sm.intervals MIN_KEY MAX_KEY →
        (∃ S ∈ sm.intervals, S.lower ≤ M.lower ∧ M.upper ≤ S.upper) →
        WellFormed sm'.intervals ∧ PairwiseDisjoint sm'.intervals ∧
          Covers sm'.intervals MIN_KEY MAX_KEY) := by
  have hc := reachableAny_consistent sm hr
  refine ⟨_, move_spec sm s M hc hs0 hs, rfl, fun k l hl => ?_,
    fun S h1 h2 h3 => moveOne_contained M S hM h1 h2 h3,
    fun T hT => moveOne_disjoint M T hT, ?_⟩
  · show StdMap.find (sm.server_shard_map.map (fun e =>
        (e.1, e.2.flatMap (fun sd => (moveOne M sd).getD []) ++
          (if e.1 = s then [M] else [])))) k = _
    rw [StdMap.find_map_snd (fun k l => l.flatMap (fun sd => (moveOne M sd).getD []) ++
        (if k = s then [M] else [])) sm.server_shard_map k, hl]
    rfl
  · rintro hwf hd hcov ⟨S, hS, hl, hu⟩
    exact move_inside_preserves sm s M S hc hs hM hwf hd hcov hS hl hu

/-- Witness of C30: `Move(B, [100, 200])` on `A:[0,499]`, `B:[500,999]`
(two Joins) gives `A:[0,99],[201,499]`, `B:[500,999],[100,200]`. -/
theorem move_inside_interval_witness :
    (ReachableAny ⟨["A", "B"], [("A", [⟨0, 499⟩]), ("B", [⟨500, 999⟩])]⟩ ∧
      "B" ≠ "" ∧ "B" ∈ ["A", "B"] ∧ (100 : Nat) ≤ 200) ∧
    StaticShardmaster.Move ⟨["A", "B"], [("A", [⟨0, 499⟩]), ("B", [⟨500, 999⟩])]⟩ "B" ⟨100, 200⟩
      = some (.OK, ⟨["A", "B"],
          [("A", [⟨0, 99⟩, ⟨201, 499⟩]), ("B", [⟨500, 999⟩, ⟨100, 200⟩])]⟩) ∧
    ∃ sm', StaticShardmaster.Move
          ⟨["A", "B"], [("A", [⟨0, 499⟩]), ("B", [⟨500, 999⟩])]⟩ "B" ⟨100, 200⟩
        = some (.OK, sm') ∧
      WellFormed sm'.intervals ∧ PairwiseDisjoint sm'.intervals ∧
        Covers sm'.intervals MIN_KEY MAX_KEY :=
  have hr : ReachableAny ⟨["A", "B"], [("A", [⟨0, 499⟩]), ("B", [⟨500, 999⟩])]⟩ :=
    ReachableAny.step (.Join "B") .OK
      (ReachableAny.step (.Join "A") .OK ReachableAny.empty
        (show StaticShardmaster.empty.handle (.Join "A")
          = some (.OK, ⟨["A"], [("A", [⟨0, 999⟩])]⟩) by decide))
      (by decide)
  have hcov : Covers
      (StaticShardmaster.intervals ⟨["A", "B"], [("A", [⟨0, 499⟩]), ("B", [⟨500, 999⟩])]⟩)
      MIN_KEY MAX_KEY := by
    intro k
    simp only [StaticShardmaster.intervals, List.flatMap_cons, List.flatMap_nil,
      List.singleton_append, List.mem_cons, List.mem_singleton, List.not_mem_nil, or_false,
      exists_eq_or_imp, exists_eq_left, shard.contains, MIN_KEY, MAX_KEY]
    omega
  ⟨⟨hr, by decide, by decide, by decide⟩, by decide,
   (move_inside_interval _ "B" ⟨100, 200⟩ hr (by decide) (by decide) (by decide)).imp
     (fun _ h => ⟨h.1, h.2.2.2.2.2 (by decide) (by decide) hcov
       ⟨⟨0, 499⟩, by decide, by decide, by decide⟩⟩)⟩

/-- C31: on the configuration left by `Join(A)`, `Join(B)`, the calls
`Leave([A, X])` and `Leave([A, A])` return the invalid-argument error and
leave a configuration from which `A` has been removed and in which `B` still
holds `[500, 999]` only, so that the keys `0..499` have no owner. -/
theorem leave_error_keeps_removals :
    ReachableAny ⟨["A", "B"], [("A", [⟨0, 499⟩]), ("B", [⟨500, 999⟩])]⟩ ∧
    StaticShardmaster.Leave ⟨["A", "B"], [("A", [⟨0, 499⟩]), ("B", [⟨500, 999⟩])]⟩ ["A", "X"]
      = some (.INVALID_ARGUMENT "ERR: LEAVE request server not found in config",
          ⟨["B"], [("B", [⟨500, 999⟩])]⟩) ∧
    StaticShardmaster.Leave ⟨["A", "B"], [("A", [⟨0, 499⟩]), ("B", [⟨500, 999⟩])]⟩ ["A", "A"]
      = some (.INVALID_ARGUMENT "ERR: LEAVE request server not found in config",
          ⟨["B"], [("B", [⟨500, 999⟩])]⟩) ∧
    ¬ Covers (StaticShardmaster.intervals ⟨["B"], [("B", [⟨500, 999⟩])]⟩) MIN_KEY MAX_KEY :=
  ⟨ReachableAny.step (.Join "B") .OK
      (ReachableAny.step (.Join "A") .OK ReachableAny.empty
        (show StaticShardmaster.empty.handle (.Join "A")
          = some (.OK, ⟨["A"], [("A", [⟨0, 999⟩])]⟩) by decide))
      (by decide),
    by decide, by decide,
    fun h => absurd ((h 0).2 (by decide)) (by decide)⟩

/-- C32: for every even `n ≥ 2` and every `min ≤ max` with
`max - min + 1 ≥ 2 ^ (n / 2)`, `partition(n, min, max)` runs `n / 2`
splitting passes in which no assertion of `split_shard` fails and returns the
sorted vector, which has exactly `2 ^ (n / 2)` intervals, with strictly
ascending lower bounds, that tile `[min, max]`: the first lower is `min`, the
last upper is `max`, each interval's lower is the previous interval's upper
plus 1, and every interval has `lower ≤ upper` and lies inside `[min, max]`. -/
theorem partition_even_tiles (n : Int) (min max : Nat) (hn : 2 ≤ n) (heven : n % 2 = 0)
    (hmm : min ≤ max) (hsize : 2 ^ (n / 2).toNat ≤ max - min + 1) :
    ∃ stack shards, splitPasses (n / 2).toNat [⟨min, max⟩] = some stack ∧
      partition n min max = some shards ∧ shards = sortAscendingInterval stack ∧
      shards.length = 2 ^ (n / 2).toNat ∧
      shards.Pairwise (fun a b => a.lower < b.lower) ∧
      shards.head?.map shard.lower = some min ∧
      shards.getLast?.map shard.upper = some max ∧
      shards.Chain' (fun a b => b.lower = a.upper + 1) ∧
      ∀ s ∈ shards, min ≤ s.lower ∧ s.lower ≤ s.upper ∧ s.upper ≤ max := by
  have ht : TilesFrom max min [⟨min, max⟩] := ⟨rfl, hmm, rfl⟩
  obtain ⟨stack, T, h1, h2, h3, h4⟩ := splitPasses_tiles max min (n / 2).toNat [⟨min, max⟩]
    [⟨min, max⟩] (List.Perm.refl _) ht (fun s hs => by
      rw [List.mem_singleton.1 hs]
      exact hsize)
  have hsort : sortAscendingInterval stack = T := sort_of_perm_tiles max min stack T h2 h3
  have hlen : T.length = 2 ^ (n / 2).toNat := by
    rw [h4]
    simp
  have hne : T ≠ [] := by
    intro h0
    rw [h0] at hlen
    have hpos : 1 ≤ 2 ^ (n / 2).toNat := Nat.one_le_two_pow
    simp only [List.length_nil] at hlen
    omega
  obtain ⟨w1, w2, w3⟩ := tilesFrom_words max T min h3 hne
  refine ⟨stack, T, h1, ?_, hsort.symm, hlen, tilesFrom_pairwise max T min h3, w1, w2, w3,
    fun s hs => ⟨tilesFrom_lower max T min h3 s hs, tilesFrom_wf max T min h3 s hs,
      tilesFrom_upper max T min h3 s hs⟩⟩
  have hn1 : ¬ n < 1 := by omega
  have hn2 : ¬ n = 1 := by omega
  simp only [partition, if_neg hn1, if_neg hn2, if_pos heven, h1, Option.map_some', hsort]

/-- Witness of C32: `partition(4, 0, 999)`. -/
theorem partition_even_tiles_witness :
    ((2 : Int) ≤ 4 ∧ (4 : Int) % 2 = 0 ∧ 0 ≤ 999 ∧ 2 ^ ((4 : Int) / 2).toNat ≤ 999 - 0 + 1) ∧
    ∃ stack shards, splitPasses ((4 : Int) / 2).toNat [⟨0, 999⟩] = some stack ∧
      partition 4 0 999 = some shards ∧ shards = sortAscendingInterval stack ∧
      shards.length = 2 ^ ((4 : Int) / 2).toNat ∧
      shards.Pairwise (fun a b => a.lower < b.lower) ∧
      shards.head?.map shard.lower = some 0 ∧
      shards.getLast?.map shard.upper = some 999 ∧
      shards.Chain' (fun a b => b.lower = a.upper + 1) ∧
      ∀ s ∈ shards, 0 ≤ s.lower ∧ s.lower ≤ s.upper ∧ s.upper ≤ 999 :=
  ⟨⟨by decide, by decide, by decide, by decide⟩,
    partition_even_tiles 4 0 999 (by decide) (by decide) (by decide) (by decide)⟩

/-- C33: after `Join(A)`, `Join(B)`, `Leave([A])` the Query response is
`B:[0,999]`; the pass of server `A` over it, with a store
that holds `all_users` and the user `user_1` it lists, does not complete,
because `server_shard_map.find(address)` is `end()` and is dereferenced. The
same holds for a fresh server `A` that has not joined, and for every server
and every response from which the entries of the server are left out. -/
theorem reconcile_unlisted_address_fails :
    (StaticShardmaster.runOK [.Join "A", .Join "B", .Leave ["A"]]
        StaticShardmaster.empty).bind StaticShardmaster.Query
      = some (.OK, [("B", [⟨0, 999⟩])]) ∧
    ShardkvServer.QueryShardmaster
        ⟨"A", [("all_users", "user_1,"), ("user_1", "a")], [⟨0, 499⟩],
          [("A", [⟨0, 499⟩]), ("B", [⟨500, 999⟩])], []⟩
        (some [("B", [⟨0, 999⟩])]) = none ∧
    ShardkvServer.QueryShardmaster ⟨"A", [("all_users", "")], [], [], []⟩
        (some [("B", [⟨0, 999⟩])]) = none ∧
    ∀ (s : ShardkvServer) (config : List (String × List shard)),
      s.QueryShardmaster (some (config.filter (fun e => e.1 != s.address))) = none :=
  ⟨by decide, by decide, by decide, fun s config =>
    QueryShardmaster_unlisted s _ (fun e he => by simpa using (List.mem_filter.1 he).2)⟩

end DistStore
